import Mathlib

/-!
# Mask propagation and vector-length scheduling (`Hi::runOnFunction`, Hello.cpp)

A shallow embedding of the function pass `Hi` of `Hello.cpp`.  The pass walks
the blocks of every top-level loop of the function `workitemLoop` twice.  The
first walk (step 1) reads the trip count out of the block `for.cond`, emits the
increment `local_id += vl` into `for.inc`, emits the `vsetvli` request into
`for.body` and declares entry and exit masks for every other block.  The second
walk (step 2) emits, for every block other than `for.cond` and `for.inc`, the
OR over the exit masks of the predecessors and stores it in the entry mask.

The IR toolkit the pass is written against is not part of the repository; the
few operations the pass calls are modelled below, each next to the name it has
in that toolkit.  A C++ null dereference, the dereference of an end iterator
and the read of an uninitialised local are results of type `Crash`.
-/

namespace Packetizer

/-! ## The IR the pass reads and writes -/

/-- Result type of an instruction, as far as the pass distinguishes them. -/
inductive Ty where
  | i1
  | i32
  | ptr
  | void
  | other
  deriving DecidableEq, Repr

/-- Instruction opcodes (`Instruction::getOpcode`). -/
inductive Opcode where
  | PHI
  | LandingPad
  | ICmp
  | Load
  | Store
  | Add
  | Sub
  | And
  | Or
  | Xor
  | Call
  | Alloca
  | Br
  | IndirectBr
  | Switch
  | Invoke
  | Ret
  | Unreachable
  | Other
  deriving DecidableEq, Repr

/-- Opcodes of terminator instructions (`Instruction::isTerminator`). -/
def Opcode.isTerminator : Opcode → Bool
  | .Br | .IndirectBr | .Switch | .Invoke | .Ret | .Unreachable => true
  | _ => false

/-- Exception-handling pads, which `getFirstInsertionPt` steps over. -/
def Opcode.isEHPad : Opcode → Bool
  | .LandingPad => true
  | _ => false

/-- A value in operand position (`llvm::Value *`).  An instruction is referred to
by its identity `id`, a basic block by its position in the function, a constant
integer by its bit width and its zero-extended bit pattern. -/
inductive Value where
  | constInt (bits : Nat) (val : Nat)
  | inst (id : Nat)
  | global (name : String)
  | block (idx : Nat)
  | argument (idx : Nat)
  | func (name : String)
  deriving DecidableEq, Repr

/-- One instruction: its identity, its name in the function's symbol table (empty
when unnamed), opcode, result type and operand list (`getOperand i` is the
entry `i` of `operands`). -/
structure Instr where
  id : Nat
  name : String
  op : Opcode
  ty : Ty
  operands : List Value
  deriving DecidableEq, Repr

/-- A basic block: a name and the instruction list. -/
structure BasicBlock where
  name : String
  instrs : List Instr
  deriving DecidableEq, Repr

/-- A function: name, argument names, blocks, and the counter `LastUnique` of its
value symbol table. -/
structure Function where
  name : String
  args : List String
  blocks : List BasicBlock
  lastUnique : Nat
  deriving DecidableEq, Repr

/-- The part of the module the pass touches: the global variables and the
function declarations, by name. -/
structure Module where
  globals : List String
  decls : List String
  deriving DecidableEq, Repr

/-- How a run of the pass can abort. -/
inductive Crash where
  | nullDeref
  | endIterator
  | uninitialised
  deriving DecidableEq, Repr

deriving instance DecidableEq for Except

/-- The conditional branch `br i1 cond, label ifTrue, label ifFalse`.  The toolkit's
constructor `BranchInst(IfTrue, IfFalse, Cond)` fills the operand list from
the back: `Op<-1> = IfTrue`, `Op<-2> = IfFalse`, `Op<-3> = Cond`; the operand
list therefore reads `[Cond, IfFalse, IfTrue]`. -/
def BranchInst.conditional (id : Nat) (cond : Value) (ifTrue ifFalse : Nat) : Instr :=
  { id := id, name := "", op := .Br, ty := .void,
    operands := [cond, .block ifFalse, .block ifTrue] }

/-- The unconditional branch `br label dest`: `Op<-1> = dest`, the only operand. -/
def BranchInst.unconditional (id : Nat) (dest : Nat) : Instr :=
  { id := id, name := "", op := .Br, ty := .void, operands := [.block dest] }

/-- The test `BranchInst::isConditional`: the instruction has three operands. -/
def Instr.isConditional (i : Instr) : Bool := i.operands.length == 3

/-- The accessor `BranchInst::getSuccessor i`, which is `Op<-(1+i)>`: successor `0` of a
conditional branch is the block taken when the condition is true. -/
def Instr.getSuccessor (i : Instr) (k : Nat) : Option Value :=
  i.operands[i.operands.length - 1 - k]?

/-- Number of leading PHI nodes of an instruction list (`getFirstNonPHI`). -/
def firstNonPHI : List Instr → Nat
  | [] => 0
  | i :: rest => if i.op = .PHI then firstNonPHI rest + 1 else 0

/-- The iterator `BasicBlock::getFirstInsertionPt`: the position of the first instruction that
is not a PHI node, one further when that instruction is an exception-handling
pad; `none` is the end iterator. -/
def getFirstInsertionPt (bb : BasicBlock) : Option Nat :=
  let k := firstNonPHI bb.instrs
  match bb.instrs[k]? with
  | none => none
  | some i =>
    if i.op.isEHPad then
      (if k + 1 < bb.instrs.length then some (k + 1) else none)
    else some k

/-- The accessor `BasicBlock::getTerminator`: the last instruction when it is a terminator,
null otherwise. -/
def getTerminator (bb : BasicBlock) : Option Instr :=
  match bb.instrs.getLast? with
  | some i => if i.op.isTerminator then some i else none
  | none => none

/-- Names held by the value symbol table of a function: arguments, blocks and
instructions that have a name. -/
def symbolNames (F : Function) : List String :=
  (F.args ++ F.blocks.map (fun b => b.name)
    ++ (F.blocks.map (fun b => b.instrs.map (fun i => i.name))).flatten).filter
      (fun s => s != "")

/-- The loop of `ValueSymbolTable::makeUniqueName`: append the next value of the counter
`LastUnique` to the base name until the result is free.  At most
`taken.length` candidates can be taken, which bounds the search. -/
def makeUniqueName (taken : List String) (base : String) : Nat → Nat → String × Nat
  | 0, last => (base ++ toString (last + 1), last + 1)
  | fuel + 1, last =>
    if (base ++ toString (last + 1)) ∈ taken then
      makeUniqueName taken base fuel (last + 1)
    else (base ++ toString (last + 1), last + 1)

/-- The effect of `Value::setName` for a new instruction of `F`: the requested name when it is
free in the symbol table, a uniqued one otherwise; also the new counter. -/
def setName (F : Function) (base : String) : String × Nat :=
  if base = "" then ("", F.lastUnique)
  else if base ∈ symbolNames F then
    makeUniqueName (symbolNames F) base (symbolNames F).length F.lastUnique
  else (base, F.lastUnique)

/-- Find the instruction named `n` in a block list: block index, position, instruction. -/
def lookupInstr (n : String) : List BasicBlock → Nat → Option (Nat × Nat × Instr)
  | [], _ => none
  | b :: rest, bi =>
    match b.instrs.findIdx? (fun i => i.name == n) with
    | some p =>
      (match b.instrs[p]? with
       | some i => some (bi, p, i)
       | none => lookupInstr n rest (bi + 1))
    | none => lookupInstr n rest (bi + 1)

/-- What `ValueSymbolTable::lookup` can return in a function. -/
inductive Symbol where
  | argument (idx : Nat)
  | block (idx : Nat)
  | instruction (bb : Nat) (pos : Nat) (i : Instr)
  deriving DecidableEq, Repr

/-- The search `ValueSymbolTable::lookup`: the value of the function that carries the name. -/
def lookup (F : Function) (n : String) : Option Symbol :=
  if n = "" then none
  else match F.args.indexOf? n with
    | some k => some (.argument k)
    | none =>
      match F.blocks.findIdx? (fun b => b.name == n) with
      | some k => some (.block k)
      | none =>
        match lookupInstr n F.blocks 0 with
        | some (bi, p, i) => some (.instruction bi p i)
        | none => none

/-- Name of the instruction with identity `id`, searched through the blocks. -/
def instrName (id : Nat) : List BasicBlock → String
  | [] => ""
  | b :: rest =>
    match b.instrs.find? (fun i => i.id == id) with
    | some i => i.name
    | none => instrName id rest

/-- The name `Value::getName` returns for an operand. -/
def getName (F : Function) : Value → String
  | .constInt _ _ => ""
  | .inst id => instrName id F.blocks
  | .global n => n
  | .block k => match F.blocks[k]? with
    | some b => b.name
    | none => ""
  | .argument k => match F.args[k]? with
    | some a => a
    | none => ""
  | .func n => n

/-- The range `predecessors(BB)`: one entry for every use of the block as an operand of a
terminator instruction.  The toolkit enumerates them in use-list order; here
they are listed in function order. -/
def predecessors (F : Function) (bi : Nat) : List Nat :=
  ((List.range F.blocks.length).map (fun p =>
    match F.blocks[p]? with
    | some b =>
      ((b.instrs.filter (fun i => i.op.isTerminator)).map (fun i =>
        (i.operands.filter (fun v => v == Value.block bi)).map (fun _ => p))).flatten
    | none => [])).flatten

/-! ## The instruction builder -/

/-- The state the pass threads through its walks: the module, the function being
rewritten, the identity the next created instruction gets, and the local
variable `trip_count` of `runOnFunction`. -/
structure PassState where
  M : Module
  F : Function
  nextId : Nat
  trip_count : Nat
  deriving DecidableEq, Repr

/-- The insertion point of an `IRBuilder`: new instructions are placed in block
`bb` in front of the instruction at position `pos`. -/
structure IRBuilder where
  bb : Nat
  pos : Nat
  deriving DecidableEq, Repr

/-- Put `i` in front of position `n` of an instruction list. -/
def insertAt (i : Instr) : List Instr → Nat → List Instr
  | rest, 0 => i :: rest
  | [], _ + 1 => [i]
  | x :: rest, n + 1 => x :: insertAt i rest n

/-- Apply `f` to the block at position `n`. -/
def updateBlock (f : BasicBlock → BasicBlock) : List BasicBlock → Nat → List BasicBlock
  | [], _ => []
  | b :: rest, 0 => f b :: rest
  | b :: rest, n + 1 => b :: updateBlock f rest n

/-- The instruction `IRBuilder::Insert` creates in state `st`: its identity is
fresh, its name is set through the symbol table of the function. -/
def newInstr (st : PassState) (name : String) (op : Opcode) (ty : Ty)
    (operands : List Value) : Instr :=
  { id := st.nextId, name := (setName st.F name).1, op := op, ty := ty, operands := operands }

/-- The state after `IRBuilder::Insert`: the new instruction sits at the insertion
point, the symbol table counter and the fresh identity have advanced. -/
def insertState (st : PassState) (b : IRBuilder) (name : String) (op : Opcode) (ty : Ty)
    (operands : List Value) : PassState :=
  { st with
    F := { st.F with
      blocks := updateBlock
        (fun bb => { bb with instrs := insertAt (newInstr st name op ty operands) bb.instrs b.pos })
        st.F.blocks b.bb
      lastUnique := (setName st.F name).2 }
    nextId := st.nextId + 1 }

/-- The builder's `IRBuilder::Insert`: create an instruction, name it, place it
at the insertion point; the insertion point stays in front of the same
instruction, so it moves one position down.  Returns the created value. -/
def Insert (st : PassState) (b : IRBuilder) (name : String) (op : Opcode) (ty : Ty)
    (operands : List Value) : PassState × IRBuilder × Value :=
  (insertState st b name op ty operands, { b with pos := b.pos + 1 }, .inst st.nextId)

/-- The builder's `CreateLoad(ty, ptr, name)`. -/
def CreateLoad (st : PassState) (b : IRBuilder) (ty : Ty) (ptr : Value) (name : String) :
    PassState × IRBuilder × Value :=
  Insert st b name .Load ty [ptr]

/-- The builder's `CreateStore(val, ptr)`: operand 0 is the stored value,
operand 1 the address. -/
def CreateStore (st : PassState) (b : IRBuilder) (val ptr : Value) :
    PassState × IRBuilder × Value :=
  Insert st b "" .Store .void [val, ptr]

/-- The builder's `CreateAdd(lhs, rhs, name)` on `i32` values. -/
def CreateAdd (st : PassState) (b : IRBuilder) (lhs rhs : Value) (name : String) :
    PassState × IRBuilder × Value :=
  Insert st b name .Add .i32 [lhs, rhs]

/-- The builder's `CreateSub(lhs, rhs, name)` on `i32` values. -/
def CreateSub (st : PassState) (b : IRBuilder) (lhs rhs : Value) (name : String) :
    PassState × IRBuilder × Value :=
  Insert st b name .Sub .i32 [lhs, rhs]

/-- The builder's `CreateAnd(lhs, rhs)` on `i1` values.  The constant folder of
the builder, which replaces an instruction on constants by its value, is not
modelled: every call yields an instruction. -/
def CreateAnd (st : PassState) (b : IRBuilder) (lhs rhs : Value) :
    PassState × IRBuilder × Value :=
  Insert st b "" .And .i1 [lhs, rhs]

/-- The builder's `CreateOr(lhs, rhs)` on `i1` values. -/
def CreateOr (st : PassState) (b : IRBuilder) (lhs rhs : Value) :
    PassState × IRBuilder × Value :=
  Insert st b "" .Or .i1 [lhs, rhs]

/-- The builder's `CreateNot(v)` on an `i1` value: the instruction `xor v, true`. -/
def CreateNot (st : PassState) (b : IRBuilder) (v : Value) :
    PassState × IRBuilder × Value :=
  Insert st b "" .Xor .i1 [v, .constInt 1 1]

/-- The builder's `CreateCall(callee, args)` of a function returning `i32`: the
arguments are the leading operands, the callee is the last one. -/
def CreateCall (st : PassState) (b : IRBuilder) (callee : Value) (args : List Value) :
    PassState × IRBuilder × Value :=
  Insert st b "" .Call .i32 (args ++ [callee])

/-- The builder's `CreateAlloca(i1, nullptr, name)`: a one-element stack slot. -/
def CreateAlloca (st : PassState) (b : IRBuilder) (name : String) :
    PassState × IRBuilder × Value :=
  Insert st b name .Alloca .ptr [.constInt 32 1]

/-- The state after `Module::getOrInsertGlobal(name, ty)`: the global variable
of that name is added to the module when it has none.  Globals are told apart
by name only; every global the pass asks for has type `i32` or `i1`. -/
def insertGlobal (st : PassState) (n : String) : PassState :=
  if n ∈ st.M.globals then st
  else { st with M := { st.M with globals := st.M.globals ++ [n] } }

/-- The call `Module::getOrInsertGlobal(name, ty)`: the global variable of that
name, added to the module when it has none. -/
def getOrInsertGlobal (st : PassState) (n : String) : PassState × Value :=
  (insertGlobal st n, .global n)

/-- The call `Intrinsic::getDeclaration`: the declaration of the intrinsic, added
to the module when it has none. -/
def getDeclaration (M : Module) (n : String) : Module × Value :=
  (if n ∈ M.decls then M else { M with decls := M.decls ++ [n] }, .func n)

/-- The call `builder.SetInsertPoint(terminator)` for the terminator of block
`bi`, which is the last instruction of the block. -/
def setInsertPointTerminator (st : PassState) (bi : Nat) : IRBuilder :=
  match st.F.blocks[bi]? with
  | some bb => { bb := bi, pos := bb.instrs.length - 1 }
  | none => { bb := bi, pos := 0 }

/-! ## Step 1: trip count, increment, scheduler, mask declaration -/

/-- The walk over the instructions of `for.cond` (source lines 85-90): every
integer comparison overwrites `trip_count` with the constant that is its
operand 1.  `dyn_cast<ConstantInt>` yields null for any other operand and the
result is dereferenced.  `getZExtValue` returns the low 64 bits of the constant
(a build with assertions aborts on a wider value), the assignment to the
`uint32_t` keeps its low 32 bits. -/
def scanCond : List Instr → Nat → Except Crash Nat
  | [], trip_count => .ok trip_count
  | Ins :: rest, trip_count =>
    if Ins.op = .ICmp then
      match (Ins.operands[1]? : Option Value) with
      | some (.constInt _ v) => scanCond rest (v % 2 ^ 64 % 2 ^ 32)
      | _ => .error .nullDeref
    else scanCond rest trip_count

/-- The code emitted into `for.inc` (source lines 93-96): `local_id = local_id + vl`. -/
def emitIncrement (st : PassState) (builder : IRBuilder) (local_id vl : Value) : PassState :=
  let (st, builder, t1) := CreateLoad st builder .i32 vl "t1"
  let (st, builder, t2) := CreateLoad st builder .i32 local_id "t2"
  let (st, builder, t3) := CreateAdd st builder t2 t1 "t3"
  let (st, _, _) := CreateStore st builder t3 local_id
  st

/-- The code emitted at the top of `for.body` (source lines 99-108):
`vl = vsetvli(trip_count - local_id + 1, 2, 3)`. -/
def emitScheduler (st : PassState) (builder : IRBuilder) (local_id vl f1 : Value) :
    PassState × IRBuilder :=
  let (st, builder, s1) := CreateLoad st builder .i32 local_id "s1"
  let (st, builder, s2) := CreateSub st builder (.constInt 32 st.trip_count) s1 "s2"
  let (st, builder, s3) := CreateAdd st builder s2 (.constInt 32 1) "s3"
  let args2 := [s3, .constInt 32 2, .constInt 32 3]
  let (st, builder, s4) := CreateCall st builder f1 args2
  let (st, builder, _) := CreateStore st builder s4 vl
  (st, builder)

/-- Exit masks of a conditional branch (source lines 160-174 and 199-213): the
names are taken from operand 1 and operand 2 of the branch; `entry AND cond`
is stored under the first name, `entry AND (NOT cond)` under the second. -/
def conditionalExitMasks (st : PassState) (builder : IRBuilder) (BBname : String)
    (br : Instr) (entry_mask : Value) : Except Crash PassState :=
  match br.operands with
  | [condition, op1, op2] =>
    let ctrue := getName st.F op1
    let cfalse := getName st.F op2
    let mture_name := "m_" ++ BBname ++ "_" ++ ctrue
    let mfalse_name := "m_" ++ BBname ++ "_" ++ cfalse
    let (st, mture) := getOrInsertGlobal st mture_name
    let (st, mfalse) := getOrInsertGlobal st mfalse_name
    let (st, builder, t1) := CreateLoad st builder .i1 entry_mask ""
    let (st, builder, t2) := CreateAnd st builder t1 condition
    let (st, builder, _) := CreateStore st builder t2 mture
    let (st, builder, t3) := CreateNot st builder condition
    let (st, builder, t4) := CreateAnd st builder t1 t3
    let (st, _, _) := CreateStore st builder t4 mfalse
    .ok st
  | _ => .error .nullDeref

/-- Exit mask of an unconditional branch in `for.body` (source lines 178-181):
the cell is a stack slot created in front of the terminator. -/
def unconditionalExitMaskBody (st : PassState) (builder : IRBuilder) (BBname : String)
    (br : Instr) (entry_mask : Value) : Except Crash PassState :=
  match (br.operands[0]? : Option Value) with
  | some op0 =>
    let cg := getName st.F op0
    let (st, builder, mg) := CreateAlloca st builder ("m_" ++ BBname ++ "_" ++ cg)
    let (st, builder, t1) := CreateLoad st builder .i1 entry_mask ""
    let (st, _, _) := CreateStore st builder t1 mg
    .ok st
  | none => .error .nullDeref

/-- Exit mask of an unconditional branch in any other block (source lines
217-221): the cell is a global variable. -/
def unconditionalExitMask (st : PassState) (builder : IRBuilder) (BBname : String)
    (br : Instr) (entry_mask : Value) : Except Crash PassState :=
  match (br.operands[0]? : Option Value) with
  | some op0 =>
    let cg := getName st.F op0
    let mg_name := "m_" ++ BBname ++ "_" ++ cg
    let (st, mg) := getOrInsertGlobal st mg_name
    let (st, builder, t1) := CreateLoad st builder .i1 entry_mask ""
    let (st, _, _) := CreateStore st builder t1 mg
    .ok st
  | none => .error .nullDeref

/-- Entry mask and exit masks of a block (source lines 151-184 and 190-224;
the two copies differ in the handler for the unconditional branch only).
The terminator is dereferenced unchecked; so is the result of
`dyn_cast<BranchInst>`, which is null for an `indirectbr`. -/
def declareMasks (st : PassState) (builder : IRBuilder) (bi : Nat) (BBname : String)
    (unconditional : PassState → IRBuilder → String → Instr → Value → Except Crash PassState) :
    Except Crash PassState :=
  let (st, _, entry_mask) := CreateAlloca st builder ("m_" ++ BBname)
  match st.F.blocks[bi]? with
  | none => .error .nullDeref
  | some BB =>
    match getTerminator BB with
    | none => .error .nullDeref
    | some terminator =>
      if terminator.op = .Br ∨ terminator.op = .IndirectBr then
        if terminator.op = .Br then
          let builder := setInsertPointTerminator st bi
          if terminator.isConditional then
            conditionalExitMasks st builder BBname terminator entry_mask
          else unconditional st builder BBname terminator entry_mask
        else .error .nullDeref
      else .ok st

/-- The body of the first walk for one block of the loop (source lines 79-226). -/
def step1 (local_id vl f1 : Value) (st : PassState) (bi : Nat) : Except Crash PassState :=
  match st.F.blocks[bi]? with
  | none => .error .nullDeref
  | some BB =>
    match getFirstInsertionPt BB with
    | none => .error .endIterator
    | some p =>
      let builder : IRBuilder := { bb := bi, pos := p }
      let BBname := BB.name
      if BBname = "for.cond" then
        match scanCond BB.instrs st.trip_count with
        | .ok tc => .ok { st with trip_count := tc }
        | .error e => .error e
      else if BBname = "for.inc" then
        .ok (emitIncrement st builder local_id vl)
      else if BBname = "for.body" then
        let (st, builder) := emitScheduler st builder local_id vl f1
        declareMasks st builder bi BBname unconditionalExitMaskBody
      else
        declareMasks st builder bi BBname unconditionalExitMask

/-! ## Step 2: mask resolution -/

/-- The loop over the predecessors (source lines 258-268 and 277-287) with its
locals `cur`, `last`, `cnt`: load the global `m_<pred>_<BB>`, OR it with the
previous value from the second predecessor on. -/
def foldPredecessors (BBname : String) :
    List Nat → PassState → IRBuilder → Option Value → Option Value → Nat →
      Except Crash (PassState × IRBuilder × Option Value)
  | [], st, builder, cur, _, _ => .ok (st, builder, cur)
  | pred :: rest, st, builder, _, last, cnt =>
    let mname := "m_" ++ getName st.F (.block pred) ++ "_" ++ BBname
    let (st, sym) := getOrInsertGlobal st mname
    let (st, builder, cur) := CreateLoad st builder .i1 sym ""
    if cnt > 0 then
      match last with
      | some l =>
        let (st, builder, cur) := CreateOr st builder cur l
        foldPredecessors BBname rest st builder (some cur) (some cur) (cnt + 1)
      | none => .error .uninitialised
    else foldPredecessors BBname rest st builder (some cur) (some cur) (cnt + 1)

/-- Resolution of the entry mask of one block (source lines 253-269 and 272-288,
two identical copies) for a given enumeration `preds` of the predecessors:
the value named `m_<BB>` is looked up in the symbol table of the function
and cast to an instruction, the code is placed behind it, and `cur` is
stored into it. -/
def resolveMaskWith (preds : List Nat) (st : PassState) (BBname : String) :
    Except Crash PassState :=
  match lookup st.F ("m_" ++ BBname) with
  | some (.instruction mbb mpos mask) =>
    match st.F.blocks[mbb]? with
    | none => .error .nullDeref
    | some parent =>
      if mpos + 1 < parent.instrs.length then
        let builder : IRBuilder := { bb := mbb, pos := mpos + 1 }
        match foldPredecessors BBname preds st builder none none 0 with
        | .ok (st, builder, some cur) =>
          let (st, _, _) := CreateStore st builder cur (.inst mask.id)
          .ok st
        | .ok (_, _, none) => .error .uninitialised
        | .error e => .error e
      else .error .nullDeref
  | _ => .error .nullDeref

/-- Resolution of the entry mask of the block at position `bi`. -/
def resolveMask (st : PassState) (bi : Nat) (BBname : String) : Except Crash PassState :=
  resolveMaskWith (predecessors st.F bi) st BBname

/-- The body of the second walk for one block of the loop (source lines 245-289). -/
def step2 (st : PassState) (bi : Nat) : Except Crash PassState :=
  match st.F.blocks[bi]? with
  | none => .error .nullDeref
  | some BB =>
    match getFirstInsertionPt BB with
    | none => .error .endIterator
    | some _ =>
      let BBname := BB.name
      if BBname = "for.cond" then .ok st
      else if BBname = "for.inc" then .ok st
      else if BBname = "for.body" then resolveMask st bi BBname
      else resolveMask st bi BBname

/-! ## The pass -/

/-- The first walk over the blocks of a loop (source lines 77-227). -/
def declarationPass (local_id vl f1 : Value) (st : PassState) (L : List Nat) :
    Except Crash PassState :=
  L.foldlM (step1 local_id vl f1) st

/-- The second walk over the blocks of a loop (source lines 243-290). -/
def resolutionPass (st : PassState) (L : List Nat) : Except Crash PassState :=
  L.foldlM step2 st

/-- The two walks over one loop (source lines 74-291); a loop is the list of its
blocks as `Loop::getBlocks` enumerates them. -/
def processLoop (local_id vl f1 : Value) (st : PassState) (L : List Nat) :
    Except Crash PassState :=
  match declarationPass local_id vl f1 st L with
  | .ok st1 => resolutionPass st1 L
  | .error e => .error e

/-- An identity larger than that of every instruction of the function. -/
def freshId (F : Function) : Nat :=
  ((F.blocks.map (fun b => b.instrs.map (fun i => i.id + 1))).flatten).foldl max 0

/-- The state in front of the name test (source lines 54-69): `trip_count` is
zero, the globals `local_id` and `vl` and the declaration of the intrinsic
are in the module. -/
def initState (M : Module) (F : Function) : PassState :=
  let trip_count := 0
  let st : PassState := { M := M, F := F, nextId := freshId F, trip_count := trip_count }
  let (st, _) := getOrInsertGlobal st "local_id"
  let (st, _) := getOrInsertGlobal st "vl"
  let f1 := getDeclaration st.M "llvm.riscv.vsetvli.i32"
  { st with M := f1.1 }

/-- The pass `Hi::runOnFunction` (source lines 53-296).  `LI` lists the top-level
loops of the function.  The result is the module, the function, and the
returned flag.  The diagnostic output (`errs()`, `M->dump()`) is left out. -/
def runOnFunction (M : Module) (F : Function) (LI : List (List Nat)) :
    Except Crash (Module × Function × Bool) :=
  let st := initState M F
  let local_id := Value.global "local_id"
  let vl := Value.global "vl"
  let f1 := Value.func "llvm.riscv.vsetvli.i32"
  if F.name = "workitemLoop" then
    match LI.foldlM (processLoop local_id vl f1) st with
    | .ok st => .ok (st.M, st.F, false)
    | .error e => .error e
  else .ok (st.M, st.F, false)

/-! ## Meaning of the emitted instructions -/

/-- A memory cell: a global variable, or the stack slot of an `alloca`. -/
inductive Cell where
  | global (name : String)
  | stack (id : Nat)
  deriving DecidableEq, Repr

/-- The run-time state straight-line code works on: the value of every
instruction result, and the content of every cell.  The results of the
instructions of the original program (a branch condition, say) are whatever
`regs` holds for them. -/
structure Machine where
  regs : Nat → Nat
  mem : Cell → Nat

/-- The cell an address operand denotes. -/
def cellOf : Value → Option Cell
  | .global n => some (.global n)
  | .inst id => some (.stack id)
  | _ => none

/-- The run-time value of an operand. -/
def evalValue (σ : Machine) : Value → Nat
  | .constInt _ v => v
  | .inst id => σ.regs id
  | _ => 0

/-- Number of values of a type: `2` for `i1`, `2 ^ 32` for `i32`. -/
def Ty.modulus : Ty → Nat
  | .i1 => 2
  | .i32 => 2 ^ 32
  | _ => 2 ^ 64

/-- Set the result of instruction `id`. -/
def Machine.setReg (σ : Machine) (id : Nat) (v : Nat) : Machine :=
  { σ with regs := fun r => if r = id then v else σ.regs r }

/-- Write a cell. -/
def Machine.write (σ : Machine) (c : Cell) (v : Nat) : Machine :=
  { σ with mem := fun d => if d = c then v else σ.mem d }

/-- Execute one instruction.  `vsetvli` is the vector-length intrinsic.  Loads,
stores, the integer operations and the intrinsic call act as in the IR
(results are reduced to the width of the result type); an `alloca` leaves its
slot with whatever it holds; every other instruction leaves the state as it
is. -/
def execInstr (vsetvli : Nat → Nat → Nat → Nat) (σ : Machine) (i : Instr) : Machine :=
  match i.op, i.operands with
  | .Load, [p] =>
    (match cellOf p with
     | some c => σ.setReg i.id (σ.mem c % i.ty.modulus)
     | none => σ)
  | .Store, [v, p] =>
    (match cellOf p with
     | some c => σ.write c (evalValue σ v)
     | none => σ)
  | .Add, [a, b] => σ.setReg i.id ((evalValue σ a + evalValue σ b) % i.ty.modulus)
  | .Sub, [a, b] =>
    σ.setReg i.id ((evalValue σ a + (i.ty.modulus - evalValue σ b % i.ty.modulus)) % i.ty.modulus)
  | .And, [a, b] => σ.setReg i.id ((evalValue σ a &&& evalValue σ b) % i.ty.modulus)
  | .Or, [a, b] => σ.setReg i.id ((evalValue σ a ||| evalValue σ b) % i.ty.modulus)
  | .Xor, [a, b] => σ.setReg i.id ((evalValue σ a ^^^ evalValue σ b) % i.ty.modulus)
  | .Call, [a, b, c, .func _] =>
    σ.setReg i.id (vsetvli (evalValue σ a) (evalValue σ b) (evalValue σ c) % i.ty.modulus)
  | _, _ => σ

/-- Execute a straight-line instruction list. -/
def exec (vsetvli : Nat → Nat → Nat → Nat) (σ : Machine) (code : List Instr) : Machine :=
  code.foldl (execInstr vsetvli) σ

/-- The instructions of the block at position `bi`. -/
def blockCode (F : Function) (bi : Nat) : List Instr :=
  match F.blocks[bi]? with
  | some b => b.instrs
  | none => []

/-! ## The loops the properties are stated on -/

/-- A counted loop `for (i = 0; i < bound; i++)` with an empty body, as the front
end emits it: `entry`, `for.cond` with the comparison against `bound`,
`for.body`, `for.inc`, `for.end`.  The loop consists of blocks 1, 2, 3. -/
def loopWithBound (bound : Value) : Function :=
  { name := "workitemLoop", args := ["n"], lastUnique := 0,
    blocks := [
      { name := "entry", instrs := [BranchInst.unconditional 0 1] },
      { name := "for.cond",
        instrs := [{ id := 1, name := "i", op := .Load, ty := .i32, operands := [.global "i"] },
                   { id := 2, name := "cmp", op := .ICmp, ty := .i1,
                     operands := [.inst 1, bound] },
                   BranchInst.conditional 3 (.inst 2) 2 4] },
      { name := "for.body", instrs := [BranchInst.unconditional 4 3] },
      { name := "for.inc", instrs := [BranchInst.unconditional 5 1] },
      { name := "for.end",
        instrs := [{ id := 6, name := "", op := .Ret, ty := .void, operands := [] }] } ] }

/-- The counted loop whose bound is the 32-bit constant `T`. -/
def countedLoop (T : Nat) : Function := loopWithBound (.constInt 32 T)

/-- A module without globals and declarations. -/
def emptyModule : Module := { globals := [], decls := [] }

/-- The counted loop after the pass (the loop itself when the pass aborts). -/
def vectorised (T : Nat) : Function :=
  match runOnFunction emptyModule (countedLoop T) [[1, 2, 3]] with
  | .ok (_, F, _) => F
  | .error _ => countedLoop T

/-- One trip through the vectorised loop body: the code of `for.body` followed
by the code of `for.inc`. -/
def iteration (vsetvli : Nat → Nat → Nat → Nat) (T : Nat) (σ : Machine) : Machine :=
  exec vsetvli (exec vsetvli σ (blockCode (vectorised T) 2)) (blockCode (vectorised T) 3)

/-- The state after `n` trips. -/
def iterations (vsetvli : Nat → Nat → Nat → Nat) (T : Nat) (σ : Machine) : Nat → Machine
  | 0 => σ
  | n + 1 => iteration vsetvli T (iterations vsetvli T σ n)

/-- The length a run of `code` from `σ` requests: the value of the first
argument of its intrinsic call. -/
def request (vsetvli : Nat → Nat → Nat → Nat) (code : List Instr) (σ : Machine) : Option Nat :=
  match code.find? (fun i => i.op == .Call) with
  | some call =>
    (match (call.operands[0]? : Option Value) with
     | some a => some (evalValue (exec vsetvli σ code) a)
     | none => none)
  | none => none

/-- The content of the global `local_id`. -/
def Machine.local_id (σ : Machine) : Nat := σ.mem (.global "local_id")

/-- An intrinsic that grants `min request L_max`. -/
def grantMin (L_max : Nat) : Nat → Nat → Nat → Nat := fun r _ _ => min r L_max

/-- The loop of the end-to-end example: `for.body` branches on `i % 2 == 0` to
`even` or `odd`, which both continue at `join`.  The loop consists of
blocks 1 to 6. -/
def diamond (K : Nat) : Function :=
  { name := "workitemLoop", args := [], lastUnique := 0,
    blocks := [
      { name := "entry", instrs := [BranchInst.unconditional 0 1] },
      { name := "for.cond",
        instrs := [{ id := 1, name := "i", op := .Load, ty := .i32, operands := [.global "i"] },
                   { id := 2, name := "cmp", op := .ICmp, ty := .i1,
                     operands := [.inst 1, .constInt 32 K] },
                   BranchInst.conditional 3 (.inst 2) 2 7] },
      { name := "for.body",
        instrs := [{ id := 4, name := "rem", op := .Other, ty := .i32, operands := [.inst 1] },
                   { id := 5, name := "c", op := .ICmp, ty := .i1,
                     operands := [.inst 4, .constInt 32 0] },
                   BranchInst.conditional 6 (.inst 5) 3 4] },
      { name := "even",
        instrs := [{ id := 7, name := "", op := .Other, ty := .void, operands := [] },
                   BranchInst.unconditional 8 5] },
      { name := "odd",
        instrs := [{ id := 9, name := "", op := .Other, ty := .void, operands := [] },
                   BranchInst.unconditional 10 5] },
      { name := "join", instrs := [BranchInst.unconditional 11 6] },
      { name := "for.inc",
        instrs := [{ id := 12, name := "inc", op := .Other, ty := .i32, operands := [.inst 1] },
                   BranchInst.unconditional 13 1] },
      { name := "for.end",
        instrs := [{ id := 14, name := "", op := .Ret, ty := .void, operands := [] }] } ] }

/-- The stack slot of the entry mask of the block named `n`, found the way the
resolution pass finds it. -/
def entryMaskCell (F : Function) (n : String) : Option Cell :=
  match lookup F ("m_" ++ n) with
  | some (.instruction _ _ i) => some (.stack i.id)
  | _ => none

/-- The diamond loop after the pass (the loop itself when the pass aborts). -/
def vectorisedDiamond (K : Nat) : Function :=
  match runOnFunction emptyModule (diamond K) [[1, 2, 3, 4, 5, 6]] with
  | .ok (_, F, _) => F
  | .error _ => diamond K

/-- A loop whose `for.body` continues unconditionally at the block `work`.  The
loop consists of blocks 1 to 4. -/
def straightLoop : Function :=
  { name := "workitemLoop", args := [], lastUnique := 0,
    blocks := [
      { name := "entry", instrs := [BranchInst.unconditional 0 1] },
      { name := "for.cond",
        instrs := [{ id := 1, name := "i", op := .Load, ty := .i32, operands := [.global "i"] },
                   { id := 2, name := "cmp", op := .ICmp, ty := .i1,
                     operands := [.inst 1, .constInt 32 100] },
                   BranchInst.conditional 3 (.inst 2) 2 5] },
      { name := "for.body", instrs := [BranchInst.unconditional 4 3] },
      { name := "work", instrs := [BranchInst.unconditional 5 4] },
      { name := "for.inc", instrs := [BranchInst.unconditional 6 1] },
      { name := "for.end",
        instrs := [{ id := 7, name := "", op := .Ret, ty := .void, operands := [] }] } ] }

/-- The state after the declaration pass over the diamond loop (the initial state
when the pass aborts). -/
def declaredDiamond : PassState :=
  match declarationPass (.global "local_id") (.global "vl") (.func "llvm.riscv.vsetvli.i32")
      (initState emptyModule (diamond 100)) [1, 2, 3, 4, 5, 6] with
  | .ok st => st
  | .error _ => initState emptyModule (diamond 100)

/-- A machine with every result and every cell zero. -/
def zeroMachine : Machine := { regs := fun _ => 0, mem := fun _ => 0 }

/-- A machine with every result and every cell one. -/
def oneMachine : Machine := { regs := fun _ => 1, mem := fun _ => 1 }

/-- A machine for the diamond loop: `σ₀` with the branch condition of `for.body`
(instruction 5) set to `c` and the global `m_for.cond_for.body` set to `A`. -/
def diamondInput (σ₀ : Machine) (A c : Nat) : Machine :=
  { regs := fun r => if r = 5 then c else σ₀.regs r,
    mem := fun d => if d = .global "m_for.cond_for.body" then A else σ₀.mem d }

/-- The name of the block at position `j`, when there is one. -/
def blockName? (F : Function) (j : Nat) : Option String :=
  match F.blocks[j]? with
  | some b => some b.name
  | none => none

/-- The terminator of the block at position `j`, when it has one. -/
def terminatorOf (F : Function) (j : Nat) : Option Instr :=
  match F.blocks[j]? with
  | some b => getTerminator b
  | none => none

/-- State `st'` extends state `st`: same block names and terminators, no global
and no instruction lost. -/
structure Grows (st st' : PassState) : Prop where
  names : ∀ j, blockName? st'.F j = blockName? st.F j
  term : ∀ j, terminatorOf st'.F j = terminatorOf st.F j
  globals : ∀ g, g ∈ st.M.globals → g ∈ st'.M.globals
  code : ∀ j i, i ∈ blockCode st.F j → i ∈ blockCode st'.F j

/-- State `st` extends `st0` and the builder `b` stands in front of an
instruction of its block. -/
structure Reach (st0 st : PassState) (b : IRBuilder) : Prop where
  grows : Grows st0 st
  inRange : b.pos < (blockCode st.F b.bb).length

/-- The builder `b` stands in state `st` between the instructions `pre` and the
instructions `post` of its block. -/
structure AtPoint (st : PassState) (b : IRBuilder) (pre post : List Instr) : Prop where
  inRange : b.bb < st.F.blocks.length
  code : blockCode st.F b.bb = pre ++ post
  pos : pre.length = b.pos

/-- The name of the exit-mask cell of the edge from the block named `B` to the
block named `S` (the string built in source lines 165, 166, 218, 259 and 278). -/
def exitMaskName (B S : String) : String := "m_" ++ B ++ "_" ++ S

/-- A loop whose body runs through the blocks `a`, `b_c`, `a_b`, `c` in this
order.  The loop consists of blocks 1 to 7. -/
def underscoreLoop : Function :=
  { name := "workitemLoop", args := [], lastUnique := 0,
    blocks := [
      { name := "entry", instrs := [BranchInst.unconditional 0 1] },
      { name := "for.cond",
        instrs := [{ id := 1, name := "i", op := .Load, ty := .i32, operands := [.global "i"] },
                   { id := 2, name := "cmp", op := .ICmp, ty := .i1,
                     operands := [.inst 1, .constInt 32 100] },
                   BranchInst.conditional 3 (.inst 2) 2 8] },
      { name := "for.body", instrs := [BranchInst.unconditional 4 3] },
      { name := "a", instrs := [BranchInst.unconditional 5 4] },
      { name := "b_c", instrs := [BranchInst.unconditional 6 5] },
      { name := "a_b", instrs := [BranchInst.unconditional 7 6] },
      { name := "c", instrs := [BranchInst.unconditional 8 7] },
      { name := "for.inc", instrs := [BranchInst.unconditional 9 1] },
      { name := "for.end",
        instrs := [{ id := 10, name := "", op := .Ret, ty := .void, operands := [] }] } ] }

/-- A loop whose `for.body` continues at the block `dispatch`, which ends in a
terminator with opcode `term` that names `for.inc` as its only target (a
`switch` with a default target only, or an `indirectbr` with one target).
The loop consists of blocks 1 to 4. -/
def dispatchLoop (term : Opcode) : Function :=
  { name := "workitemLoop", args := [], lastUnique := 0,
    blocks := [
      { name := "entry", instrs := [BranchInst.unconditional 0 1] },
      { name := "for.cond",
        instrs := [{ id := 1, name := "i", op := .Load, ty := .i32, operands := [.global "i"] },
                   { id := 2, name := "cmp", op := .ICmp, ty := .i1,
                     operands := [.inst 1, .constInt 32 100] },
                   BranchInst.conditional 3 (.inst 2) 2 5] },
      { name := "for.body", instrs := [BranchInst.unconditional 4 3] },
      { name := "dispatch",
        instrs := [{ id := 5, name := "sel", op := .Other, ty := .other, operands := [] },
                   { id := 6, name := "", op := term, ty := .void,
                     operands := [.inst 5, .block 4] }] },
      { name := "for.inc", instrs := [BranchInst.unconditional 7 1] },
      { name := "for.end",
        instrs := [{ id := 8, name := "", op := .Ret, ty := .void, operands := [] }] } ] }

/-- Identity, opcode, result type and operands of an instruction: all of it but
the name. -/
def Instr.shape (i : Instr) : Nat × Opcode × Ty × List Value := (i.id, i.op, i.ty, i.operands)

/-- State `st'` differs from `st` in block `k` at most, and `trip_count` is the
same. -/
structure Frame (k : Nat) (st st' : PassState) : Prop where
  trip : st'.trip_count = st.trip_count
  blocks : ∀ j, j ≠ k → st'.F.blocks[j]? = st.F.blocks[j]?

/-- The exit-mask code of a block whose entry mask is the slot `entry`: loads,
ANDs, NOTs, stores and stack slots only, at least one load, and every load
reads `entry`. -/
structure ExitMaskCode (entry : Value) (code : List Instr) : Prop where
  ops : ∀ i ∈ code, i.op = .Load ∨ i.op = .And ∨ i.op = .Xor ∨ i.op = .Store ∨ i.op = .Alloca
  loads : ∀ i ∈ code, i.op = .Load → i.operands = [entry]
  load : ∃ i ∈ code, i.op = .Load

/-- A rotated counted loop: `for.body` is the header, the comparison against 100
sits in `for.cond` at the end of the loop.  The loop consists of blocks 1, 2, 3,
the header first. -/
def rotatedLoop : Function :=
  { name := "workitemLoop", args := [], lastUnique := 0,
    blocks := [
      { name := "entry", instrs := [BranchInst.unconditional 0 1] },
      { name := "for.body", instrs := [BranchInst.unconditional 1 2] },
      { name := "for.inc", instrs := [BranchInst.unconditional 2 3] },
      { name := "for.cond",
        instrs := [{ id := 3, name := "i", op := .Load, ty := .i32, operands := [.global "i"] },
                   { id := 4, name := "cmp", op := .ICmp, ty := .i1,
                     operands := [.inst 3, .constInt 32 100] },
                   BranchInst.conditional 5 (.inst 4) 1 4] },
      { name := "for.end",
        instrs := [{ id := 6, name := "", op := .Ret, ty := .void, operands := [] }] } ] }

/-- A loop whose `for.body` is a landing pad: the block `try` ends in
`invoke void @f() to label %for.inc unwind label %for.body` (operands: normal
destination, unwind destination, callee), and `for.body` starts with the
`landingpad` instruction.  The loop consists of blocks 1 to 4. -/
def unwindLoop : Function :=
  { name := "workitemLoop", args := [], lastUnique := 0,
    blocks := [
      { name := "entry", instrs := [BranchInst.unconditional 0 1] },
      { name := "for.cond",
        instrs := [{ id := 1, name := "i", op := .Load, ty := .i32, operands := [.global "i"] },
                   { id := 2, name := "cmp", op := .ICmp, ty := .i1,
                     operands := [.inst 1, .constInt 32 100] },
                   BranchInst.conditional 3 (.inst 2) 2 5] },
      { name := "try",
        instrs := [{ id := 4, name := "", op := .Invoke, ty := .void,
                     operands := [.block 4, .block 3, .func "f"] }] },
      { name := "for.body",
        instrs := [{ id := 5, name := "lp", op := .LandingPad, ty := .other, operands := [] },
                   BranchInst.unconditional 6 4] },
      { name := "for.inc", instrs := [BranchInst.unconditional 7 1] },
      { name := "for.end",
        instrs := [{ id := 8, name := "", op := .Ret, ty := .void, operands := [] }] } ] }

/-- A loop whose `for.body` continues at the block `next`, which starts with a
PHI node.  The loop consists of blocks 1 to 4. -/
def phiLoop : Function :=
  { name := "workitemLoop", args := [], lastUnique := 0,
    blocks := [
      { name := "entry", instrs := [BranchInst.unconditional 0 1] },
      { name := "for.cond",
        instrs := [{ id := 1, name := "i", op := .Load, ty := .i32, operands := [.global "i"] },
                   { id := 2, name := "cmp", op := .ICmp, ty := .i1,
                     operands := [.inst 1, .constInt 32 100] },
                   BranchInst.conditional 3 (.inst 2) 2 5] },
      { name := "for.body", instrs := [BranchInst.unconditional 4 3] },
      { name := "next",
        instrs := [{ id := 5, name := "x", op := .PHI, ty := .i32, operands := [.inst 1] },
                   { id := 6, name := "y", op := .Other, ty := .i32, operands := [.inst 5] },
                   BranchInst.unconditional 7 4] },
      { name := "for.inc", instrs := [BranchInst.unconditional 8 1] },
      { name := "for.end",
        instrs := [{ id := 9, name := "", op := .Ret, ty := .void, operands := [] }] } ] }

/-- The state after the first walk over the blocks `L` of `F`, started in the
module without globals (the initial state when the walk aborts). -/
def declared (F : Function) (L : List Nat) : PassState :=
  match declarationPass (.global "local_id") (.global "vl") (.func "llvm.riscv.vsetvli.i32")
      (initState emptyModule F) L with
  | .ok st => st
  | .error _ => initState emptyModule F

/-- The counted loop with bound 100 in a function whose entry block already holds
a stack slot named `m_for.body`.  The loop consists of blocks 1, 2, 3. -/
def shadowedLoop : Function :=
  { name := "workitemLoop", args := [], lastUnique := 0,
    blocks := [
      { name := "entry",
        instrs := [{ id := 0, name := "m_for.body", op := .Alloca, ty := .ptr,
                     operands := [.constInt 32 1] },
                   BranchInst.unconditional 1 1] },
      { name := "for.cond",
        instrs := [{ id := 2, name := "i", op := .Load, ty := .i32, operands := [.global "i"] },
                   { id := 3, name := "cmp", op := .ICmp, ty := .i1,
                     operands := [.inst 2, .constInt 32 100] },
                   BranchInst.conditional 4 (.inst 3) 2 4] },
      { name := "for.body", instrs := [BranchInst.unconditional 5 3] },
      { name := "for.inc", instrs := [BranchInst.unconditional 6 1] },
      { name := "for.end",
        instrs := [{ id := 7, name := "", op := .Ret, ty := .void, operands := [] }] } ] }

/-- Inserting at the end of a prefix puts the instruction between prefix and rest. -/
theorem insertAt_append (i : Instr) (pre post : List Instr) :
    insertAt i (pre ++ post) pre.length = pre ++ i :: post := by
  induction pre with
  | nil => cases post <;> rfl
  | cons x pre ih => simp [insertAt, ih]

/-- Updating a block keeps the number of blocks. -/
theorem updateBlock_length (f : BasicBlock → BasicBlock) (l : List BasicBlock) (n : Nat) :
    (updateBlock f l n).length = l.length := by
  induction l generalizing n with
  | nil => rfl
  | cons b rest ih => cases n <;> simp [updateBlock, ih]

/-- The updated block is the image of the old one. -/
theorem updateBlock_getElem?_self (f : BasicBlock → BasicBlock) (l : List BasicBlock) (n : Nat) :
    (updateBlock f l n)[n]? = l[n]?.map f := by
  induction l generalizing n with
  | nil => simp [updateBlock]
  | cons b rest ih => cases n <;> simp [updateBlock, ih]

/-- Every other block is untouched by an update. -/
theorem updateBlock_getElem?_ne (f : BasicBlock → BasicBlock) (l : List BasicBlock) (n k : Nat)
    (h : k ≠ n) : (updateBlock f l n)[k]? = l[k]? := by
  induction l generalizing n k with
  | nil => simp [updateBlock]
  | cons b rest ih =>
    cases n with
    | zero =>
      cases k with
      | zero => exact absurd rfl h
      | succ k => simp [updateBlock]
    | succ n =>
      cases k with
      | zero => simp [updateBlock]
      | succ k =>
        simp only [updateBlock, List.getElem?_cons_succ]
        exact ih n k (fun hk => h (by rw [hk]))

/-- An insertion leaves the module alone. -/
theorem insertState_M (st : PassState) (b : IRBuilder) (name : String) (op : Opcode) (ty : Ty)
    (ops : List Value) : (insertState st b name op ty ops).M = st.M := rfl

/-- An insertion uses up one identity. -/
theorem insertState_nextId (st : PassState) (b : IRBuilder) (name : String) (op : Opcode)
    (ty : Ty) (ops : List Value) : (insertState st b name op ty ops).nextId = st.nextId + 1 := rfl

/-- An insertion keeps the number of blocks. -/
theorem insertState_blocks_length (st : PassState) (b : IRBuilder) (name : String) (op : Opcode)
    (ty : Ty) (ops : List Value) :
    (insertState st b name op ty ops).F.blocks.length = st.F.blocks.length := by
  simp [insertState, updateBlock_length]

/-- The code of the block of the insertion point after an insertion. -/
theorem blockCode_insertState_self (st : PassState) (b : IRBuilder) (name : String) (op : Opcode)
    (ty : Ty) (ops : List Value) (pre post : List Instr)
    (hbb : b.bb < st.F.blocks.length) (hcode : blockCode st.F b.bb = pre ++ post)
    (hpos : pre.length = b.pos) :
    blockCode (insertState st b name op ty ops).F b.bb
      = pre ++ newInstr st name op ty ops :: post := by
  obtain ⟨blk, hblk⟩ : ∃ blk, st.F.blocks[b.bb]? = some blk :=
    ⟨st.F.blocks[b.bb], List.getElem?_eq_getElem hbb⟩
  have hi : blk.instrs = pre ++ post := by simpa [blockCode, hblk] using hcode
  simp [blockCode, insertState, updateBlock_getElem?_self, hblk, hi, ← hpos, insertAt_append]

/-- The code of every other block is untouched by an insertion. -/
theorem blockCode_insertState_ne (st : PassState) (b : IRBuilder) (name : String) (op : Opcode)
    (ty : Ty) (ops : List Value) (k : Nat) (h : k ≠ b.bb) :
    blockCode (insertState st b name op ty ops).F k = blockCode st.F k := by
  simp [blockCode, insertState, updateBlock_getElem?_ne _ _ _ _ h]

/-- Block names are untouched by an insertion. -/
theorem getName_block_insertState (st : PassState) (b : IRBuilder) (name : String) (op : Opcode)
    (ty : Ty) (ops : List Value) (k : Nat) :
    getName (insertState st b name op ty ops).F (.block k) = getName st.F (.block k) := by
  by_cases h : k = b.bb
  · subst h
    simp only [getName, insertState, updateBlock_getElem?_self]
    cases st.F.blocks[b.bb]? <;> rfl
  · simp [getName, insertState, updateBlock_getElem?_ne _ _ _ _ h]

/-- Adding a global leaves the function alone. -/
theorem insertGlobal_F (st : PassState) (n : String) : (insertGlobal st n).F = st.F := by
  unfold insertGlobal; split <;> rfl

/-- Adding a global uses up no identity. -/
theorem insertGlobal_nextId (st : PassState) (n : String) :
    (insertGlobal st n).nextId = st.nextId := by
  unfold insertGlobal; split <;> rfl

/-- The requested global is in the module afterwards. -/
theorem mem_insertGlobal (st : PassState) (n : String) : n ∈ (insertGlobal st n).M.globals := by
  unfold insertGlobal; split <;> simp [*]

/-- Adding a global removes none. -/
theorem subset_insertGlobal (st : PassState) (n m : String) (h : m ∈ st.M.globals) :
    m ∈ (insertGlobal st n).M.globals := by
  unfold insertGlobal; split <;> simp [*]

/-- After an insertion the builder stands behind the new instruction. -/
theorem AtPoint.afterInsert {st : PassState} {b : IRBuilder} {pre post : List Instr}
    (h : AtPoint st b pre post) (name : String) (op : Opcode) (ty : Ty) (ops : List Value) :
    AtPoint (insertState st b name op ty ops) { b with pos := b.pos + 1 }
      (pre ++ [newInstr st name op ty ops]) post where
  inRange := by simpa [insertState_blocks_length] using h.inRange
  code := by
    simpa using blockCode_insertState_self st b name op ty ops pre post h.inRange h.code h.pos
  pos := by simp [h.pos]

/-- Adding a global does not move the builder. -/
theorem AtPoint.afterGlobal {st : PassState} {b : IRBuilder} {pre post : List Instr}
    (h : AtPoint st b pre post) (n : String) : AtPoint (insertGlobal st n) b pre post where
  inRange := by simpa [insertGlobal_F] using h.inRange
  code := by simpa [insertGlobal_F] using h.code
  pos := h.pos

/-- An unnamed instruction stays unnamed. -/
theorem setName_empty (F : Function) : (setName F "").1 = "" := by simp [setName]

/-- The six instructions the declarator emits for a conditional branch. -/
theorem conditionalExitMasks_code (st : PassState) (b : IRBuilder) (BBname : String) (br : Instr)
    (entry cond o1 o2 : Value) (pre post : List Instr)
    (hops : br.operands = [cond, o1, o2]) (h : AtPoint st b pre post) :
    ∃ st', conditionalExitMasks st b BBname br entry = .ok st' ∧
      blockCode st'.F b.bb = pre ++
        [{ id := st.nextId, name := "", op := .Load, ty := .i1, operands := [entry] },
         { id := st.nextId + 1, name := "", op := .And, ty := .i1,
           operands := [.inst st.nextId, cond] },
         { id := st.nextId + 2, name := "", op := .Store, ty := .void,
           operands := [.inst (st.nextId + 1), .global ("m_" ++ BBname ++ "_" ++ getName st.F o1)] },
         { id := st.nextId + 3, name := "", op := .Xor, ty := .i1,
           operands := [cond, .constInt 1 1] },
         { id := st.nextId + 4, name := "", op := .And, ty := .i1,
           operands := [.inst st.nextId, .inst (st.nextId + 3)] },
         { id := st.nextId + 5, name := "", op := .Store, ty := .void,
           operands := [.inst (st.nextId + 4), .global ("m_" ++ BBname ++ "_" ++ getName st.F o2)] }]
        ++ post := by
  refine ⟨_, by simp only [conditionalExitMasks, hops, getOrInsertGlobal, CreateLoad, CreateAnd,
    CreateStore, CreateNot, Insert]; rfl, ?_⟩
  have h6 := (((((((h.afterGlobal ("m_" ++ BBname ++ "_" ++ getName st.F o1)).afterGlobal
    ("m_" ++ BBname ++ "_" ++ getName st.F o2)).afterInsert "" .Load .i1 [entry]).afterInsert "" .And .i1
      [.inst st.nextId, cond]).afterInsert "" .Store .void
      [.inst (st.nextId + 1), .global ("m_" ++ BBname ++ "_" ++ getName st.F o1)]).afterInsert "" .Xor
      .i1 [cond, .constInt 1 1]).afterInsert "" .And .i1 [.inst st.nextId, .inst (st.nextId + 3)]).afterInsert
      "" .Store .void
      [.inst (st.nextId + 4), .global ("m_" ++ BBname ++ "_" ++ getName st.F o2)]
  have hc := h6.code
  simp only [newInstr, setName_empty, insertState_nextId, insertGlobal_nextId, List.append_assoc,
    List.cons_append, List.nil_append, Nat.add_assoc, Nat.reduceAdd] at hc ⊢
  exact hc

/-! ## Properties: the name test -/

/-- C9: for a function whose name is not `workitemLoop` the pass returns the
function as it received it, every block and every instruction included; only
the module gains the two globals and the intrinsic declaration. -/
theorem runOnFunction_other_name_unmodified (M : Module) (F : Function) (LI : List (List Nat))
    (h : F.name ≠ "workitemLoop") :
    runOnFunction M F LI = .ok ((initState M F).M, F, false) := by
  have hF : (initState M F).F = F := by
    simp only [initState, getOrInsertGlobal, insertGlobal]
    split_ifs <;> rfl
  simp [runOnFunction, h, hF]

/-- Witness for C9: the diamond loop under the name `kernel` passes through. -/
theorem runOnFunction_other_name_unmodified_witness :
    ({ diamond 100 with name := "kernel" } : Function).name ≠ "workitemLoop" ∧
      runOnFunction emptyModule { diamond 100 with name := "kernel" } [[1, 2, 3, 4, 5, 6]] =
        .ok ((initState emptyModule { diamond 100 with name := "kernel" }).M,
          { diamond 100 with name := "kernel" }, false) :=
  ⟨by decide, runOnFunction_other_name_unmodified _ _ _ (by decide)⟩

/-! ## Properties: the trip count -/

/-- The scan crosses instructions that are not comparisons without changing the count. -/
theorem scanCond_no_icmp (post : List Instr) (tc : Nat) (h : ∀ J ∈ post, J.op ≠ .ICmp) :
    scanCond post tc = .ok tc := by
  induction post with
  | nil => rfl
  | cons J rest ih =>
    have hJ : J.op ≠ .ICmp := h J (List.mem_cons_self _ _)
    have hrest : ∀ J' ∈ rest, J'.op ≠ .ICmp := fun J' hm => h J' (List.mem_cons_of_mem _ hm)
    simp [scanCond, hJ, ih hrest]

/-- The scan returns the constant of the last comparison, reduced to 32 bits,
when every comparison in front of it has a constant as operand 1. -/
theorem scanCond_last (pre post : List Instr) (cmp : Instr) (w K tc : Nat)
    (hcmp : cmp.op = .ICmp) (hK : cmp.operands[1]? = some (.constInt w K))
    (hpre : ∀ J ∈ pre, J.op = .ICmp → ∃ w' v, J.operands[1]? = some (.constInt w' v))
    (hpost : ∀ J ∈ post, J.op ≠ .ICmp) :
    scanCond (pre ++ cmp :: post) tc = .ok (K % 2 ^ 64 % 2 ^ 32) := by
  induction pre generalizing tc with
  | nil =>
    simp [scanCond, hcmp, hK, scanCond_no_icmp post _ hpost]
  | cons J rest ih =>
    have hrest : ∀ J' ∈ rest, J'.op = .ICmp → ∃ w' v, J'.operands[1]? = some (.constInt w' v) :=
      fun J' hm => hpre J' (List.mem_cons_of_mem _ hm)
    by_cases hJ : J.op = .ICmp
    · obtain ⟨w', v, hv⟩ := hpre J (List.mem_cons_self _ _) hJ
      simp only [List.cons_append, scanCond, hJ, hv, if_true]
      exact ih _ hrest
    · simp only [List.cons_append, scanCond, hJ, if_false]
      exact ih _ hrest

/-- C4, as stated, fails: a `for.cond` block whose comparison has the 64-bit
constant `2 ^ 32` as second operand records the trip count `0`; and of two
comparisons, against `5` and then against `7`, the second one is recorded. -/
theorem trip_count_counterexample :
    (step1 (.global "local_id") (.global "vl") (.func "llvm.riscv.vsetvli.i32")
        (initState emptyModule (loopWithBound (.constInt 64 4294967296))) 1).map
      (fun st => st.trip_count) = .ok 0 ∧
    scanCond
      [{ id := 1, name := "a", op := .ICmp, ty := .i1, operands := [.argument 0, .constInt 32 5] },
       { id := 2, name := "b", op := .ICmp, ty := .i1, operands := [.argument 1, .constInt 32 7] },
       BranchInst.conditional 3 (.inst 2) 2 4] 0 = .ok 7 := by
  constructor <;> rfl

/-- C4, amended: in a block named `for.cond` whose last comparison has the
constant `K < 2 ^ 32` as second operand, and whose earlier comparisons all have
constant second operands, step 1 records the trip count `K` and changes
nothing else. -/
theorem step1_for_cond_trip_count (local_id vl f1 : Value) (st : PassState) (bi p : Nat)
    (pre post : List Instr) (cmp : Instr) (w K : Nat)
    (hb : st.F.blocks[bi]? = some { name := "for.cond", instrs := pre ++ cmp :: post })
    (hp : getFirstInsertionPt { name := "for.cond", instrs := pre ++ cmp :: post } = some p)
    (hcmp : cmp.op = .ICmp) (hK : cmp.operands[1]? = some (.constInt w K))
    (hlt : K < 2 ^ 32)
    (hpre : ∀ J ∈ pre, J.op = .ICmp → ∃ w' v, J.operands[1]? = some (.constInt w' v))
    (hpost : ∀ J ∈ post, J.op ≠ .ICmp) :
    step1 local_id vl f1 st bi = .ok { st with trip_count := K } := by
  have h64 : K % 2 ^ 64 % 2 ^ 32 = K := by
    rw [Nat.mod_eq_of_lt (lt_trans hlt (by norm_num)), Nat.mod_eq_of_lt hlt]
  simp only [step1, hb, hp, if_true]
  rw [scanCond_last pre post cmp w K st.trip_count hcmp hK hpre hpost, h64]

/-- Witness for C4: the counted loop with bound 100. -/
theorem step1_for_cond_trip_count_witness :
    step1 (.global "local_id") (.global "vl") (.func "llvm.riscv.vsetvli.i32")
      (initState emptyModule (countedLoop 100)) 1 =
        .ok { initState emptyModule (countedLoop 100) with trip_count := 100 } :=
  step1_for_cond_trip_count _ _ _ (initState emptyModule (countedLoop 100)) 1 0
    [{ id := 1, name := "i", op := .Load, ty := .i32, operands := [.global "i"] }]
    [BranchInst.conditional 3 (.inst 2) 2 4]
    { id := 2, name := "cmp", op := .ICmp, ty := .i1, operands := [.inst 1, .constInt 32 100] }
    32 100 (by rfl) (by rfl) (by rfl) (by rfl) (by norm_num) (by simp) (by decide)

/-- C5: on a `for.cond` block whose comparison has a second operand that is not a
constant (here the argument `n`) the pass does not report an error and leave
the loop alone: the null result of the cast is dereferenced. -/
theorem nonconstant_bound_null_dereference :
    runOnFunction emptyModule (loopWithBound (.argument 0)) [[1, 2, 3]] = .error .nullDeref := by
  rfl

/-! ## Properties: exit masks, on the example loops -/

/-- C1: in the diamond loop `for.body` ends in `br i1 %c, label %even, label %odd`,
so `even` is the successor taken when `c` is true.  With entry mask `1` and
`c = 1` the code emitted by the pass leaves `0` in the cell `m_for.body_even`
and `1` in the cell `m_for.body_odd`: `entry AND c` is stored for the edge to
the false successor, `entry AND (NOT c)` for the edge to the true successor. -/
theorem conditional_exit_masks_swapped :
    (BranchInst.conditional 6 (.inst 5) 3 4).getSuccessor 0 = some (.block 3) ∧
    getName (diamond 100) (.block 3) = "even" ∧
    getName (diamond 100) (.block 4) = "odd" ∧
    (entryMaskCell (vectorisedDiamond 100) "for.body").map
      (exec (grantMin 8) (diamondInput zeroMachine 1 1) (blockCode (vectorisedDiamond 100) 2)).mem = some 1 ∧
    (exec (grantMin 8) (diamondInput zeroMachine 1 1) (blockCode (vectorisedDiamond 100) 2)).mem
      (.global "m_for.body_even") = 0 ∧
    (exec (grantMin 8) (diamondInput zeroMachine 1 1) (blockCode (vectorisedDiamond 100) 2)).mem
      (.global "m_for.body_odd") = 1 := by
  decide

/-- C10: in the loop `for.body -> work -> for.inc` the declaration pass gives the
edge `(work, for.inc)` the global cell `m_work_for.inc`, but the edge
`(for.body, work)` a stack slot named `m_for.body_work`: no global of that name
exists after the declaration pass.  The resolution pass then creates the global
`m_for.body_work` and loads the entry mask of `work` from it. -/
theorem for_body_unconditional_exit_mask_is_a_stack_slot :
    (declarationPass (.global "local_id") (.global "vl") (.func "llvm.riscv.vsetvli.i32")
        (initState emptyModule straightLoop) [1, 2, 3, 4]).map
      (fun st => (st.M.globals,
        (blockCode st.F 2).filter (fun i => i.op == .Alloca || i.op == .Store),
        (blockCode st.F 3).filter (fun i => i.op == .Alloca || i.op == .Store))) =
      .ok (["local_id", "vl", "m_work_for.inc"],
        [{ id := 12, name := "", op := .Store, ty := .void, operands := [.inst 11, .global "vl"] },
         { id := 13, name := "m_for.body", op := .Alloca, ty := .ptr, operands := [.constInt 32 1] },
         { id := 14, name := "m_for.body_work", op := .Alloca, ty := .ptr,
           operands := [.constInt 32 1] },
         { id := 16, name := "", op := .Store, ty := .void, operands := [.inst 15, .inst 14] }],
        [{ id := 17, name := "m_work", op := .Alloca, ty := .ptr, operands := [.constInt 32 1] },
         { id := 19, name := "", op := .Store, ty := .void,
           operands := [.inst 18, .global "m_work_for.inc"] }]) ∧
    (runOnFunction emptyModule straightLoop [[1, 2, 3, 4]]).map
      (fun r => (r.1.globals, (blockCode r.2.1 3).filter (fun i => i.op == .Load))) =
      .ok (["local_id", "vl", "m_work_for.inc", "m_for.cond_for.body", "m_for.body_work"],
        [{ id := 26, name := "", op := .Load, ty := .i1, operands := [.global "m_for.body_work"] },
         { id := 18, name := "", op := .Load, ty := .i1, operands := [.inst 17] }]) := by
  decide

/-- C3, as stated, fails on the diamond loop: `for.cond` is the predecessor of
`for.body`; after the declaration pass the module has no global
`m_for.cond_for.body` and no store of the function writes one, yet the code the
resolution pass puts into `for.body` loads the global `m_for.cond_for.body`. -/
theorem resolution_loads_undeclared_cell :
    (declarationPass (.global "local_id") (.global "vl") (.func "llvm.riscv.vsetvli.i32")
        (initState emptyModule (diamond 100)) [1, 2, 3, 4, 5, 6]).map
      (fun st => (st.M.globals, predecessors st.F 2,
        (((st.F.blocks.map (fun b => b.instrs)).flatten.filter (fun i => i.op == .Store)).map
          (fun i => i.operands.drop 1)).flatten)) =
      .ok (["local_id", "vl", "m_for.body_odd", "m_for.body_even", "m_even_join", "m_odd_join",
          "m_join_for.inc"],
        [1],
        [.global "vl", .global "m_for.body_odd", .global "m_for.body_even",
         .global "m_even_join", .global "m_odd_join", .global "m_join_for.inc",
         .global "local_id"]) ∧
    (runOnFunction emptyModule (diamond 100) [[1, 2, 3, 4, 5, 6]]).map
      (fun r => (blockCode r.2.1 2).filter (fun i => i.op == .Load && i.ty == .i1)) =
      .ok [{ id := 40, name := "", op := .Load, ty := .i1,
             operands := [.global "m_for.cond_for.body"] },
           { id := 21, name := "", op := .Load, ty := .i1, operands := [.inst 20] }] := by
  decide

/-! ## Properties: the vector-length schedule -/

/-- The counted loop after the pass, spelled out. -/
theorem vectorised_eq (T : Nat) :
    vectorised T =
      { name := "workitemLoop", args := ["n"], lastUnique := 0,
        blocks := [
          { name := "entry", instrs := [BranchInst.unconditional 0 1] },
          { name := "for.cond",
            instrs := [{ id := 1, name := "i", op := .Load, ty := .i32, operands := [.global "i"] },
                       { id := 2, name := "cmp", op := .ICmp, ty := .i1,
                         operands := [.inst 1, .constInt 32 T] },
                       BranchInst.conditional 3 (.inst 2) 2 4] },
          { name := "for.body",
            instrs :=
      [{ id := 7, name := "s1", op := .Load, ty := .i32, operands := [.global "local_id"] },
       { id := 8, name := "s2", op := .Sub, ty := .i32,
         operands := [.constInt 32 (T % 2 ^ 64 % 2 ^ 32), .inst 7] },
       { id := 9, name := "s3", op := .Add, ty := .i32, operands := [.inst 8, .constInt 32 1] },
       { id := 10, name := "", op := .Call, ty := .i32,
         operands := [.inst 9, .constInt 32 2, .constInt 32 3, .func "llvm.riscv.vsetvli.i32"] },
       { id := 11, name := "", op := .Store, ty := .void, operands := [.inst 10, .global "vl"] },
       { id := 12, name := "m_for.body", op := .Alloca, ty := .ptr, operands := [.constInt 32 1] },
       { id := 20, name := "", op := .Load, ty := .i1, operands := [.global "m_for.cond_for.body"] },
       { id := 21, name := "", op := .Store, ty := .void, operands := [.inst 20, .inst 12] },
       { id := 13, name := "m_for.body_for.inc", op := .Alloca, ty := .ptr,
         operands := [.constInt 32 1] },
       { id := 14, name := "", op := .Load, ty := .i1, operands := [.inst 12] },
       { id := 15, name := "", op := .Store, ty := .void, operands := [.inst 14, .inst 13] },
       BranchInst.unconditional 4 3] },
          { name := "for.inc",
            instrs :=
      [{ id := 16, name := "t1", op := .Load, ty := .i32, operands := [.global "vl"] },
       { id := 17, name := "t2", op := .Load, ty := .i32, operands := [.global "local_id"] },
       { id := 18, name := "t3", op := .Add, ty := .i32, operands := [.inst 17, .inst 16] },
       { id := 19, name := "", op := .Store, ty := .void, operands := [.inst 18, .global "local_id"] },
       BranchInst.unconditional 5 1] },
          { name := "for.end",
            instrs := [{ id := 6, name := "", op := .Ret, ty := .void, operands := [] }] } ] } := by
  simp [vectorised, runOnFunction, initState, countedLoop, loopWithBound, emptyModule, getOrInsertGlobal, insertGlobal,
    getDeclaration, processLoop, declarationPass, resolutionPass, freshId,
    BranchInst.unconditional, BranchInst.conditional,
    step1, step2, getFirstInsertionPt, firstNonPHI, Opcode.isEHPad, scanCond, emitIncrement,
    emitScheduler, declareMasks, CreateLoad, CreateStore, CreateAdd, CreateSub, CreateCall,
    CreateAlloca, Insert, insertState, newInstr, setName, symbolNames, updateBlock, insertAt, getTerminator,
    Opcode.isTerminator, setInsertPointTerminator, Instr.isConditional,
    unconditionalExitMaskBody, getName, resolveMask, resolveMaskWith, lookup, lookupInstr,
    predecessors, foldPredecessors, bind, Except.bind, pure, Except.pure,
    List.indexOf?, List.findIdx?_cons, List.findIdx?_nil]

/-- One trip through the vectorised loop, as arithmetic on `local_id`. -/
theorem iteration_local_id (vs : Nat → Nat → Nat → Nat) (T : Nat) (σ : Machine) :
    (iteration vs T σ).local_id =
      (σ.local_id % 2 ^ 32 +
        vs (((T % 2 ^ 64 % 2 ^ 32 + (2 ^ 32 - σ.local_id % 2 ^ 32 % 2 ^ 32)) % 2 ^ 32 + 1) % 2 ^ 32) 2 3
          % 2 ^ 32 % 2 ^ 32) % 2 ^ 32 := by
  simp [iteration, vectorised_eq, blockCode, BranchInst.unconditional, exec, execInstr, cellOf, evalValue,
    Machine.setReg, Machine.write, Machine.local_id, Ty.modulus]

/-- The length requested in a trip, as arithmetic on `local_id`. -/
theorem request_eq (vs : Nat → Nat → Nat → Nat) (T : Nat) (σ : Machine) :
    request vs (blockCode (vectorised T) 2) σ =
      some (((T % 2 ^ 64 % 2 ^ 32 + (2 ^ 32 - σ.local_id % 2 ^ 32 % 2 ^ 32)) % 2 ^ 32 + 1) % 2 ^ 32) := by
  simp [request, vectorised_eq, blockCode, BranchInst.unconditional, exec, execInstr, cellOf, evalValue,
    Machine.setReg, Machine.write, Machine.local_id, Ty.modulus]

/-- C6, as stated, fails for the trip count `2 ^ 32 - 1`: from `local_id = 0` the
request `trip_count - local_id + 1` wraps to `0`, and `local_id` is still `0`
after the trip. -/
theorem request_zero_counterexample :
    zeroMachine.local_id = 0 ∧
    request (grantMin 1) (blockCode (vectorised 4294967295) 2) zeroMachine = some 0 ∧
    (iteration (grantMin 1) 4294967295 zeroMachine).local_id = 0 := by
  decide

/-- C6, amended: for every trip count `T < 2 ^ 32 - 1` and every intrinsic granting
`min request L_max` with `L_max ≥ 1`, the vectorised counted loop reaches
`local_id ≥ T` within at most `T` trips (from `local_id = 0`, and from any
other start), and every trip that starts with `local_id < T` requests a
strictly positive length. -/
theorem loop_progress (L_max T : Nat) (σ : Machine)
    (hL : 1 ≤ L_max) (hT : T < 2 ^ 32 - 1) :
    (∃ n, n ≤ T ∧ T ≤ (iterations (grantMin L_max) T σ n).local_id) ∧
    ∀ k, (iterations (grantMin L_max) T σ k).local_id < T →
      ∃ r, request (grantMin L_max) (blockCode (vectorised T) 2)
          (iterations (grantMin L_max) T σ k) = some r ∧ 0 < r := by
  constructor
  · have key : ∀ k, (∃ j, j ≤ k ∧ T ≤ (iterations (grantMin L_max) T σ j).local_id) ∨
        k ≤ (iterations (grantMin L_max) T σ k).local_id := by
      intro k
      induction k with
      | zero => right; exact Nat.zero_le _
      | succ k ih =>
        rcases ih with ⟨j, hj, hreach⟩ | hk
        · exact Or.inl ⟨j, Nat.le_succ_of_le hj, hreach⟩
        · by_cases hlt : (iterations (grantMin L_max) T σ k).local_id < T
          · right
            simp only [iterations, iteration_local_id, grantMin]
            generalize (iterations (grantMin L_max) T σ k).local_id = l at hk hlt
            norm_num at hT ⊢
            omega
          · exact Or.inl ⟨k, Nat.le_succ _, Nat.le_of_not_lt hlt⟩
    rcases key T with ⟨j, hj, hreach⟩ | hk
    · exact ⟨j, hj, hreach⟩
    · exact ⟨T, le_refl _, hk⟩
  · intro k hk
    refine ⟨_, request_eq _ _ _, ?_⟩
    generalize (iterations (grantMin L_max) T σ k).local_id = l at hk
    norm_num at hT ⊢
    omega

/-- Witness for C6: trip count 100, at most 8 lanes per trip, from the zero machine. -/
theorem loop_progress_witness :
    (∃ n, n ≤ 100 ∧ 100 ≤ (iterations (grantMin 8) 100 zeroMachine n).local_id) ∧
    ∀ k, (iterations (grantMin 8) 100 zeroMachine k).local_id < 100 →
      ∃ r, request (grantMin 8) (blockCode (vectorised 100) 2)
          (iterations (grantMin 8) 100 zeroMachine k) = some r ∧ 0 < r :=
  loop_progress 8 100 zeroMachine (by norm_num) (by norm_num)

/-- C7, as stated, fails: with trip count `5` and an intrinsic that grants
exactly the request, one trip from `local_id = 0` requests `6` lanes and
leaves `local_id = 6`. -/
theorem overrun_counterexample :
    zeroMachine.local_id = 0 ∧
    request (fun r _ _ => r) (blockCode (vectorised 5) 2) zeroMachine = some 6 ∧
    (iteration (fun r _ _ => r) 5 zeroMachine).local_id = 6 := by
  decide

/-- C7, amended: for every trip count `T < 2 ^ 32` and every intrinsic that never
grants more than requested, `local_id ≤ T + 1` after every number of trips
from `local_id = 0`. -/
theorem local_id_bound (vs : Nat → Nat → Nat → Nat) (T : Nat) (σ : Machine)
    (hvs : ∀ r a b, vs r a b ≤ r) (hT : T < 2 ^ 32) (h0 : σ.local_id = 0) (n : Nat) :
    (iterations vs T σ n).local_id ≤ T + 1 := by
  have key : ∀ n, (iterations vs T σ n).local_id ≤ T + 1 ∧
      (iterations vs T σ n).local_id < 2 ^ 32 := by
    intro n
    induction n with
    | zero => simp [iterations, h0]
    | succ k ih =>
      obtain ⟨h1, h2⟩ := ih
      simp only [iterations, iteration_local_id]
      generalize (iterations vs T σ k).local_id = l at h1 h2
      have hg := hvs
        (((T % 2 ^ 64 % 2 ^ 32 + (2 ^ 32 - l % 2 ^ 32 % 2 ^ 32)) % 2 ^ 32 + 1) % 2 ^ 32) 2 3
      generalize vs
        (((T % 2 ^ 64 % 2 ^ 32 + (2 ^ 32 - l % 2 ^ 32 % 2 ^ 32)) % 2 ^ 32 + 1) % 2 ^ 32) 2 3 = g
        at hg
      norm_num at hT h2 hg ⊢
      omega
  exact (key n).1

/-- Witness for C7: trip count 5, the intrinsic that grants exactly the request,
three trips from the zero machine. -/
theorem local_id_bound_witness :
    (iterations (fun r _ _ => r) 5 zeroMachine 3).local_id ≤ 5 + 1 :=
  local_id_bound (fun r _ _ => r) 5 zeroMachine (fun _ _ _ => le_refl _) (by norm_num) rfl 3

/-! ## Properties: the exit masks of a conditional branch cover the entry mask -/

/-- The two values the exit-mask code of a conditional branch computes. -/
theorem exitCode_values (n e : Nat) (cond : Value) (g1 g2 : String) (A c : Bool)
    (vs : Nat → Nat → Nat → Nat) (σ : Machine)
    (hA : σ.mem (.stack e) = A.toNat) (hc : evalValue σ cond = c.toNat)
    (hstable : ∀ j, cond = .inst j → j < n) :
    evalValue (exec vs σ
        [{ id := n, name := "", op := .Load, ty := .i1, operands := [.inst e] },
         { id := n + 1, name := "", op := .And, ty := .i1, operands := [.inst n, cond] },
         { id := n + 2, name := "", op := .Store, ty := .void,
           operands := [.inst (n + 1), .global g1] },
         { id := n + 3, name := "", op := .Xor, ty := .i1, operands := [cond, .constInt 1 1] },
         { id := n + 4, name := "", op := .And, ty := .i1, operands := [.inst n, .inst (n + 3)] },
         { id := n + 5, name := "", op := .Store, ty := .void,
           operands := [.inst (n + 4), .global g2] }]) (.inst (n + 1)) = (A && c).toNat ∧
    evalValue (exec vs σ
        [{ id := n, name := "", op := .Load, ty := .i1, operands := [.inst e] },
         { id := n + 1, name := "", op := .And, ty := .i1, operands := [.inst n, cond] },
         { id := n + 2, name := "", op := .Store, ty := .void,
           operands := [.inst (n + 1), .global g1] },
         { id := n + 3, name := "", op := .Xor, ty := .i1, operands := [cond, .constInt 1 1] },
         { id := n + 4, name := "", op := .And, ty := .i1, operands := [.inst n, .inst (n + 3)] },
         { id := n + 5, name := "", op := .Store, ty := .void,
           operands := [.inst (n + 4), .global g2] }]) (.inst (n + 4)) = (A && !c).toNat := by
  cases cond with
  | inst j =>
    have hj : j < n := hstable j rfl
    have h1 : j ≠ n := by omega
    have h2 : j ≠ n + 1 := by omega
    have h3 : j ≠ n + 3 := by omega
    simp only [evalValue] at hc
    cases A <;> cases c <;>
      simp [exec, execInstr, cellOf, evalValue, Machine.setReg, Machine.write, Ty.modulus, hA, hc,
        h1, h2, h3]
  | constInt w v =>
    simp only [evalValue] at hc
    cases A <;> cases c <;>
      simp [exec, execInstr, cellOf, evalValue, Machine.setReg, Machine.write, Ty.modulus, hA, hc]
  | global g =>
    cases A <;> cases c <;> first
      | (exfalso; simp [evalValue] at hc; done)
      | simp [exec, execInstr, cellOf, evalValue, Machine.setReg, Machine.write, Ty.modulus, hA]
  | block k =>
    cases A <;> cases c <;> first
      | (exfalso; simp [evalValue] at hc; done)
      | simp [exec, execInstr, cellOf, evalValue, Machine.setReg, Machine.write, Ty.modulus, hA]
  | argument k =>
    cases A <;> cases c <;> first
      | (exfalso; simp [evalValue] at hc; done)
      | simp [exec, execInstr, cellOf, evalValue, Machine.setReg, Machine.write, Ty.modulus, hA]
  | func f =>
    cases A <;> cases c <;> first
      | (exfalso; simp [evalValue] at hc; done)
      | simp [exec, execInstr, cellOf, evalValue, Machine.setReg, Machine.write, Ty.modulus, hA]

/-- The diamond loop with bound 100 after the pass, spelled out. -/
theorem vectorisedDiamond_eq :
    vectorisedDiamond 100 =

      { name := "workitemLoop", args := [], blocks := [
      { name := "entry", instrs :=
         [{ id := 0, name := "", op := .Br, ty := .void, operands := [.block 1] }] },
      { name := "for.cond", instrs :=
         [{ id := 1, name := "i", op := .Load, ty := .i32, operands := [.global "i"] },
          { id := 2, name := "cmp", op := .ICmp, ty := .i1, operands := [.inst 1, .constInt 32 100] },
          { id := 3, name := "", op := .Br, ty := .void,
            operands := [.inst 2, .block 7, .block 2] }] },
      { name := "for.body", instrs :=
         [{ id := 15, name := "s1", op := .Load, ty := .i32, operands := [.global "local_id"] },
          { id := 16, name := "s2", op := .Sub, ty := .i32,
            operands := [.constInt 32 100, .inst 15] },
          { id := 17, name := "s3", op := .Add, ty := .i32,
            operands := [.inst 16, .constInt 32 1] },
          { id := 18, name := "", op := .Call, ty := .i32,
            operands := [.inst 17, .constInt 32 2, .constInt 32 3, .func "llvm.riscv.vsetvli.i32"] },
          { id := 19, name := "", op := .Store, ty := .void, operands := [.inst 18, .global "vl"] },
          { id := 20, name := "m_for.body", op := .Alloca, ty := .ptr,
            operands := [.constInt 32 1] },
          { id := 40, name := "", op := .Load, ty := .i1,
            operands := [.global "m_for.cond_for.body"] },
          { id := 41, name := "", op := .Store, ty := .void, operands := [.inst 40, .inst 20] },
          { id := 4, name := "rem", op := .Other, ty := .i32, operands := [.inst 1] },
          { id := 5, name := "c", op := .ICmp, ty := .i1, operands := [.inst 4, .constInt 32 0] },
          { id := 21, name := "", op := .Load, ty := .i1, operands := [.inst 20] },
          { id := 22, name := "", op := .And, ty := .i1, operands := [.inst 21, .inst 5] },
          { id := 23, name := "", op := .Store, ty := .void,
            operands := [.inst 22, .global "m_for.body_odd"] },
          { id := 24, name := "", op := .Xor, ty := .i1, operands := [.inst 5, .constInt 1 1] },
          { id := 25, name := "", op := .And, ty := .i1, operands := [.inst 21, .inst 24] },
          { id := 26, name := "", op := .Store, ty := .void,
            operands := [.inst 25, .global "m_for.body_even"] },
          { id := 6, name := "", op := .Br, ty := .void,
            operands := [.inst 5, .block 4, .block 3] }] },
      { name := "even", instrs :=
         [{ id := 27, name := "m_even", op := .Alloca, ty := .ptr, operands := [.constInt 32 1] },
          { id := 42, name := "", op := .Load, ty := .i1, operands := [.global "m_for.body_even"] },
          { id := 43, name := "", op := .Store, ty := .void, operands := [.inst 42, .inst 27] },
          { id := 7, name := "", op := .Other, ty := .void, operands := [] },
          { id := 28, name := "", op := .Load, ty := .i1, operands := [.inst 27] },
          { id := 29, name := "", op := .Store, ty := .void,
            operands := [.inst 28, .global "m_even_join"] },
          { id := 8, name := "", op := .Br, ty := .void, operands := [.block 5] }] },
      { name := "odd", instrs :=
         [{ id := 30, name := "m_odd", op := .Alloca, ty := .ptr, operands := [.constInt 32 1] },
          { id := 44, name := "", op := .Load, ty := .i1, operands := [.global "m_for.body_odd"] },
          { id := 45, name := "", op := .Store, ty := .void, operands := [.inst 44, .inst 30] },
          { id := 9, name := "", op := .Other, ty := .void, operands := [] },
          { id := 31, name := "", op := .Load, ty := .i1, operands := [.inst 30] },
          { id := 32, name := "", op := .Store, ty := .void,
            operands := [.inst 31, .global "m_odd_join"] },
          { id := 10, name := "", op := .Br, ty := .void, operands := [.block 5] }] },
      { name := "join", instrs :=
         [{ id := 33, name := "m_join", op := .Alloca, ty := .ptr, operands := [.constInt 32 1] },
          { id := 46, name := "", op := .Load, ty := .i1, operands := [.global "m_even_join"] },
          { id := 47, name := "", op := .Load, ty := .i1, operands := [.global "m_odd_join"] },
          { id := 48, name := "", op := .Or, ty := .i1, operands := [.inst 47, .inst 46] },
          { id := 49, name := "", op := .Store, ty := .void, operands := [.inst 48, .inst 33] },
          { id := 34, name := "", op := .Load, ty := .i1, operands := [.inst 33] },
          { id := 35, name := "", op := .Store, ty := .void,
            operands := [.inst 34, .global "m_join_for.inc"] },
          { id := 11, name := "", op := .Br, ty := .void, operands := [.block 6] }] },
      { name := "for.inc", instrs :=
         [{ id := 36, name := "t1", op := .Load, ty := .i32, operands := [.global "vl"] },
          { id := 37, name := "t2", op := .Load, ty := .i32, operands := [.global "local_id"] },
          { id := 38, name := "t3", op := .Add, ty := .i32, operands := [.inst 37, .inst 36] },
          { id := 39, name := "", op := .Store, ty := .void,
            operands := [.inst 38, .global "local_id"] },
          { id := 12, name := "inc", op := .Other, ty := .i32, operands := [.inst 1] },
          { id := 13, name := "", op := .Br, ty := .void, operands := [.block 1] }] },
      { name := "for.end", instrs :=
         [{ id := 14, name := "", op := .Ret, ty := .void, operands := [] }] }], lastUnique := 0 } := by
  decide

/-- In the transformed diamond the entry masks of `for.body` and `join` both end up as `A`. -/
theorem diamond_join_mask (vs : Nat → Nat → Nat → Nat) (σ₀ : Machine) (A c : Bool) :
    (entryMaskCell (vectorisedDiamond 100) "for.body").map
      (exec vs (diamondInput σ₀ A.toNat c.toNat)
        (blockCode (vectorisedDiamond 100) 2 ++ blockCode (vectorisedDiamond 100) 3 ++
          blockCode (vectorisedDiamond 100) 4 ++ blockCode (vectorisedDiamond 100) 5)).mem
      = some A.toNat ∧
    (entryMaskCell (vectorisedDiamond 100) "join").map
      (exec vs (diamondInput σ₀ A.toNat c.toNat)
        (blockCode (vectorisedDiamond 100) 2 ++ blockCode (vectorisedDiamond 100) 3 ++
          blockCode (vectorisedDiamond 100) 4 ++ blockCode (vectorisedDiamond 100) 5)).mem
      = some A.toNat := by
  rw [vectorisedDiamond_eq]
  cases A <;> cases c <;>
    simp [entryMaskCell, lookup, lookupInstr, blockCode, diamondInput, exec, execInstr, cellOf,
      evalValue, Machine.setReg, Machine.write, Ty.modulus,
      List.indexOf?, List.findIdx?_cons, List.findIdx?_nil]

/-- C8: for Boolean `A` and `c`, the two values the declarator stores for a
conditional branch (into the cells named after operand 1 and operand 2 of the
branch) have the OR `A`, where `A` is the content of the entry-mask slot and
`c` the branch condition; and in the transformed diamond loop, running the
code of `for.body`, `even`, `odd`, `join` in this order leaves the entry mask of
`join` equal to the entry mask of `for.body`, both `A`. -/
theorem exit_masks_or_is_entry_mask (st : PassState) (b : IRBuilder) (BBname : String)
    (br : Instr) (cond o1 o2 : Value) (e : Nat) (pre post : List Instr) (A c : Bool)
    (vs : Nat → Nat → Nat → Nat) (σ σ₀ : Machine)
    (hops : br.operands = [cond, o1, o2]) (hat : AtPoint st b pre post)
    (hstable : ∀ j, cond = .inst j → j < st.nextId)
    (hA : σ.mem (.stack e) = A.toNat) (hc : evalValue σ cond = c.toNat) :
    (∃ st' code vt vf,
      conditionalExitMasks st b BBname br (.inst e) = .ok st' ∧
      blockCode st'.F b.bb = pre ++ code ++ post ∧
      (code.filter (fun i => i.op == .Store)).map (fun i => i.operands) =
        [[vt, .global ("m_" ++ BBname ++ "_" ++ getName st.F o1)],
         [vf, .global ("m_" ++ BBname ++ "_" ++ getName st.F o2)]] ∧
      evalValue (exec vs σ code) vt ||| evalValue (exec vs σ code) vf = A.toNat) ∧
    ((entryMaskCell (vectorisedDiamond 100) "for.body").map
      (exec vs (diamondInput σ₀ A.toNat c.toNat)
        (blockCode (vectorisedDiamond 100) 2 ++ blockCode (vectorisedDiamond 100) 3 ++
          blockCode (vectorisedDiamond 100) 4 ++ blockCode (vectorisedDiamond 100) 5)).mem
      = some A.toNat ∧
    (entryMaskCell (vectorisedDiamond 100) "join").map
      (exec vs (diamondInput σ₀ A.toNat c.toNat)
        (blockCode (vectorisedDiamond 100) 2 ++ blockCode (vectorisedDiamond 100) 3 ++
          blockCode (vectorisedDiamond 100) 4 ++ blockCode (vectorisedDiamond 100) 5)).mem
      = some A.toNat) := by
  refine ⟨?_, diamond_join_mask vs σ₀ A c⟩
  obtain ⟨st', hrun, hcode⟩ :=
    conditionalExitMasks_code st b BBname br (.inst e) cond o1 o2 pre post hops hat
  obtain ⟨h1, h2⟩ := exitCode_values st.nextId e cond
    ("m_" ++ BBname ++ "_" ++ getName st.F o1) ("m_" ++ BBname ++ "_" ++ getName st.F o2)
    A c vs σ hA hc hstable
  refine ⟨st', _, .inst (st.nextId + 1), .inst (st.nextId + 4), hrun, hcode, ?_, ?_⟩
  · simp
  · rw [h1, h2]
    cases A <;> cases c <;> rfl

/-- Witness for C8: the conditional branch of `for.body` of the diamond loop, with
the builder in front of it, on the machine that holds one everywhere. -/
theorem exit_masks_or_is_entry_mask_witness :
    (∃ st' code vt vf,
      conditionalExitMasks (initState emptyModule (diamond 100)) { bb := 2, pos := 2 } "for.body"
        (BranchInst.conditional 6 (.inst 5) 3 4) (.inst 20) = .ok st' ∧
      blockCode st'.F 2 =
        [{ id := 4, name := "rem", op := .Other, ty := .i32, operands := [.inst 1] },
         { id := 5, name := "c", op := .ICmp, ty := .i1,
           operands := [.inst 4, .constInt 32 0] }] ++ code ++
        [BranchInst.conditional 6 (.inst 5) 3 4] ∧
      (code.filter (fun i => i.op == .Store)).map (fun i => i.operands) =
        [[vt, .global ("m_" ++ "for.body" ++ "_" ++
            getName (initState emptyModule (diamond 100)).F (.block 4))],
         [vf, .global ("m_" ++ "for.body" ++ "_" ++
            getName (initState emptyModule (diamond 100)).F (.block 3))]] ∧
      evalValue (exec (grantMin 8) oneMachine code) vt |||
        evalValue (exec (grantMin 8) oneMachine code) vf = true.toNat) ∧
    ((entryMaskCell (vectorisedDiamond 100) "for.body").map
      (exec (grantMin 8) (diamondInput zeroMachine true.toNat true.toNat)
        (blockCode (vectorisedDiamond 100) 2 ++ blockCode (vectorisedDiamond 100) 3 ++
          blockCode (vectorisedDiamond 100) 4 ++ blockCode (vectorisedDiamond 100) 5)).mem
      = some true.toNat ∧
    (entryMaskCell (vectorisedDiamond 100) "join").map
      (exec (grantMin 8) (diamondInput zeroMachine true.toNat true.toNat)
        (blockCode (vectorisedDiamond 100) 2 ++ blockCode (vectorisedDiamond 100) 3 ++
          blockCode (vectorisedDiamond 100) 4 ++ blockCode (vectorisedDiamond 100) 5)).mem
      = some true.toNat) :=
  exit_masks_or_is_entry_mask (initState emptyModule (diamond 100)) { bb := 2, pos := 2 }
    "for.body" (BranchInst.conditional 6 (.inst 5) 3 4) (.inst 5) (.block 4) (.block 3) 20
    [{ id := 4, name := "rem", op := .Other, ty := .i32, operands := [.inst 1] },
     { id := 5, name := "c", op := .ICmp, ty := .i1, operands := [.inst 4, .constInt 32 0] }]
    [BranchInst.conditional 6 (.inst 5) 3 4] true true (grantMin 8) oneMachine zeroMachine
    rfl ⟨by decide, by decide, rfl⟩
    (by intro j hj; cases hj; decide) rfl rfl

/-! ## Properties: the resolved entry mask -/

/-- Executing a list starts with its first instruction. -/
theorem exec_cons (vs : Nat → Nat → Nat → Nat) (σ : Machine) (i : Instr) (code : List Instr) :
    exec vs σ (i :: code) = exec vs (execInstr vs σ i) code := rfl

/-- Executing a concatenation is executing the parts in turn. -/
theorem exec_append (vs : Nat → Nat → Nat → Nat) (σ : Machine) (a b : List Instr) :
    exec vs σ (a ++ b) = exec vs (exec vs σ a) b := by
  simp [exec, List.foldl_append]

/-- The `or` of a loaded bit and a Boolean accumulator. -/
theorem bit_or_toNat (m : Nat) (acc : Bool) :
    (m % 2 ||| acc.toNat) % 2 = ((m % 2 == 1) || acc).toNat := by
  rcases Nat.mod_two_eq_zero_or_one m with h | h <;> cases acc <;> simp [h]

/-- A loaded bit as a Boolean. -/
theorem bit_toNat (m : Nat) : m % 2 = ((m % 2 == 1) || false).toNat := by
  rcases Nat.mod_two_eq_zero_or_one m with h | h <;> simp [h]

/-- The loop over the predecessors succeeds, emits its code at the builder, keeps
memory as it is and leaves in `cur` the OR of the accumulated value and the
loaded exit masks. -/
theorem foldPredecessors_spec (BBname : String) (post : List Instr) :
    ∀ (preds : List Nat) (st : PassState) (b : IRBuilder) (pre : List Instr)
      (cur last : Option Value) (cnt : Nat),
      AtPoint st b pre post →
      (0 < cnt → cur = last ∧ ∃ j, last = some (.inst j) ∧ j < st.nextId) →
      ∃ st' b' cur' code,
        foldPredecessors BBname preds st b cur last cnt = .ok (st', b', cur') ∧
        AtPoint st' b' (pre ++ code) post ∧ b'.bb = b.bb ∧
        (∀ k, getName st'.F (.block k) = getName st.F (.block k)) ∧
        ((0 < cnt ∨ preds ≠ []) → ∃ j, cur' = some (.inst j)) ∧
        ∀ (vs : Nat → Nat → Nat → Nat) (σ : Machine) (acc : Bool),
          (0 < cnt → ∀ j, last = some (.inst j) → σ.regs j = acc.toNat) →
          (cnt = 0 → acc = false) →
          (exec vs σ code).mem = σ.mem ∧
          ((0 < cnt ∨ preds ≠ []) → ∀ j, cur' = some (.inst j) →
            (exec vs σ code).regs j =
              (acc || preds.any (fun p =>
                σ.mem (.global ("m_" ++ getName st.F (.block p) ++ "_" ++ BBname)) % 2 == 1)).toNat) := by
  intro preds
  induction preds with
  | nil =>
    intro st b pre cur last cnt hat hinv
    refine ⟨st, b, cur, [], rfl, by simpa using hat, rfl, fun _ => rfl, ?_, ?_⟩
    · intro h
      rcases h with h | h
      · obtain ⟨hcl, j, hj, _⟩ := hinv h
        exact ⟨j, by rw [hcl, hj]⟩
      · exact absurd rfl h
    · intro vs σ acc hacc _
      refine ⟨rfl, ?_⟩
      intro h j hj
      rcases h with h | h
      · obtain ⟨hcl, _⟩ := hinv h
        have := hacc h j (by rw [← hcl, hj])
        simpa [exec] using this
      · exact absurd rfl h
  | cons pred rest ih =>
    intro st b pre cur last cnt hat hinv
    have hat1 := hat.afterGlobal ("m_" ++ getName st.F (.block pred) ++ "_" ++ BBname)
    have hat2 := hat1.afterInsert "" .Load .i1
      [.global ("m_" ++ getName st.F (.block pred) ++ "_" ++ BBname)]
    have hn1 : (insertGlobal st ("m_" ++ getName st.F (.block pred) ++ "_" ++ BBname)).nextId
        = st.nextId := insertGlobal_nextId _ _
    by_cases hcnt : 0 < cnt
    · obtain ⟨hcl, jl, hl, hjl⟩ := hinv hcnt
      have hat3 := hat2.afterInsert "" .Or .i1 [.inst st.nextId, .inst jl]
      obtain ⟨st', b', cur', code', hrun, hat', hbb, hnames, hsome, hsem⟩ :=
        ih _ _ _ (some (.inst (st.nextId + 1))) (some (.inst (st.nextId + 1))) (cnt + 1) hat3
          (fun _ => ⟨rfl, st.nextId + 1, rfl, by
            simp only [insertState_nextId, insertGlobal_nextId]; omega⟩)
      have hnames3 : ∀ k, getName st'.F (.block k) = getName st.F (.block k) := by
        intro k
        rw [hnames k, getName_block_insertState, getName_block_insertState, insertGlobal_F]
      refine ⟨st', b', cur',
        newInstr (insertGlobal st ("m_" ++ getName st.F (.block pred) ++ "_" ++ BBname)) ""
            .Load .i1 [.global ("m_" ++ getName st.F (.block pred) ++ "_" ++ BBname)] ::
          newInstr (insertState
            (insertGlobal st ("m_" ++ getName st.F (.block pred) ++ "_" ++ BBname)) b ""
            .Load .i1 [.global ("m_" ++ getName st.F (.block pred) ++ "_" ++ BBname)]) ""
            .Or .i1 [.inst st.nextId, .inst jl] :: code',
        ?_, ?_, hbb, hnames3, fun _ => hsome (Or.inl (Nat.succ_pos _)), ?_⟩
      · rw [← hrun]
        simp only [foldPredecessors, getOrInsertGlobal, CreateLoad, CreateOr, Insert, hl, hcnt,
          if_true, insertState_nextId, insertGlobal_nextId]
      · simpa [List.append_assoc] using hat'
      · intro vs σ acc hacc _
        have hjl' : jl ≠ st.nextId := by omega
        have hσ := hsem vs
          (execInstr vs (execInstr vs σ
            (newInstr (insertGlobal st ("m_" ++ getName st.F (.block pred) ++ "_" ++ BBname)) ""
              .Load .i1 [.global ("m_" ++ getName st.F (.block pred) ++ "_" ++ BBname)]))
            (newInstr (insertState
              (insertGlobal st ("m_" ++ getName st.F (.block pred) ++ "_" ++ BBname)) b ""
              .Load .i1 [.global ("m_" ++ getName st.F (.block pred) ++ "_" ++ BBname)]) ""
              .Or .i1 [.inst st.nextId, .inst jl]))
          ((σ.mem (.global ("m_" ++ getName st.F (.block pred) ++ "_" ++ BBname)) % 2 == 1) || acc)
          (by
            intro _ j hj
            cases hj
            have := hacc hcnt jl hl
            simp [newInstr, execInstr, cellOf, evalValue, Machine.setReg, Ty.modulus,
              insertState_nextId, insertGlobal_nextId, hjl', this, bit_or_toNat])
          (by intro h; omega)
        obtain ⟨hmem, hval⟩ := hσ
        refine ⟨?_, ?_⟩
        · rw [exec_cons, exec_cons, hmem]
          simp [newInstr, execInstr, cellOf, Machine.setReg]
        · intro _ j hj
          rw [exec_cons, exec_cons, hval (Or.inl (Nat.succ_pos _)) j hj]
          simp [newInstr, execInstr, cellOf, Machine.setReg, getName_block_insertState,
            insertGlobal_F, Bool.or_assoc, Bool.or_comm]
    · have hzero : cnt = 0 := by omega
      obtain ⟨st', b', cur', code', hrun, hat', hbb, hnames, hsome, hsem⟩ :=
        ih _ _ _ (some (.inst st.nextId)) (some (.inst st.nextId)) (cnt + 1) hat2
          (fun _ => ⟨rfl, st.nextId, rfl, by
            simp only [insertState_nextId, insertGlobal_nextId]; omega⟩)
      have hnames2 : ∀ k, getName st'.F (.block k) = getName st.F (.block k) := by
        intro k
        rw [hnames k, getName_block_insertState, insertGlobal_F]
      refine ⟨st', b', cur',
        newInstr (insertGlobal st ("m_" ++ getName st.F (.block pred) ++ "_" ++ BBname)) ""
            .Load .i1 [.global ("m_" ++ getName st.F (.block pred) ++ "_" ++ BBname)] :: code',
        ?_, ?_, hbb, hnames2, fun _ => hsome (Or.inl (Nat.succ_pos _)), ?_⟩
      · rw [← hrun]
        simp only [foldPredecessors, getOrInsertGlobal, CreateLoad, Insert, hcnt,
          if_false, insertState_nextId, insertGlobal_nextId]
      · simpa [List.append_assoc] using hat'
      · intro vs σ acc _ hacc0
        have hacc : acc = false := hacc0 hzero
        have hσ := hsem vs
          (execInstr vs σ
            (newInstr (insertGlobal st ("m_" ++ getName st.F (.block pred) ++ "_" ++ BBname)) ""
              .Load .i1 [.global ("m_" ++ getName st.F (.block pred) ++ "_" ++ BBname)]))
          ((σ.mem (.global ("m_" ++ getName st.F (.block pred) ++ "_" ++ BBname)) % 2 == 1)
            || false)
          (by
            intro _ j hj
            cases hj
            simp only [newInstr, execInstr, cellOf, Machine.setReg, Ty.modulus,
              insertGlobal_nextId, if_true]
            exact bit_toNat _)
          (by intro h; omega)
        obtain ⟨hmem, hval⟩ := hσ
        refine ⟨?_, ?_⟩
        · rw [exec_cons, hmem]
          simp [newInstr, execInstr, cellOf, Machine.setReg]
        · intro _ j hj
          rw [exec_cons, hval (Or.inl (Nat.succ_pos _)) j hj, hacc]
          simp [newInstr, execInstr, cellOf, Machine.setReg, getName_block_insertState,
            insertGlobal_F]

/-- The resolver succeeds for a non-empty predecessor list and the code it places
behind the looked-up instruction stores the OR of the loaded exit masks into
its slot. -/
theorem resolveMaskWith_spec (st : PassState) (BBname : String) (mbb mpos : Nat) (mask : Instr)
    (preds : List Nat)
    (hl : lookup st.F ("m_" ++ BBname) = some (.instruction mbb mpos mask))
    (hpos : mpos + 1 < (blockCode st.F mbb).length) (hne : preds ≠ []) :
    ∃ st' code,
      resolveMaskWith preds st BBname = .ok st' ∧
      blockCode st'.F mbb =
        (blockCode st.F mbb).take (mpos + 1) ++ code ++ (blockCode st.F mbb).drop (mpos + 1) ∧
      ∀ (vs : Nat → Nat → Nat → Nat) (σ : Machine),
        (exec vs σ code).mem (.stack mask.id) =
          (preds.any (fun p =>
            σ.mem (.global ("m_" ++ getName st.F (.block p) ++ "_" ++ BBname)) % 2 == 1)).toNat := by
  obtain ⟨parent, hparent⟩ : ∃ parent, st.F.blocks[mbb]? = some parent := by
    cases hb : st.F.blocks[mbb]? with
    | none => simp [blockCode, hb] at hpos
    | some parent => exact ⟨parent, rfl⟩
  have hcode : blockCode st.F mbb = parent.instrs := by simp [blockCode, hparent]
  have hpos' : mpos + 1 < parent.instrs.length := by rw [← hcode]; exact hpos
  have hat : AtPoint st { bb := mbb, pos := mpos + 1 }
      ((blockCode st.F mbb).take (mpos + 1)) ((blockCode st.F mbb).drop (mpos + 1)) :=
    { inRange := by
        have := (List.getElem?_eq_some.mp hparent).1
        exact this
      code := (List.take_append_drop _ _).symm
      pos := by simp [List.length_take]; omega }
  obtain ⟨st1, b1, cur1, code1, hrun, hat1, hbb, _, hsome, hsem⟩ :=
    foldPredecessors_spec BBname _ preds st _ _ none none 0 hat (fun h => absurd h (lt_irrefl 0))
  obtain ⟨j, hj⟩ := hsome (Or.inr hne)
  subst hj
  have hat2 := hat1.afterInsert "" .Store .void [.inst j, .inst mask.id]
  refine ⟨insertState st1 b1 "" .Store .void [.inst j, .inst mask.id],
    code1 ++ [newInstr st1 "" .Store .void [.inst j, .inst mask.id]], ?_, ?_, ?_⟩
  · simp only [resolveMaskWith, hl, hparent, hpos', if_true, hrun, CreateStore, Insert]
  · have := hat2.code
    rw [hbb] at this
    simpa [List.append_assoc] using this
  · intro vs σ
    obtain ⟨_, hval⟩ := hsem vs σ false (fun h => absurd h (lt_irrefl 0)) (fun _ => rfl)
    have := hval (Or.inr hne) j rfl
    rw [exec_append]
    simp [exec, newInstr, execInstr, cellOf, evalValue, Machine.write]
    simpa [exec] using this

/-- The OR over a list does not depend on the order of the list. -/
theorem any_perm {α : Type} (f : α → Bool) (l l' : List α) (h : l'.Perm l) :
    l'.any f = l.any f := by
  rw [Bool.eq_iff_iff]
  simp only [List.any_eq_true]
  constructor
  · rintro ⟨x, hx, hf⟩; exact ⟨x, h.mem_iff.mp hx, hf⟩
  · rintro ⟨x, hx, hf⟩; exact ⟨x, h.mem_iff.mpr hx, hf⟩

/-- When the value named `m_<BB>` is an instruction with a successor in its
block and the predecessor list is not empty, the resolver succeeds, and the
code it emits stores into the slot of that instruction the logical OR of the
values loaded from the globals `m_<pred>_<BB>`; for every permutation of the
predecessor list the stored value is the same. -/
theorem resolveMaskWith_perm (st : PassState) (BBname : String)
    (mbb mpos : Nat) (mask : Instr) (preds preds' : List Nat)
    (hl : lookup st.F ("m_" ++ BBname) = some (.instruction mbb mpos mask))
    (hpos : mpos + 1 < (blockCode st.F mbb).length) (hne : preds ≠ [])
    (hperm : preds'.Perm preds) :
    ∃ st' code st'' code',
      resolveMaskWith preds st BBname = .ok st' ∧
      blockCode st'.F mbb =
        (blockCode st.F mbb).take (mpos + 1) ++ code ++ (blockCode st.F mbb).drop (mpos + 1) ∧
      resolveMaskWith preds' st BBname = .ok st'' ∧
      blockCode st''.F mbb =
        (blockCode st.F mbb).take (mpos + 1) ++ code' ++ (blockCode st.F mbb).drop (mpos + 1) ∧
      ∀ (vs : Nat → Nat → Nat → Nat) (σ : Machine),
        (exec vs σ code).mem (.stack mask.id) =
          (preds.any (fun p =>
            σ.mem (.global ("m_" ++ getName st.F (.block p) ++ "_" ++ BBname)) % 2 == 1)).toNat ∧
        (exec vs σ code').mem (.stack mask.id) = (exec vs σ code).mem (.stack mask.id) := by
  have hne' : preds' ≠ [] := by
    intro h
    rw [h] at hperm
    exact hne (List.Perm.nil_eq hperm).symm
  obtain ⟨st', code, hrun, hcode, hsem⟩ :=
    resolveMaskWith_spec st BBname mbb mpos mask preds hl hpos hne
  obtain ⟨st'', code', hrun', hcode', hsem'⟩ :=
    resolveMaskWith_spec st BBname mbb mpos mask preds' hl hpos hne'
  refine ⟨st', code, st'', code', hrun, hcode, hrun', hcode', fun vs σ => ⟨hsem vs σ, ?_⟩⟩
  rw [hsem vs σ, hsem' vs σ, any_perm _ _ _ hperm]

/-! ## Properties: the cells the resolution pass loads -/

/-- An insertion makes the list one longer. -/
theorem length_insertAt (i : Instr) (l : List Instr) (n : Nat) :
    (insertAt i l n).length = l.length + 1 := by
  induction l generalizing n with
  | nil => cases n <;> rfl
  | cons x rest ih => cases n <;> simp [insertAt, ih]

/-- The members after an insertion: the new instruction and the old ones. -/
theorem mem_insertAt (i x : Instr) (l : List Instr) (n : Nat) :
    x ∈ insertAt i l n ↔ x = i ∨ x ∈ l := by
  induction l generalizing n with
  | nil => cases n <;> simp [insertAt]
  | cons y rest ih =>
    cases n with
    | zero => simp [insertAt]
    | succ n =>
      simp only [insertAt, List.mem_cons, ih]
      tauto

/-- An insertion in front of an instruction keeps the last instruction. -/
theorem getLast?_insertAt (i : Instr) (l : List Instr) (n : Nat) (h : n < l.length) :
    (insertAt i l n).getLast? = l.getLast? := by
  induction l generalizing n with
  | nil => simp at h
  | cons y rest ih =>
    cases n with
    | zero => simp [insertAt, List.getLast?_cons_cons]
    | succ n =>
      have hn : n < rest.length := by simpa using h
      cases rest with
      | nil => simp at hn
      | cons z rest' =>
        have := ih n hn
        cases hins : insertAt i (z :: rest') n with
        | nil =>
          have := length_insertAt i (z :: rest') n
          rw [hins] at this
          simp at this
        | cons w ws =>
          rw [hins] at this
          simp only [insertAt, hins, List.getLast?_cons_cons]
          exact this

/-- Every state extends itself. -/
theorem Grows.refl (st : PassState) : Grows st st :=
  ⟨fun _ => rfl, fun _ => rfl, fun _ h => h, fun _ _ h => h⟩

/-- Extension is transitive. -/
theorem Grows.trans {a b c : PassState} (h1 : Grows a b) (h2 : Grows b c) : Grows a c :=
  ⟨fun j => (h2.names j).trans (h1.names j), fun j => (h2.term j).trans (h1.term j),
    fun g h => h2.globals g (h1.globals g h), fun j i h => h2.code j i (h1.code j i h)⟩

/-- Adding a global extends the state. -/
theorem Grows.byGlobal (st : PassState) (n : String) : Grows st (insertGlobal st n) :=
  ⟨fun _ => by rw [insertGlobal_F], fun _ => by rw [insertGlobal_F],
    fun g h => subset_insertGlobal st n g h, fun _ _ h => by rw [insertGlobal_F]; exact h⟩

/-- An insertion in front of an instruction extends the state. -/
theorem Grows.byInsert (st : PassState) (b : IRBuilder) (name : String) (op : Opcode) (ty : Ty)
    (ops : List Value) (h : b.pos < (blockCode st.F b.bb).length) :
    Grows st (insertState st b name op ty ops) := by
  refine ⟨?_, ?_, fun _ hg => hg, ?_⟩
  · intro j
    by_cases hj : j = b.bb
    · subst hj
      simp only [blockName?, insertState, updateBlock_getElem?_self]
      cases st.F.blocks[b.bb]? <;> rfl
    · simp [blockName?, insertState, updateBlock_getElem?_ne _ _ _ _ hj]
  · intro j
    by_cases hj : j = b.bb
    · subst hj
      simp only [terminatorOf, insertState, updateBlock_getElem?_self]
      cases hb : st.F.blocks[b.bb]? with
      | none => rfl
      | some blk =>
        have hlen : b.pos < blk.instrs.length := by simpa [blockCode, hb] using h
        simp [getTerminator, getLast?_insertAt _ _ _ hlen]
    · simp [terminatorOf, insertState, updateBlock_getElem?_ne _ _ _ _ hj]
  · intro j i hi
    by_cases hj : j = b.bb
    · subst hj
      simp only [blockCode, insertState, updateBlock_getElem?_self] at hi ⊢
      cases hb : st.F.blocks[b.bb]? with
      | none => simp [hb] at hi
      | some blk =>
        simp only [hb, Option.map_some'] at hi ⊢
        exact (mem_insertAt _ _ _ _).mpr (Or.inr hi)
    · rw [blockCode_insertState_ne _ _ _ _ _ _ _ hj]
      exact hi

/-- The inserted instruction is in the block of the insertion point. -/
theorem newInstr_mem_insertState (st : PassState) (b : IRBuilder) (name : String) (op : Opcode)
    (ty : Ty) (ops : List Value) (h : b.pos < (blockCode st.F b.bb).length) :
    newInstr st name op ty ops ∈ blockCode (insertState st b name op ty ops).F b.bb := by
  simp only [blockCode, insertState, updateBlock_getElem?_self]
  cases hb : st.F.blocks[b.bb]? with
  | none => simp [blockCode, hb] at h
  | some blk =>
    simp only [Option.map_some']
    exact (mem_insertAt _ _ _ _).mpr (Or.inl rfl)

/-- The block of the insertion point is one instruction longer. -/
theorem length_blockCode_insertState (st : PassState) (b : IRBuilder) (name : String)
    (op : Opcode) (ty : Ty) (ops : List Value) (h : b.pos < (blockCode st.F b.bb).length) :
    (blockCode (insertState st b name op ty ops).F b.bb).length
      = (blockCode st.F b.bb).length + 1 := by
  simp only [blockCode, insertState, updateBlock_getElem?_self]
  cases hb : st.F.blocks[b.bb]? with
  | none => simp [blockCode, hb] at h
  | some blk => simp [length_insertAt]

/-- A builder in front of an instruction, in the state itself. -/
theorem Reach.start (st : PassState) (b : IRBuilder)
    (h : b.pos < (blockCode st.F b.bb).length) : Reach st st b :=
  ⟨Grows.refl st, h⟩

/-- An insertion keeps the builder in front of the same instruction. -/
theorem Reach.step {st0 st : PassState} {b : IRBuilder} (h : Reach st0 st b) (name : String)
    (op : Opcode) (ty : Ty) (ops : List Value) :
    Reach st0 (insertState st b name op ty ops) { b with pos := b.pos + 1 } :=
  ⟨h.grows.trans (Grows.byInsert st b name op ty ops h.inRange), by
    have := length_blockCode_insertState st b name op ty ops h.inRange
    have := h.inRange
    simp only
    omega⟩

/-- Adding a global keeps the builder where it is. -/
theorem Reach.stepGlobal {st0 st : PassState} {b : IRBuilder} (h : Reach st0 st b)
    (n : String) : Reach st0 (insertGlobal st n) b :=
  ⟨h.grows.trans (Grows.byGlobal st n), by rw [insertGlobal_F]; exact h.inRange⟩

/-- The insertion step for a builder given by block and position. -/
theorem Reach.stepAt {st0 st : PassState} {bb pos : Nat} (h : Reach st0 st { bb := bb, pos := pos })
    (name : String) (op : Opcode) (ty : Ty) (ops : List Value) :
    Reach st0 (insertState st { bb := bb, pos := pos } name op ty ops)
      { bb := bb, pos := pos + 1 } :=
  h.step name op ty ops

/-- The exit-mask code of a conditional branch extends the state, puts both
globals into the module and stores into both. -/
theorem conditionalExitMasks_declares (st st' : PassState) (b : IRBuilder) (BBname : String)
    (br : Instr) (entry cond o1 o2 : Value)
    (hops : br.operands = [cond, o1, o2]) (hin : b.pos < (blockCode st.F b.bb).length)
    (hrun : conditionalExitMasks st b BBname br entry = .ok st') :
    Grows st st' ∧
    ∀ o, o = o1 ∨ o = o2 →
      ("m_" ++ BBname ++ "_" ++ getName st.F o) ∈ st'.M.globals ∧
      ∃ i ∈ blockCode st'.F b.bb, i.op = .Store ∧
        ∃ v, i.operands = [v, .global ("m_" ++ BBname ++ "_" ++ getName st.F o)] := by
  simp only [conditionalExitMasks, hops, getOrInsertGlobal, CreateLoad, CreateAnd, CreateStore,
    CreateNot, Insert, Except.ok.injEq, insertState_nextId, insertGlobal_nextId] at hrun
  subst hrun
  have R1 := (Reach.start st b hin).stepGlobal ("m_" ++ BBname ++ "_" ++ getName st.F o1)
  have R2 := R1.stepGlobal ("m_" ++ BBname ++ "_" ++ getName st.F o2)
  have R3 := R2.step "" .Load .i1 [entry]
  have R4 := R3.stepAt "" .And .i1 [.inst st.nextId, cond]
  have R5 := R4.stepAt "" .Store .void
    [.inst (st.nextId + 1), .global ("m_" ++ BBname ++ "_" ++ getName st.F o1)]
  have R6 := R5.stepAt "" .Xor .i1 [cond, .constInt 1 1]
  have R7 := R6.stepAt "" .And .i1 [.inst st.nextId, .inst (st.nextId + 1 + 1 + 1)]
  have R8 := R7.stepAt "" .Store .void
    [.inst (st.nextId + 1 + 1 + 1 + 1), .global ("m_" ++ BBname ++ "_" ++ getName st.F o2)]
  refine ⟨R8.grows, ?_⟩
  intro o ho
  rcases ho with rfl | rfl
  · refine ⟨?_, ?_⟩
    · simp only [insertState_M]
      exact subset_insertGlobal _ _ _ (mem_insertGlobal _ _)
    · have hmem := newInstr_mem_insertState _ _ "" .Store .void
        [.inst (st.nextId + 1), .global ("m_" ++ BBname ++ "_" ++ getName st.F o)] R4.inRange
      have h6 := (Grows.byInsert _ _ "" .Xor .i1 [cond, .constInt 1 1] R5.inRange).code _ _ hmem
      have h7 := (Grows.byInsert _ _ "" .And .i1 [.inst st.nextId, .inst (st.nextId + 1 + 1 + 1)]
        R6.inRange).code _ _ h6
      have h8 := (Grows.byInsert _ _ "" .Store .void
        [.inst (st.nextId + 1 + 1 + 1 + 1), .global ("m_" ++ BBname ++ "_" ++ getName st.F o2)]
        R7.inRange).code _ _ h7
      exact ⟨_, h8, rfl, _, rfl⟩
  · refine ⟨?_, ?_⟩
    · simp only [insertState_M]
      exact mem_insertGlobal _ _
    · have hmem := newInstr_mem_insertState _ _ "" .Store .void
        [.inst (st.nextId + 1 + 1 + 1 + 1), .global ("m_" ++ BBname ++ "_" ++ getName st.F o)]
        R7.inRange
      exact ⟨_, hmem, rfl, _, rfl⟩

/-- The name of a block operand is the name of the block at that position. -/
theorem getName_block (F : Function) (j : Nat) :
    getName F (.block j) = (blockName? F j).getD "" := by
  simp only [getName, blockName?]
  cases F.blocks[j]? <;> rfl

/-- Block operands keep their names in an extended state. -/
theorem Grows.blockOperandName {st st' : PassState} (h : Grows st st') (j : Nat) :
    getName st'.F (.block j) = getName st.F (.block j) := by
  rw [Packetizer.getName_block, Packetizer.getName_block, h.names j]

/-- The exit-mask code of an unconditional branch outside `for.body` extends the
state, puts the global into the module and stores into it. -/
theorem unconditionalExitMask_declares (st st' : PassState) (b : IRBuilder) (BBname : String)
    (br : Instr) (entry : Value) (hin : b.pos < (blockCode st.F b.bb).length)
    (hrun : unconditionalExitMask st b BBname br entry = .ok st') :
    Grows st st' ∧
    ∀ o, br.operands[0]? = some o →
      ("m_" ++ BBname ++ "_" ++ getName st.F o) ∈ st'.M.globals ∧
      ∃ i ∈ blockCode st'.F b.bb, i.op = .Store ∧
        ∃ v, i.operands = [v, .global ("m_" ++ BBname ++ "_" ++ getName st.F o)] := by
  cases hop : (br.operands[0]? : Option Value) with
  | none => simp [unconditionalExitMask, hop] at hrun
  | some op0 =>
    simp only [unconditionalExitMask, hop, getOrInsertGlobal, CreateLoad, CreateStore, Insert,
      Except.ok.injEq, insertState_nextId, insertGlobal_nextId] at hrun
    subst hrun
    have R1 := (Reach.start st b hin).stepGlobal ("m_" ++ BBname ++ "_" ++ getName st.F op0)
    have R2 := R1.step "" .Load .i1 [entry]
    have R3 := R2.stepAt "" .Store .void
      [.inst st.nextId, .global ("m_" ++ BBname ++ "_" ++ getName st.F op0)]
    refine ⟨R3.grows, ?_⟩
    intro o ho
    cases ho
    refine ⟨?_, ?_⟩
    · simp only [insertState_M]
      exact mem_insertGlobal _ _
    · have hmem := newInstr_mem_insertState _ _ "" .Store .void
        [.inst st.nextId, .global ("m_" ++ BBname ++ "_" ++ getName st.F op0)] R2.inRange
      exact ⟨_, hmem, rfl, _, rfl⟩

/-- The exit-mask code of an unconditional branch in `for.body` extends the state. -/
theorem unconditionalExitMaskBody_grows (st st' : PassState) (b : IRBuilder) (BBname : String)
    (br : Instr) (entry : Value) (hin : b.pos < (blockCode st.F b.bb).length)
    (hrun : unconditionalExitMaskBody st b BBname br entry = .ok st') : Grows st st' := by
  cases hop : (br.operands[0]? : Option Value) with
  | none => simp [unconditionalExitMaskBody, hop] at hrun
  | some op0 =>
    simp only [unconditionalExitMaskBody, hop, CreateAlloca, CreateLoad, CreateStore, Insert,
      Except.ok.injEq, insertState_nextId] at hrun
    subst hrun
    have R1 := (Reach.start st b hin).step ("m_" ++ BBname ++ "_" ++ getName st.F op0)
      .Alloca .ptr [.constInt 32 1]
    have R2 := R1.stepAt "" .Load .i1 [entry]
    have R3 := R2.stepAt "" .Store .void [.inst (st.nextId + 1), .inst st.nextId]
    exact R3.grows

/-- The increment code extends the state. -/
theorem emitIncrement_grows (st : PassState) (b : IRBuilder) (local_id vl : Value)
    (hin : b.pos < (blockCode st.F b.bb).length) :
    Grows st (emitIncrement st b local_id vl) := by
  simp only [emitIncrement, CreateLoad, CreateAdd, CreateStore, Insert, insertState_nextId]
  have R1 := (Reach.start st b hin).step "t1" .Load .i32 [vl]
  have R2 := R1.stepAt "t2" .Load .i32 [local_id]
  have R3 := R2.stepAt "t3" .Add .i32 [.inst (st.nextId + 1), .inst st.nextId]
  have R4 := R3.stepAt "" .Store .void [.inst (st.nextId + 1 + 1), local_id]
  exact R4.grows

/-- The scheduler code extends the state and leaves the builder in front of the
same instruction. -/
theorem emitScheduler_reach (st : PassState) (b : IRBuilder) (local_id vl f1 : Value)
    (hin : b.pos < (blockCode st.F b.bb).length) :
    Reach st (emitScheduler st b local_id vl f1).1 (emitScheduler st b local_id vl f1).2 ∧
      (emitScheduler st b local_id vl f1).2.bb = b.bb := by
  simp only [emitScheduler, CreateLoad, CreateSub, CreateAdd, CreateCall, CreateStore, Insert,
    insertState_nextId]
  have R1 := (Reach.start st b hin).step "s1" .Load .i32 [local_id]
  have R2 := R1.stepAt "s2" .Sub .i32
    [.constInt 32 (insertState st b "s1" .Load .i32 [local_id]).trip_count, .inst st.nextId]
  have R3 := R2.stepAt "s3" .Add .i32 [.inst (st.nextId + 1), .constInt 32 1]
  have R4 := R3.stepAt "" .Call .i32
    ([.inst (st.nextId + 1 + 1), .constInt 32 2, .constInt 32 3] ++ [f1])
  have R5 := R4.stepAt "" .Store .void [.inst (st.nextId + 1 + 1 + 1), vl]
  exact ⟨R5, trivial⟩

/-- The terminator of a block found at a position. -/
theorem terminatorOf_eq_some (F : Function) (bi : Nat) (BB : BasicBlock) (t : Instr)
    (hb : F.blocks[bi]? = some BB) (ht : getTerminator BB = some t) :
    terminatorOf F bi = some t := by
  simp [terminatorOf, hb, ht]

/-- The builder set to the terminator stands in front of the last instruction. -/
theorem setInsertPointTerminator_inRange (st : PassState) (bi : Nat) (BB : BasicBlock)
    (t : Instr) (hb : st.F.blocks[bi]? = some BB) (ht : getTerminator BB = some t) :
    (setInsertPointTerminator st bi).bb = bi ∧
    (setInsertPointTerminator st bi).pos
      < (blockCode st.F (setInsertPointTerminator st bi).bb).length := by
  have hne : BB.instrs ≠ [] := by
    intro h
    simp [getTerminator, h] at ht
  have hlen : 0 < BB.instrs.length := List.length_pos.mpr hne
  simp only [setInsertPointTerminator, hb, blockCode]
  exact ⟨trivial, by omega⟩

/-- Mask declaration extends the state; for a conditional branch both exit-mask
globals are declared and written. -/
theorem declareMasks_spec (st st' : PassState) (b : IRBuilder) (bi : Nat) (BBname : String)
    (u : PassState → IRBuilder → String → Instr → Value → Except Crash PassState)
    (hin : b.pos < (blockCode st.F b.bb).length)
    (hu : ∀ s s' b' n br e, b'.pos < (blockCode s.F b'.bb).length →
      u s b' n br e = .ok s' → Grows s s')
    (hrun : declareMasks st b bi BBname u = .ok st') :
    Grows st st' ∧
    ∀ term cond o1 o2 B, terminatorOf st.F bi = some term → term.op = .Br →
      term.operands = [cond, o1, o2] → (o1 = .block B ∨ o2 = .block B) →
      ("m_" ++ BBname ++ "_" ++ getName st.F (.block B)) ∈ st'.M.globals ∧
      ∃ i ∈ blockCode st'.F bi, i.op = .Store ∧
        ∃ v, i.operands = [v, .global ("m_" ++ BBname ++ "_" ++ getName st.F (.block B))] := by
  have RA := (Reach.start st b hin).step ("m_" ++ BBname) .Alloca .ptr [.constInt 32 1]
  simp only [declareMasks, CreateAlloca, Insert] at hrun
  cases hb : (insertState st b ("m_" ++ BBname) .Alloca .ptr [.constInt 32 1]).F.blocks[bi]? with
  | none => simp [hb] at hrun
  | some BB =>
    cases ht : getTerminator BB with
    | none => simp [hb, ht] at hrun
    | some t =>
      have hterm : terminatorOf st.F bi = some t := by
        rw [← RA.grows.term bi]
        exact terminatorOf_eq_some _ _ _ _ hb ht
      obtain ⟨hsb, hsin⟩ := setInsertPointTerminator_inRange _ bi BB t hb ht
      simp only [hb, ht] at hrun
      by_cases hbr : t.op = .Br
      · simp only [hbr, true_or, if_true] at hrun
        by_cases hc : t.isConditional = true
        · simp only [hc, if_true] at hrun
          obtain ⟨c, p1, p2, hops⟩ : ∃ c p1 p2, t.operands = [c, p1, p2] := by
            have hl : t.operands.length = 3 := by simpa [Instr.isConditional] using hc
            match hto : t.operands, hl with
            | [c, p1, p2], _ => exact ⟨c, p1, p2, rfl⟩
          obtain ⟨hg, hdecl⟩ := conditionalExitMasks_declares _ st' _ BBname t _ c p1 p2 hops
            hsin hrun
          refine ⟨RA.grows.trans hg, ?_⟩
          intro term cond o1 o2 B hterm' _ hops' hB
          rw [hterm] at hterm'
          cases hterm'
          rw [hops] at hops'
          cases hops'
          have hname : getName (insertState st b ("m_" ++ BBname) .Alloca .ptr
              [.constInt 32 1]).F (.block B) = getName st.F (.block B) :=
            RA.grows.blockOperandName B
          have := hdecl (.block B) (by rcases hB with h | h <;> simp [h])
          rw [hname, hsb] at this
          exact this
        · simp only [hc, if_false] at hrun
          refine ⟨RA.grows.trans (hu _ _ _ _ _ _ hsin hrun), ?_⟩
          intro term cond o1 o2 B hterm' _ hops' _
          rw [hterm] at hterm'
          cases hterm'
          exact absurd (by simp [Instr.isConditional, hops']) hc
      · by_cases hib : t.op = .IndirectBr
        · simp [hbr, hib] at hrun
        · simp only [hbr, hib, or_self, if_false, Except.ok.injEq] at hrun
          subst hrun
          refine ⟨RA.grows, ?_⟩
          intro term cond o1 o2 B hterm' hbr' _ _
          rw [hterm] at hterm'
          cases hterm'
          exact absurd hbr' hbr

/-- Mask declaration outside `for.body` declares and writes the exit-mask global of
an unconditional branch. -/
theorem declareMasks_unconditional (st st' : PassState) (b : IRBuilder) (bi : Nat)
    (BBname : String) (term : Instr) (B : Nat)
    (hin : b.pos < (blockCode st.F b.bb).length)
    (hrun : declareMasks st b bi BBname unconditionalExitMask = .ok st')
    (hterm : terminatorOf st.F bi = some term) (hbr : term.op = .Br)
    (hops : term.operands = [.block B]) :
    ("m_" ++ BBname ++ "_" ++ getName st.F (.block B)) ∈ st'.M.globals ∧
    ∃ i ∈ blockCode st'.F bi, i.op = .Store ∧
      ∃ v, i.operands = [v, .global ("m_" ++ BBname ++ "_" ++ getName st.F (.block B))] := by
  have RA := (Reach.start st b hin).step ("m_" ++ BBname) .Alloca .ptr [.constInt 32 1]
  simp only [declareMasks, CreateAlloca, Insert] at hrun
  cases hb : (insertState st b ("m_" ++ BBname) .Alloca .ptr [.constInt 32 1]).F.blocks[bi]? with
  | none => simp [hb] at hrun
  | some BB =>
    cases ht : getTerminator BB with
    | none => simp [hb, ht] at hrun
    | some t =>
      have hterm' : terminatorOf st.F bi = some t := by
        rw [← RA.grows.term bi]
        exact terminatorOf_eq_some _ _ _ _ hb ht
      rw [hterm] at hterm'
      cases hterm'
      obtain ⟨hsb, hsin⟩ := setInsertPointTerminator_inRange _ bi BB term hb ht
      have hnc : term.isConditional = false := by simp [Instr.isConditional, hops]
      simp only [hb, ht, hbr, true_or, if_true, hnc] at hrun
      obtain ⟨_, hdecl⟩ := unconditionalExitMask_declares _ st' _ BBname term _ hsin hrun
      have := hdecl (.block B) (by simp [hops])
      rw [RA.grows.blockOperandName B, hsb] at this
      exact this

/-- The first insertion point is the position of an instruction. -/
theorem getFirstInsertionPt_lt (BB : BasicBlock) (p : Nat)
    (h : getFirstInsertionPt BB = some p) : p < BB.instrs.length := by
  simp only [getFirstInsertionPt] at h
  cases hk : BB.instrs[firstNonPHI BB.instrs]? with
  | none => simp [hk] at h
  | some i =>
    have hlt : firstNonPHI BB.instrs < BB.instrs.length := (List.getElem?_eq_some.mp hk).1
    simp only [hk] at h
    split_ifs at h with h1 h2
    · cases h; exact h2
    · cases h; exact hlt

/-- One step of the first walk extends the state, and declares and writes the
exit-mask globals of the block it visits. -/
theorem step1_spec (local_id vl f1 : Value) (st st' : PassState) (k : Nat)
    (hrun : step1 local_id vl f1 st k = .ok st') :
    Grows st st' ∧
    ∀ n term B, blockName? st.F k = some n → n ≠ "for.cond" → n ≠ "for.inc" →
      terminatorOf st.F k = some term → term.op = .Br →
      ((∃ c o1 o2, term.operands = [c, o1, o2] ∧ (o1 = .block B ∨ o2 = .block B)) ∨
        (term.operands = [.block B] ∧ n ≠ "for.body")) →
      ("m_" ++ n ++ "_" ++ getName st.F (.block B)) ∈ st'.M.globals ∧
      ∃ i ∈ blockCode st'.F k, i.op = .Store ∧
        ∃ v, i.operands = [v, .global ("m_" ++ n ++ "_" ++ getName st.F (.block B))] := by
  simp only [step1] at hrun
  cases hb : st.F.blocks[k]? with
  | none => simp [hb] at hrun
  | some BB =>
    cases hp : getFirstInsertionPt BB with
    | none => simp [hb, hp] at hrun
    | some p =>
      have hin : (IRBuilder.mk k p).pos < (blockCode st.F (IRBuilder.mk k p).bb).length := by
        simpa [blockCode, hb] using getFirstInsertionPt_lt BB p hp
      have hname : blockName? st.F k = some BB.name := by simp [blockName?, hb]
      simp only [hb, hp] at hrun
      by_cases hc : BB.name = "for.cond"
      · rw [if_pos hc] at hrun
        cases hs : scanCond BB.instrs st.trip_count with
        | error e => simp [hs] at hrun
        | ok tc =>
          simp only [hs, Except.ok.injEq] at hrun
          subst hrun
          refine ⟨⟨fun _ => rfl, fun _ => rfl, fun _ h => h, fun _ _ h => h⟩, ?_⟩
          intro n term B hn hnc
          rw [hname] at hn
          cases hn
          exact absurd hc hnc
      · by_cases hi : BB.name = "for.inc"
        · rw [if_neg hc, if_pos hi] at hrun
          simp only [Except.ok.injEq] at hrun
          subst hrun
          refine ⟨emitIncrement_grows st _ local_id vl hin, ?_⟩
          intro n term B hn _ hni
          rw [hname] at hn
          cases hn
          exact absurd hi hni
        · by_cases hbody : BB.name = "for.body"
          · rw [if_neg hc, if_neg hi, if_pos hbody] at hrun
            obtain ⟨hR, hRbb⟩ := emitScheduler_reach st (IRBuilder.mk k p) local_id vl f1 hin
            rcases hes : emitScheduler st (IRBuilder.mk k p) local_id vl f1 with ⟨st2, b2⟩
            rw [hes] at hR hRbb hrun
            simp only at hR hRbb hrun
            obtain ⟨hg, hdecl⟩ := declareMasks_spec st2 st' b2 k BB.name
              unconditionalExitMaskBody hR.inRange
              (fun s s' b' n br e h1 h2 => unconditionalExitMaskBody_grows s s' b' n br e h1 h2)
              hrun
            refine ⟨hR.grows.trans hg, ?_⟩
            intro n term B hn _ _ hterm hbr hsucc
            rw [hname] at hn
            cases hn
            rcases hsucc with ⟨c, o1, o2, hops, hB⟩ | ⟨_, hnb⟩
            · have := hdecl term c o1 o2 B (by rw [hR.grows.term k]; exact hterm) hbr hops hB
              rw [hR.grows.blockOperandName B] at this
              exact this
            · exact absurd hbody hnb
          · rw [if_neg hc, if_neg hi, if_neg hbody] at hrun
            obtain ⟨hg, hdecl⟩ := declareMasks_spec st st' (IRBuilder.mk k p) k BB.name
              unconditionalExitMask hin
              (fun s s' b' n br e h1 h2 =>
                (unconditionalExitMask_declares s s' b' n br e h1 h2).1)
              hrun
            refine ⟨hg, ?_⟩
            intro n term B hn _ _ hterm hbr hsucc
            rw [hname] at hn
            cases hn
            rcases hsucc with ⟨c, o1, o2, hops, hB⟩ | ⟨hops, _⟩
            · exact hdecl term c o1 o2 B hterm hbr hops hB
            · exact declareMasks_unconditional st st' (IRBuilder.mk k p) k BB.name term B hin
                hrun hterm hbr hops

/-- The first walk over a non-empty list is a step followed by the walk over the rest. -/
theorem declarationPass_cons (local_id vl f1 : Value) (st st1 : PassState) (k : Nat)
    (rest : List Nat) (hrun : declarationPass local_id vl f1 st (k :: rest) = .ok st1) :
    ∃ st2, step1 local_id vl f1 st k = .ok st2 ∧
      declarationPass local_id vl f1 st2 rest = .ok st1 := by
  simp only [declarationPass, List.foldlM_cons] at hrun
  cases hs : step1 local_id vl f1 st k with
  | error e => simp [hs, bind, Except.bind] at hrun
  | ok st2 =>
    refine ⟨st2, rfl, ?_⟩
    simpa [hs, bind, Except.bind, declarationPass] using hrun

/-- The first walk extends the state. -/
theorem declarationPass_grows (local_id vl f1 : Value) (L : List Nat) :
    ∀ st st1, declarationPass local_id vl f1 st L = .ok st1 → Grows st st1 := by
  induction L with
  | nil =>
    intro st st1 hrun
    simp only [declarationPass, List.foldlM_nil, pure, Except.pure, Except.ok.injEq] at hrun
    subst hrun
    exact Grows.refl st
  | cons k rest ih =>
    intro st st1 hrun
    obtain ⟨st2, hs, hrest⟩ := declarationPass_cons local_id vl f1 st st1 k rest hrun
    exact (step1_spec local_id vl f1 st st2 k hs).1.trans (ih st2 st1 hrest)

/-- The name of a block operand, from the name of the block. -/
theorem getName_of_blockName? (F : Function) (j : Nat) (n : String)
    (h : blockName? F j = some n) : getName F (.block j) = n := by
  rw [getName_block, h]
  rfl

/-- C3, amended: when the declaration pass over the blocks `L` of a loop succeeds,
then for every block `P` of `L` other than `for.cond` and `for.inc` that ends
in a conditional branch with `B` among its two targets, or that is not
`for.body` and ends in an unconditional branch to `B`, the global
`m_<P>_<B>`, which is the cell the resolution pass loads for the predecessor
`P` of `B`, is in the module after the declaration pass and a store of block
`P` writes it. -/
theorem declared_exit_cells (local_id vl f1 : Value) (L : List Nat) (st st1 : PassState)
    (P B : Nat) (n : String) (term : Instr)
    (hrun : declarationPass local_id vl f1 st L = .ok st1) (hP : P ∈ L)
    (hn : blockName? st.F P = some n) (hnc : n ≠ "for.cond") (hni : n ≠ "for.inc")
    (hterm : terminatorOf st.F P = some term) (hbr : term.op = .Br)
    (hsucc : (∃ c o1 o2, term.operands = [c, o1, o2] ∧ (o1 = .block B ∨ o2 = .block B)) ∨
      (term.operands = [.block B] ∧ n ≠ "for.body")) :
    ("m_" ++ getName st1.F (.block P) ++ "_" ++ getName st1.F (.block B)) ∈ st1.M.globals ∧
    ∃ i ∈ blockCode st1.F P, i.op = .Store ∧
      ∃ v, i.operands =
        [v, .global ("m_" ++ getName st1.F (.block P) ++ "_" ++ getName st1.F (.block B))] := by
  induction L generalizing st with
  | nil => simp at hP
  | cons k rest ih =>
    obtain ⟨st2, hs, hrest⟩ := declarationPass_cons local_id vl f1 st st1 k rest hrun
    obtain ⟨hg, hdecl⟩ := step1_spec local_id vl f1 st st2 k hs
    have hg2 := declarationPass_grows local_id vl f1 rest st2 st1 hrest
    by_cases hk : P = k
    · subst hk
      obtain ⟨hmem, i, hi, hop, v, hv⟩ := hdecl n term B hn hnc hni hterm hbr hsucc
      have hnP : getName st1.F (.block P) = n := by
        rw [hg2.blockOperandName, hg.blockOperandName]
        exact getName_of_blockName? _ _ _ hn
      have hnB : getName st1.F (.block B) = getName st.F (.block B) := by
        rw [hg2.blockOperandName, hg.blockOperandName]
      rw [hnP, hnB]
      exact ⟨hg2.globals _ hmem, i, hg2.code _ _ hi, hop, v, hv⟩
    · have hP' : P ∈ rest := by
        rcases List.mem_cons.mp hP with h | h
        · exact absurd h hk
        · exact h
      exact ih st2 hrest hP' (by rw [hg.names]; exact hn) (by rw [hg.term]; exact hterm)

/-- Witness for C3: the edge from `for.body` to `even` in the diamond loop. -/
theorem declared_exit_cells_witness :
    ("m_" ++ getName declaredDiamond.F (.block 2) ++ "_" ++ getName declaredDiamond.F (.block 3))
      ∈ declaredDiamond.M.globals ∧
    ∃ i ∈ blockCode declaredDiamond.F 2, i.op = .Store ∧
      ∃ v, i.operands =
        [v, .global ("m_" ++ getName declaredDiamond.F (.block 2) ++ "_" ++
          getName declaredDiamond.F (.block 3))] :=
  declared_exit_cells (.global "local_id") (.global "vl") (.func "llvm.riscv.vsetvli.i32")
    [1, 2, 3, 4, 5, 6] (initState emptyModule (diamond 100)) declaredDiamond 2 3 "for.body"
    (BranchInst.conditional 6 (.inst 5) 3 4) (by decide) (by decide) (by decide) (by decide)
    (by decide) (by decide) (by decide)
    (Or.inl ⟨.inst 5, .block 4, .block 3, rfl, Or.inr rfl⟩)

/-! ## Properties: when the resolved value is defined -/

/-- The loop over the predecessors never aborts when `last` is set from the
second round on, and it leaves `cur` set exactly when `cur` was set before or
there is a predecessor. -/
theorem foldPredecessors_cur (BBname : String) :
    ∀ (preds : List Nat) (st : PassState) (b : IRBuilder) (cur last : Option Value) (cnt : Nat),
      (0 < cnt → last.isSome = true) →
      ∃ st' b' cur', foldPredecessors BBname preds st b cur last cnt = .ok (st', b', cur') ∧
        cur'.isSome = (cur.isSome || !preds.isEmpty) := by
  intro preds
  induction preds with
  | nil =>
    intro st b cur last cnt _
    exact ⟨st, b, cur, rfl, by simp⟩
  | cons pred rest ih =>
    intro st b cur last cnt hlast
    by_cases hcnt : 0 < cnt
    · obtain ⟨l, hl⟩ := Option.isSome_iff_exists.mp (hlast hcnt)
      obtain ⟨st', b', cur', hrun, hcur⟩ := ih
        (insertState (insertState
          (insertGlobal st ("m_" ++ getName st.F (.block pred) ++ "_" ++ BBname)) b ""
          .Load .i1 [.global ("m_" ++ getName st.F (.block pred) ++ "_" ++ BBname)])
          { bb := b.bb, pos := b.pos + 1 } "" .Or .i1
          [.inst (insertGlobal st ("m_" ++ getName st.F (.block pred) ++ "_" ++ BBname)).nextId, l])
        { bb := b.bb, pos := b.pos + 1 + 1 }
        (some (.inst (insertState
          (insertGlobal st ("m_" ++ getName st.F (.block pred) ++ "_" ++ BBname)) b ""
          .Load .i1 [.global ("m_" ++ getName st.F (.block pred) ++ "_" ++ BBname)]).nextId))
        (some (.inst (insertState
          (insertGlobal st ("m_" ++ getName st.F (.block pred) ++ "_" ++ BBname)) b ""
          .Load .i1 [.global ("m_" ++ getName st.F (.block pred) ++ "_" ++ BBname)]).nextId))
        (cnt + 1) (fun _ => rfl)
      refine ⟨st', b', cur', ?_, ?_⟩
      · rw [← hrun]
        simp only [foldPredecessors, getOrInsertGlobal, CreateLoad, CreateOr, Insert, hl, hcnt,
          if_true]
      · simpa using hcur
    · obtain ⟨st', b', cur', hrun, hcur⟩ := ih
        (insertState
          (insertGlobal st ("m_" ++ getName st.F (.block pred) ++ "_" ++ BBname)) b ""
          .Load .i1 [.global ("m_" ++ getName st.F (.block pred) ++ "_" ++ BBname)])
        { bb := b.bb, pos := b.pos + 1 }
        (some (.inst (insertGlobal st
          ("m_" ++ getName st.F (.block pred) ++ "_" ++ BBname)).nextId))
        (some (.inst (insertGlobal st
          ("m_" ++ getName st.F (.block pred) ++ "_" ++ BBname)).nextId))
        (cnt + 1) (fun _ => rfl)
      refine ⟨st', b', cur', ?_, ?_⟩
      · rw [← hrun]
        simp only [foldPredecessors, getOrInsertGlobal, CreateLoad, Insert, hcnt, if_false]
      · simpa using hcur

/-- C12: the loop over the predecessors, started as the resolver starts it (`cur`
and `last` unassigned, `cnt = 0`), ends with `cur` assigned if and only if the
predecessor list is not empty; with an empty list the resolver has no value to
store and the run aborts on the read of the unassigned `cur`. -/
theorem resolved_value_defined_iff_predecessor (BBname : String) (preds : List Nat)
    (st : PassState) (b : IRBuilder) :
    (∃ st' b' cur, foldPredecessors BBname preds st b none none 0 = .ok (st', b', cur) ∧
      (cur.isSome = true ↔ preds ≠ [])) ∧
    (∃ e, resolveMaskWith [] st BBname = .error e) := by
  constructor
  · obtain ⟨st', b', cur, hrun, hcur⟩ :=
      foldPredecessors_cur BBname preds st b none none 0 (fun h => absurd h (lt_irrefl 0))
    refine ⟨st', b', cur, hrun, ?_⟩
    rw [hcur]
    cases preds <;> simp
  · simp only [resolveMaskWith]
    split
    · split
      · exact ⟨_, rfl⟩
      · split
        · simp only [foldPredecessors]
          exact ⟨_, rfl⟩
        · exact ⟨_, rfl⟩
    · exact ⟨_, rfl⟩

/-! ## Properties: the returned flag -/

/-- Two lists that agree after splitting at the first occurrence of `c` agree in
both parts. -/
theorem append_cons_cancel {α : Type} (c : α) :
    ∀ (l₁ l₂ r₁ r₂ : List α), c ∉ l₁ → c ∉ l₂ → l₁ ++ c :: r₁ = l₂ ++ c :: r₂ →
      l₁ = l₂ ∧ r₁ = r₂ := by
  intro l₁
  induction l₁ with
  | nil =>
    intro l₂ r₁ r₂ _ h₂ h
    cases l₂ with
    | nil => simpa using h
    | cons x l₂ =>
      simp only [List.nil_append, List.cons_append, List.cons.injEq] at h
      exact absurd (by rw [h.1]; exact List.mem_cons_self _ _) h₂
  | cons y l₁ ih =>
    intro l₂ r₁ r₂ h₁ h₂ h
    cases l₂ with
    | nil =>
      simp only [List.nil_append, List.cons_append, List.cons.injEq] at h
      exact absurd (by rw [← h.1]; exact List.mem_cons_self _ _) h₁
    | cons x l₂ =>
      simp only [List.cons_append, List.cons.injEq] at h
      obtain ⟨hl, hr⟩ := ih l₂ r₁ r₂ (fun hm => h₁ (List.mem_cons_of_mem _ hm))
        (fun hm => h₂ (List.mem_cons_of_mem _ hm)) h.2
      exact ⟨by rw [h.1, hl], hr⟩

/-- The characters of an exit-mask name. -/
theorem exitMaskName_data (B S : String) :
    (exitMaskName B S).data = 'm' :: '_' :: (B.data ++ '_' :: S.data) := by
  simp [exitMaskName, String.data_append]

/-- The name the declarator and the resolver build for an edge is `exitMaskName`. -/
theorem exitMaskName_eq (B S : String) : "m_" ++ B ++ "_" ++ S = exitMaskName B S := rfl

/-- C17, as stated, fails: the edges `a -> b_c` and `a_b -> c` are different, their
cell names are the same string `m_a_b_c`, and in the loop that has both edges
the pass creates one global `m_a_b_c`, which the blocks `a` and `a_b` both
store their exit mask into and the blocks `b_c` and `c` both load. -/
theorem exit_mask_names_collide :
    (("a", "b_c") : String × String) ≠ ("a_b", "c") ∧
    exitMaskName "a" "b_c" = exitMaskName "a_b" "c" ∧
    (runOnFunction emptyModule underscoreLoop [[1, 2, 3, 4, 5, 6, 7]]).map
      (fun r => (r.1.globals,
        (((blockCode r.2.1 3).filter (fun i => i.op == .Store)).map
          (fun i => i.operands.drop 1)).flatten,
        (((blockCode r.2.1 5).filter (fun i => i.op == .Store)).map
          (fun i => i.operands.drop 1)).flatten,
        (((blockCode r.2.1 4).filter (fun i => i.op == .Load)).map (fun i => i.operands)).flatten,
        (((blockCode r.2.1 6).filter (fun i => i.op == .Load)).map
          (fun i => i.operands)).flatten)) =
      .ok (["local_id", "vl", "m_a_b_c", "m_b_c_a_b", "m_c_for.inc", "m_for.cond_for.body",
          "m_for.body_a"],
        [.inst 20, .global "m_a_b_c"], [.inst 26, .global "m_a_b_c"],
        [.global "m_a_b_c", .inst 23], [.global "m_a_b_c", .inst 29]) := by
  decide

/-- C17, amended: for source blocks `B`, `B'` whose names contain no underscore,
different edges `(B, S)`, `(B', S')` have different cell names; and two edges
out of one block `X` (the two cells of a conditional terminator) have
different cell names whenever the target names differ. -/
theorem exitMaskName_injective (B S B' S' : String) (hB : '_' ∉ B.data) (hB' : '_' ∉ B'.data)
    (hne : (B, S) ≠ (B', S')) :
    exitMaskName B S ≠ exitMaskName B' S' ∧
    ∀ X S₁ S₂ : String, S₁ ≠ S₂ → exitMaskName X S₁ ≠ exitMaskName X S₂ := by
  constructor
  · intro h
    have hd := congrArg String.data h
    rw [exitMaskName_data, exitMaskName_data] at hd
    simp only [List.cons.injEq, true_and] at hd
    obtain ⟨h1, h2⟩ := append_cons_cancel '_' B.data B'.data S.data S'.data hB hB' hd
    exact hne (by rw [String.ext h1, String.ext h2])
  · intro X S₁ S₂ hS h
    have hd := congrArg String.data h
    rw [exitMaskName_data, exitMaskName_data] at hd
    simp only [List.cons.injEq, true_and, List.append_cancel_left_eq] at hd
    exact hS (String.ext hd)

/-- Witness for C17: the edges `for.body -> even` and `even -> join` of the diamond loop. -/
theorem exitMaskName_injective_witness :
    exitMaskName "for.body" "even" ≠ exitMaskName "even" "join" ∧
    ∀ X S₁ S₂ : String, S₁ ≠ S₂ → exitMaskName X S₁ ≠ exitMaskName X S₂ :=
  exitMaskName_injective "for.body" "even" "even" "join" (by decide) (by decide) (by decide)

/-! ## Properties: terminators that are not branches -/

/-- The terminator of a block, read off the block itself. -/
theorem blockOf_terminatorOf (F : Function) (bi : Nat) (t : Instr)
    (h : terminatorOf F bi = some t) :
    ∃ BB, F.blocks[bi]? = some BB ∧ getTerminator BB = some t := by
  simp only [terminatorOf] at h
  cases hb : F.blocks[bi]? with
  | none => simp [hb] at h
  | some BB => exact ⟨BB, rfl, by simpa [hb] using h⟩

/-- For a terminator that is neither `br` nor `indirectbr` mask declaration ends
after the entry-mask slot: no global is declared, nothing is placed in front
of the terminator. -/
theorem declareMasks_other_terminator (st : PassState) (b : IRBuilder) (bi : Nat)
    (BBname : String)
    (u : PassState → IRBuilder → String → Instr → Value → Except Crash PassState) (t : Instr)
    (hin : b.pos < (blockCode st.F b.bb).length) (hterm : terminatorOf st.F bi = some t)
    (h1 : t.op ≠ .Br) (h2 : t.op ≠ .IndirectBr) :
    declareMasks st b bi BBname u
      = .ok (insertState st b ("m_" ++ BBname) .Alloca .ptr [.constInt 32 1]) := by
  have RA := (Reach.start st b hin).step ("m_" ++ BBname) .Alloca .ptr [.constInt 32 1]
  obtain ⟨BB, hb, ht⟩ := blockOf_terminatorOf _ bi t (by rw [RA.grows.term bi]; exact hterm)
  simp only [declareMasks, CreateAlloca, Insert, hb, ht, h1, h2, or_self, if_false]

/-- For an `indirectbr` terminator mask declaration dereferences the null result
of the cast to a branch instruction. -/
theorem declareMasks_indirectbr (st : PassState) (b : IRBuilder) (bi : Nat) (BBname : String)
    (u : PassState → IRBuilder → String → Instr → Value → Except Crash PassState) (t : Instr)
    (hin : b.pos < (blockCode st.F b.bb).length) (hterm : terminatorOf st.F bi = some t)
    (h : t.op = .IndirectBr) :
    declareMasks st b bi BBname u = .error .nullDeref := by
  have RA := (Reach.start st b hin).step ("m_" ++ BBname) .Alloca .ptr [.constInt 32 1]
  obtain ⟨BB, hb, ht⟩ := blockOf_terminatorOf _ bi t (by rw [RA.grows.term bi]; exact hterm)
  simp [declareMasks, CreateAlloca, Insert, hb, ht, h]

/-- C11: a loop whose block `dispatch` ends in an `indirectbr` makes the
declaration pass abort with a null dereference, where the claim has it complete
with an entry-mask slot and no exit mask.  The same loop with a `switch` in
place of the `indirectbr` does what the claim says: the block gets the slot
`m_dispatch` and nothing else, the module no global for the block. -/
theorem indirectbr_null_dereference :
    declarationPass (.global "local_id") (.global "vl") (.func "llvm.riscv.vsetvli.i32")
      (initState emptyModule (dispatchLoop .IndirectBr)) [1, 2, 3, 4] = .error .nullDeref ∧
    runOnFunction emptyModule (dispatchLoop .IndirectBr) [[1, 2, 3, 4]] = .error .nullDeref ∧
    (declarationPass (.global "local_id") (.global "vl") (.func "llvm.riscv.vsetvli.i32")
        (initState emptyModule (dispatchLoop .Switch)) [1, 2, 3, 4]).map
      (fun st => (st.M.globals, blockCode st.F 3)) =
      .ok (["local_id", "vl"],
        [{ id := 18, name := "m_dispatch", op := .Alloca, ty := .ptr,
           operands := [.constInt 32 1] },
         { id := 5, name := "sel", op := .Other, ty := .other, operands := [] },
         { id := 6, name := "", op := .Switch, ty := .void,
           operands := [.inst 5, .block 4] }]) := by
  decide

/-! ## Properties: the increment block and the condition block -/

/-- Instructions known to lie between `pre` and `post`, as a list of their own. -/
theorem code_between {l pre post : List Instr} (mid : List Instr)
    (h : l = pre ++ (mid ++ post)) : l = pre ++ mid ++ post := by
  rw [h, List.append_assoc]

/-- The code of the block of the builder after the increment code is emitted. -/
theorem emitIncrement_code (st : PassState) (b : IRBuilder) (local_id vl : Value)
    (pre post : List Instr) (h : AtPoint st b pre post) :
    ∃ code, blockCode (emitIncrement st b local_id vl).F b.bb = pre ++ code ++ post ∧
      code.map (fun i => (i.id, i.op, i.ty, i.operands)) =
        [(st.nextId, .Load, .i32, [vl]),
         (st.nextId + 1, .Load, .i32, [local_id]),
         (st.nextId + 2, .Add, .i32, [.inst (st.nextId + 1), .inst st.nextId]),
         (st.nextId + 3, .Store, .void, [.inst (st.nextId + 2), local_id])] := by
  have h4 := (((h.afterInsert "t1" .Load .i32 [vl]).afterInsert "t2" .Load .i32
    [local_id]).afterInsert "t3" .Add .i32 [.inst (st.nextId + 1), .inst st.nextId]).afterInsert
      "" .Store .void [.inst (st.nextId + 1 + 1), local_id]
  have hc := h4.code
  simp only [List.append_assoc, List.singleton_append] at hc
  refine ⟨?code, ?h1, ?h2⟩
  case h1 =>
    simp only [emitIncrement, CreateLoad, CreateAdd, CreateStore, Insert, insertState_nextId]
    exact code_between [_, _, _, _] hc
  case h2 => simp [newInstr, insertState_nextId]

/-- The code of a block other than that of the builder is untouched by an
insertion, for a builder given by block and position. -/
theorem blockCode_insertState_other (st : PassState) (bb pos : Nat) (name : String)
    (op : Opcode) (ty : Ty) (ops : List Value) (k : Nat) (h : k ≠ bb) :
    blockCode (insertState st { bb := bb, pos := pos } name op ty ops).F k = blockCode st.F k :=
  blockCode_insertState_ne st { bb := bb, pos := pos } name op ty ops k h

/-- The increment code leaves the module and every other block as they are. -/
theorem emitIncrement_frame (st : PassState) (b : IRBuilder) (local_id vl : Value) :
    (emitIncrement st b local_id vl).M = st.M ∧
    (emitIncrement st b local_id vl).trip_count = st.trip_count ∧
    ∀ j, j ≠ b.bb → blockCode (emitIncrement st b local_id vl).F j = blockCode st.F j := by
  refine ⟨rfl, rfl, ?_⟩
  intro j hj
  simp only [emitIncrement, CreateLoad, CreateAdd, CreateStore, Insert]
  rw [blockCode_insertState_other _ _ _ _ _ _ _ _ hj,
    blockCode_insertState_other _ _ _ _ _ _ _ _ hj,
    blockCode_insertState_other _ _ _ _ _ _ _ _ hj, blockCode_insertState_ne _ _ _ _ _ _ _ hj]

/-- The builder at a position of the block stands between the instructions in
front of the position and the others. -/
theorem AtPoint.ofBlock (st : PassState) (bi p : Nat) (BB : BasicBlock)
    (hb : st.F.blocks[bi]? = some BB) (hp : p ≤ BB.instrs.length) :
    AtPoint st { bb := bi, pos := p } (BB.instrs.take p) (BB.instrs.drop p) where
  inRange := (List.getElem?_eq_some.mp hb).1
  code := by simp [blockCode, hb]
  pos := by simp [List.length_take]; omega

/-- C14, as stated, fails: after the declaration pass over the counted loop the
module has the globals `local_id` and `vl` only; the resolution pass adds the
global `m_for.cond_for.body`, the exit-mask cell of the edge from the
condition block to `for.body`, and the code it puts into `for.body` loads it. -/
theorem condition_block_cell_declared :
    (declarationPass (.global "local_id") (.global "vl") (.func "llvm.riscv.vsetvli.i32")
        (initState emptyModule (countedLoop 100)) [1, 2, 3]).map (fun st => st.M.globals)
      = .ok ["local_id", "vl"] ∧
    (runOnFunction emptyModule (countedLoop 100) [[1, 2, 3]]).map
      (fun r => (r.1.globals, (blockCode r.2.1 2).filter (fun i => i.op == .Load && i.ty == .i1)))
      = .ok (["local_id", "vl", exitMaskName "for.cond" "for.body"],
          [{ id := 20, name := "", op := .Load, ty := .i1,
             operands := [.global (exitMaskName "for.cond" "for.body")] },
           { id := 14, name := "", op := .Load, ty := .i1, operands := [.inst 12] }]) := by
  decide

/-- C14, amended: at a block named `for.inc` or `for.cond` the second walk changes
nothing.  At `for.inc` the first walk succeeds, puts exactly the four
instructions load `vl`, load `local_id`, add, store to `local_id` at the first
insertion point, and changes neither the module nor any other block.  At
`for.cond` the first walk, when it succeeds, changes neither the module nor
the function. -/
theorem control_blocks_get_no_masks (local_id vl f1 : Value) (st : PassState) (bi p : Nat)
    (BB : BasicBlock) (hb : st.F.blocks[bi]? = some BB) (hp : getFirstInsertionPt BB = some p)
    (hname : BB.name = "for.inc" ∨ BB.name = "for.cond") :
    step2 st bi = .ok st ∧
    (BB.name = "for.inc" →
      ∃ st' code, step1 local_id vl f1 st bi = .ok st' ∧ st'.M = st.M ∧
        (∀ j, j ≠ bi → blockCode st'.F j = blockCode st.F j) ∧
        blockCode st'.F bi = BB.instrs.take p ++ code ++ BB.instrs.drop p ∧
        code.map (fun i => (i.id, i.op, i.ty, i.operands)) =
          [(st.nextId, .Load, .i32, [vl]),
           (st.nextId + 1, .Load, .i32, [local_id]),
           (st.nextId + 2, .Add, .i32, [.inst (st.nextId + 1), .inst st.nextId]),
           (st.nextId + 3, .Store, .void, [.inst (st.nextId + 2), local_id])]) ∧
    (BB.name = "for.cond" →
      ∀ st', step1 local_id vl f1 st bi = .ok st' → st'.M = st.M ∧ st'.F = st.F) := by
  refine ⟨?_, ?_, ?_⟩
  · rcases hname with h | h
    · simp [step2, hb, hp, h]
    · simp [step2, hb, hp, h]
  · intro hinc
    have hlt := getFirstInsertionPt_lt BB p hp
    obtain ⟨code, hcode, hmap⟩ := emitIncrement_code st { bb := bi, pos := p } local_id vl _ _
      (AtPoint.ofBlock st bi p BB hb (le_of_lt hlt))
    obtain ⟨hM, _, hframe⟩ := emitIncrement_frame st { bb := bi, pos := p } local_id vl
    refine ⟨_, code, ?_, hM, hframe, hcode, hmap⟩
    simp [step1, hb, hp, hinc]
  · intro hcond st' hrun
    simp only [step1, hb, hp, hcond, if_true] at hrun
    cases hs : scanCond BB.instrs st.trip_count with
    | error e => simp [hs] at hrun
    | ok tc =>
      simp only [hs, Except.ok.injEq] at hrun
      subst hrun
      exact ⟨rfl, rfl⟩

/-- Witness for C14: the increment block of the counted loop. -/
theorem control_blocks_get_no_masks_witness :
    step2 (initState emptyModule (countedLoop 100)) 3
      = .ok (initState emptyModule (countedLoop 100)) ∧
    (({ name := "for.inc", instrs := [BranchInst.unconditional 5 1] } : BasicBlock).name
        = "for.inc" →
      ∃ st' code, step1 (.global "local_id") (.global "vl") (.func "llvm.riscv.vsetvli.i32")
          (initState emptyModule (countedLoop 100)) 3 = .ok st' ∧
        st'.M = (initState emptyModule (countedLoop 100)).M ∧
        (∀ j, j ≠ 3 →
          blockCode st'.F j = blockCode (initState emptyModule (countedLoop 100)).F j) ∧
        blockCode st'.F 3 =
          ({ name := "for.inc", instrs := [BranchInst.unconditional 5 1] } :
              BasicBlock).instrs.take 0 ++ code ++
            ({ name := "for.inc", instrs := [BranchInst.unconditional 5 1] } :
              BasicBlock).instrs.drop 0 ∧
        code.map (fun i => (i.id, i.op, i.ty, i.operands)) =
          [((initState emptyModule (countedLoop 100)).nextId, .Load, .i32, [.global "vl"]),
           ((initState emptyModule (countedLoop 100)).nextId + 1, .Load, .i32,
             [.global "local_id"]),
           ((initState emptyModule (countedLoop 100)).nextId + 2, .Add, .i32,
             [.inst ((initState emptyModule (countedLoop 100)).nextId + 1),
              .inst (initState emptyModule (countedLoop 100)).nextId]),
           ((initState emptyModule (countedLoop 100)).nextId + 3, .Store, .void,
             [.inst ((initState emptyModule (countedLoop 100)).nextId + 2),
              .global "local_id"])]) ∧
    (({ name := "for.inc", instrs := [BranchInst.unconditional 5 1] } : BasicBlock).name
        = "for.cond" →
      ∀ st', step1 (.global "local_id") (.global "vl") (.func "llvm.riscv.vsetvli.i32")
          (initState emptyModule (countedLoop 100)) 3 = .ok st' →
        st'.M = (initState emptyModule (countedLoop 100)).M ∧
        st'.F = (initState emptyModule (countedLoop 100)).F) :=
  control_blocks_get_no_masks (.global "local_id") (.global "vl")
    (.func "llvm.riscv.vsetvli.i32") (initState emptyModule (countedLoop 100)) 3 0
    { name := "for.inc", instrs := [BranchInst.unconditional 5 1] } (by decide) (by decide)
    (Or.inl rfl)

/-! ## Lemmas on the layout of a rewritten block -/

/-- Nothing changes when nothing is done. -/
theorem Frame.same (k : Nat) (st : PassState) : Frame k st st :=
  ⟨rfl, fun _ _ => rfl⟩

/-- Two changes of the same block are a change of that block. -/
theorem Frame.chain {k : Nat} {a b c : PassState} (h1 : Frame k a b) (h2 : Frame k b c) :
    Frame k a c :=
  ⟨h2.trip.trans h1.trip, fun j hj => (h2.blocks j hj).trans (h1.blocks j hj)⟩

/-- An insertion changes the block of the builder only. -/
theorem Frame.ofInsert (st : PassState) (b : IRBuilder) (name : String) (op : Opcode) (ty : Ty)
    (ops : List Value) : Frame b.bb st (insertState st b name op ty ops) :=
  ⟨rfl, fun j hj => by simp [insertState, updateBlock_getElem?_ne _ _ _ _ hj]⟩

/-- Adding a global keeps `trip_count`. -/
theorem insertGlobal_trip_count (st : PassState) (n : String) :
    (insertGlobal st n).trip_count = st.trip_count := by
  unfold insertGlobal; split <;> rfl

/-- Adding a global changes no block. -/
theorem Frame.ofGlobal (k : Nat) (st : PassState) (n : String) : Frame k st (insertGlobal st n) :=
  ⟨insertGlobal_trip_count st n, fun j _ => by rw [insertGlobal_F]⟩

/-- The code of the blocks outside the frame is the same. -/
theorem Frame.blockCode_eq {k : Nat} {st st' : PassState} (h : Frame k st st') (j : Nat)
    (hj : j ≠ k) : blockCode st'.F j = blockCode st.F j := by
  simp [blockCode, h.blocks j hj]

/-- The insertion point of a block that starts with a PHI node. -/
theorem getFirstInsertionPt_cons_phi (n m : String) (i : Instr) (r : List Instr)
    (h : i.op = .PHI) :
    getFirstInsertionPt { name := n, instrs := i :: r }
      = (getFirstInsertionPt { name := m, instrs := r }).map (· + 1) := by
  simp only [getFirstInsertionPt, firstNonPHI, h, if_true, List.getElem?_cons_succ,
    List.length_cons]
  cases hk : r[firstNonPHI r]? with
  | none => rfl
  | some x =>
    by_cases hx : x.op.isEHPad = true
    · by_cases hlen : firstNonPHI r + 1 < r.length
      · simp [hx, hlen]
      · simp [hx, hlen]
    · simp [hx]

/-- The instructions in front of the first insertion point are PHI nodes and
exception-handling pads, and the insertion point stays where it is when the
instructions behind it are replaced by others that start with an ordinary
instruction. -/
theorem getFirstInsertionPt_leading (n : String) :
    ∀ (l : List Instr) (p : Nat), getFirstInsertionPt { name := n, instrs := l } = some p →
      (∀ i ∈ l.take p, i.op = .PHI ∨ i.op.isEHPad = true) ∧
      ∀ (m : String) (x : Instr) (rest : List Instr), x.op ≠ .PHI → x.op.isEHPad = false →
        getFirstInsertionPt { name := m, instrs := l.take p ++ x :: rest } = some p := by
  intro l
  induction l with
  | nil =>
    intro p h
    simp [getFirstInsertionPt] at h
  | cons i r ih =>
    intro p h
    by_cases hi : i.op = .PHI
    · rw [getFirstInsertionPt_cons_phi n n i r hi] at h
      cases hr : getFirstInsertionPt { name := n, instrs := r } with
      | none => simp [hr] at h
      | some q =>
        simp only [hr, Option.map_some', Option.some.injEq] at h
        subst h
        obtain ⟨h1, h2⟩ := ih q hr
        refine ⟨?_, ?_⟩
        · intro j hj
          simp only [List.take_succ_cons, List.mem_cons] at hj
          rcases hj with rfl | hj
          · exact Or.inl hi
          · exact h1 j hj
        · intro m x rest hx1 hx2
          simp only [List.take_succ_cons, List.cons_append]
          rw [getFirstInsertionPt_cons_phi m m i _ hi, h2 m x rest hx1 hx2]
          rfl
    · simp only [getFirstInsertionPt, firstNonPHI, hi, if_false, List.getElem?_cons_zero,
        List.length_cons] at h
      by_cases hpad : i.op.isEHPad = true
      · simp only [hpad, if_true] at h
        split_ifs at h with hlen
        cases h
        refine ⟨?_, ?_⟩
        · intro j hj
          simp only [Nat.zero_add, List.take_succ_cons, List.take_zero, List.mem_singleton] at hj
          subst hj
          exact Or.inr hpad
        · intro m x rest hx1 hx2
          simp [getFirstInsertionPt, firstNonPHI, hi, hpad]
      · simp only [hpad] at h
        simp only [Bool.false_eq_true, if_false, Option.some.injEq] at h
        subst h
        refine ⟨by simp, ?_⟩
        intro m x rest hx1 hx2
        simp [getFirstInsertionPt, firstNonPHI, hx1, hx2]

/-- The instructions from a position on are the terminator of the block preceded
by the others. -/
theorem drop_of_getTerminator (BB : BasicBlock) (t : Instr) (p : Nat)
    (ht : getTerminator BB = some t) (hp : p < BB.instrs.length) :
    BB.instrs.drop p = (BB.instrs.drop p).dropLast ++ [t] ∧ t.op.isTerminator = true := by
  simp only [getTerminator] at ht
  cases hl : BB.instrs.getLast? with
  | none => simp [hl] at ht
  | some i =>
    simp only [hl] at ht
    split_ifs at ht with hterm
    cases ht
    have hd : (BB.instrs.drop p).getLast? = some t := by
      rw [List.getLast?_drop, if_neg (by omega), hl]
    exact ⟨(List.dropLast_append_getLast? t hd).symm, hterm⟩

/-- The terminator of a block whose last instruction is a terminator. -/
theorem getTerminator_concat (n : String) (l : List Instr) (t : Instr)
    (ht : t.op.isTerminator = true) :
    getTerminator { name := n, instrs := l ++ [t] } = some t := by
  simp [getTerminator, ht]

/-- An insertion keeps `trip_count`. -/
theorem insertState_trip_count (st : PassState) (b : IRBuilder) (name : String) (op : Opcode)
    (ty : Ty) (ops : List Value) : (insertState st b name op ty ops).trip_count = st.trip_count :=
  rfl

/-- The scheduler code: five instructions at the builder, which stays in front of
the same instruction; no other block changes. -/
theorem emitScheduler_code (st : PassState) (b : IRBuilder) (local_id vl f1 : Value)
    (pre post : List Instr) (h : AtPoint st b pre post) :
    ∃ code,
      AtPoint (emitScheduler st b local_id vl f1).1 (emitScheduler st b local_id vl f1).2
        (pre ++ code) post ∧
      code.map Instr.shape =
        [(st.nextId, .Load, .i32, [local_id]),
         (st.nextId + 1, .Sub, .i32, [.constInt 32 st.trip_count, .inst st.nextId]),
         (st.nextId + 2, .Add, .i32, [.inst (st.nextId + 1), .constInt 32 1]),
         (st.nextId + 3, .Call, .i32,
           [.inst (st.nextId + 2), .constInt 32 2, .constInt 32 3, f1]),
         (st.nextId + 4, .Store, .void, [.inst (st.nextId + 3), vl])] ∧
      (emitScheduler st b local_id vl f1).2.bb = b.bb ∧
      (emitScheduler st b local_id vl f1).1.nextId = st.nextId + 5 ∧
      Frame b.bb st (emitScheduler st b local_id vl f1).1 := by
  have h5 := ((((h.afterInsert "s1" .Load .i32 [local_id]).afterInsert "s2" .Sub .i32
    [.constInt 32 st.trip_count, .inst st.nextId]).afterInsert "s3" .Add .i32
    [.inst (st.nextId + 1), .constInt 32 1]).afterInsert "" .Call .i32
    ([.inst (st.nextId + 1 + 1), .constInt 32 2, .constInt 32 3] ++ [f1])).afterInsert
      "" .Store .void [.inst (st.nextId + 1 + 1 + 1), vl]
  simp only [List.append_assoc, List.singleton_append] at h5
  refine ⟨?code, ?h1, ?h2, ?h3, ?h4, ?h5⟩
  case h1 =>
    simp only [emitScheduler, CreateLoad, CreateSub, CreateAdd, CreateCall, CreateStore, Insert,
      insertState_nextId, insertState_trip_count]
    exact h5
  case h2 => simp [Instr.shape, newInstr, insertState_nextId]
  case h3 => rfl
  case h4 => rfl
  case h5 =>
    exact ⟨rfl, fun j hj => by
      simp [emitScheduler, CreateLoad, CreateSub, CreateAdd, CreateCall, CreateStore, Insert,
        insertState, updateBlock_getElem?_ne _ _ _ _ hj]⟩

/-- The six instructions for a conditional branch are exit-mask code. -/
theorem exitMaskCode_conditional (n : Nat) (entry cond g1 g2 : Value) :
    ExitMaskCode entry
      [{ id := n, name := "", op := .Load, ty := .i1, operands := [entry] },
       { id := n + 1, name := "", op := .And, ty := .i1, operands := [.inst n, cond] },
       { id := n + 2, name := "", op := .Store, ty := .void, operands := [.inst (n + 1), g1] },
       { id := n + 3, name := "", op := .Xor, ty := .i1, operands := [cond, .constInt 1 1] },
       { id := n + 4, name := "", op := .And, ty := .i1, operands := [.inst n, .inst (n + 3)] },
       { id := n + 5, name := "", op := .Store, ty := .void, operands := [.inst (n + 4), g2] }] where
  ops := by simp
  loads := by simp
  load := ⟨_, List.mem_cons_self _ _, rfl⟩

/-- The exit-mask code of a conditional branch changes the block of the builder only. -/
theorem conditionalExitMasks_frame (st st' : PassState) (b : IRBuilder) (BBname : String)
    (br : Instr) (entry cond o1 o2 : Value) (hops : br.operands = [cond, o1, o2])
    (hrun : conditionalExitMasks st b BBname br entry = .ok st') : Frame b.bb st st' := by
  simp only [conditionalExitMasks, hops, getOrInsertGlobal, CreateLoad, CreateAnd, CreateStore,
    CreateNot, Insert, Except.ok.injEq] at hrun
  subst hrun
  exact ⟨by simp [insertState_trip_count, insertGlobal_trip_count], fun j hj => by
    simp [insertState, updateBlock_getElem?_ne _ _ _ _ hj, insertGlobal_F]⟩

/-- The exit-mask code of an unconditional branch outside `for.body`: a load of
the entry mask and a store, at the builder. -/
theorem unconditionalExitMask_code (st : PassState) (b : IRBuilder) (BBname : String)
    (br : Instr) (entry : Value) (pre post : List Instr) (hops : br.operands ≠ [])
    (h : AtPoint st b pre post) :
    ∃ st' code, unconditionalExitMask st b BBname br entry = .ok st' ∧
      blockCode st'.F b.bb = pre ++ code ++ post ∧ Frame b.bb st st' ∧
      ExitMaskCode entry code := by
  obtain ⟨op0, hop0⟩ : ∃ op0, (br.operands[0]? : Option Value) = some op0 := by
    cases hl : br.operands with
    | nil => exact absurd hl hops
    | cons x _ => exact ⟨x, by simp⟩
  have h2 := ((h.afterGlobal ("m_" ++ BBname ++ "_" ++ getName st.F op0)).afterInsert "" .Load
    .i1 [entry]).afterInsert "" .Store .void
      [.inst st.nextId, .global ("m_" ++ BBname ++ "_" ++ getName st.F op0)]
  have hc := h2.code
  simp only [List.append_assoc, List.singleton_append] at hc
  refine ⟨_, ?code, by
    simp only [unconditionalExitMask, hop0, getOrInsertGlobal, CreateLoad, CreateStore, Insert,
      insertState_nextId, insertGlobal_nextId]
    rfl, ?h2, ?h3, ?h4⟩
  case h2 => exact code_between [_, _] hc
  case h3 =>
    exact ⟨by simp [insertState_trip_count, insertGlobal_trip_count], fun j hj => by
      simp [insertState, updateBlock_getElem?_ne _ _ _ _ hj, insertGlobal_F]⟩
  case h4 =>
    exact ⟨by simp [newInstr], by simp [newInstr], ⟨_, List.mem_cons_self _ _, rfl⟩⟩

/-- The exit-mask code of an unconditional branch in `for.body`: a stack slot, a
load of the entry mask and a store, at the builder. -/
theorem unconditionalExitMaskBody_code (st : PassState) (b : IRBuilder) (BBname : String)
    (br : Instr) (entry : Value) (pre post : List Instr) (hops : br.operands ≠ [])
    (h : AtPoint st b pre post) :
    ∃ st' code, unconditionalExitMaskBody st b BBname br entry = .ok st' ∧
      blockCode st'.F b.bb = pre ++ code ++ post ∧ Frame b.bb st st' ∧
      ExitMaskCode entry code := by
  obtain ⟨op0, hop0⟩ : ∃ op0, (br.operands[0]? : Option Value) = some op0 := by
    cases hl : br.operands with
    | nil => exact absurd hl hops
    | cons x _ => exact ⟨x, by simp⟩
  have h2 := ((h.afterInsert ("m_" ++ BBname ++ "_" ++ getName st.F op0) .Alloca .ptr
    [.constInt 32 1]).afterInsert "" .Load .i1 [entry]).afterInsert "" .Store .void
      [.inst (st.nextId + 1), .inst st.nextId]
  have hc := h2.code
  simp only [List.append_assoc, List.singleton_append] at hc
  refine ⟨_, ?code, by
    simp only [unconditionalExitMaskBody, hop0, CreateAlloca, CreateLoad, CreateStore, Insert,
      insertState_nextId]
    rfl, ?h2, ?h3, ?h4⟩
  case h2 => exact code_between [_, _, _] hc
  case h3 =>
    exact ⟨rfl, fun j hj => by
      simp [insertState, updateBlock_getElem?_ne _ _ _ _ hj]⟩
  case h4 =>
    exact ⟨by simp [newInstr], by simp [newInstr],
      ⟨_, List.mem_cons_of_mem _ (List.mem_cons_self _ _), rfl⟩⟩

/-- Mask declaration on a block whose terminator is not an `indirectbr`: the
entry-mask slot goes to the builder, the exit-mask code in front of the
terminator, and no other block changes. -/
theorem declareMasks_code (st : PassState) (b : IRBuilder) (bi : Nat) (BBname : String)
    (u : PassState → IRBuilder → String → Instr → Value → Except Crash PassState)
    (pre mid : List Instr) (t : Instr)
    (hat : AtPoint st b pre (mid ++ [t])) (hbb : b.bb = bi)
    (hterm : t.op.isTerminator = true) (hib : t.op ≠ .IndirectBr)
    (hops : t.op = .Br → t.operands ≠ [])
    (hu : ∀ s b' br e pre' post', AtPoint s b' pre' post' → br.operands ≠ [] →
      ∃ s' code, u s b' BBname br e = .ok s' ∧ blockCode s'.F b'.bb = pre' ++ code ++ post' ∧
        Frame b'.bb s s' ∧ ExitMaskCode e code) :
    ∃ st' exit, declareMasks st b bi BBname u = .ok st' ∧
      blockCode st'.F bi =
        pre ++ [newInstr st ("m_" ++ BBname) .Alloca .ptr [.constInt 32 1]] ++ mid ++ exit
          ++ [t] ∧
      Frame bi st st' ∧
      (t.op = .Br → ExitMaskCode (.inst st.nextId) exit) ∧ (t.op ≠ .Br → exit = []) := by
  subst hbb
  have h1 := hat.afterInsert ("m_" ++ BBname) .Alloca .ptr [.constInt 32 1]
  have hF1 : Frame b.bb st (insertState st b ("m_" ++ BBname) .Alloca .ptr [.constInt 32 1]) :=
    Frame.ofInsert st b _ _ _ _
  obtain ⟨BB1, hBB1⟩ : ∃ BB1,
      (insertState st b ("m_" ++ BBname) .Alloca .ptr [.constInt 32 1]).F.blocks[b.bb]?
        = some BB1 :=
    ⟨_, List.getElem?_eq_getElem h1.inRange⟩
  have hcode1 : BB1.instrs =
      (pre ++ [newInstr st ("m_" ++ BBname) .Alloca .ptr [.constInt 32 1]] ++ mid) ++ [t] := by
    have := h1.code
    simp only [blockCode, hBB1] at this
    rw [this]
    simp [List.append_assoc]
  have hT : getTerminator BB1 = some t := by
    have := getTerminator_concat BB1.name
      (pre ++ [newInstr st ("m_" ++ BBname) .Alloca .ptr [.constInt 32 1]] ++ mid) t hterm
    rw [← hcode1] at this
    exact this
  have hsb : (setInsertPointTerminator
      (insertState st b ("m_" ++ BBname) .Alloca .ptr [.constInt 32 1]) b.bb).bb = b.bb := by
    simp [setInsertPointTerminator, hBB1]
  have hat2 : AtPoint (insertState st b ("m_" ++ BBname) .Alloca .ptr [.constInt 32 1])
      (setInsertPointTerminator
        (insertState st b ("m_" ++ BBname) .Alloca .ptr [.constInt 32 1]) b.bb)
      (pre ++ [newInstr st ("m_" ++ BBname) .Alloca .ptr [.constInt 32 1]] ++ mid) [t] :=
    { inRange := by rw [hsb]; exact h1.inRange
      code := by rw [hsb]; simp only [blockCode, hBB1, hcode1]
      pos := by simp [setInsertPointTerminator, hBB1, hcode1] }
  by_cases hbr : t.op = .Br
  · by_cases hc : t.isConditional = true
    · obtain ⟨c, p1, p2, hops3⟩ : ∃ c p1 p2, t.operands = [c, p1, p2] := by
        have hl : t.operands.length = 3 := by simpa [Instr.isConditional] using hc
        match hto : t.operands, hl with
        | [c, p1, p2], _ => exact ⟨c, p1, p2, rfl⟩
      obtain ⟨st', hrun, hcode⟩ := conditionalExitMasks_code _ _ BBname t (.inst st.nextId)
        c p1 p2 _ _ hops3 hat2
      have hfr := conditionalExitMasks_frame _ st' _ BBname t (.inst st.nextId) c p1 p2 hops3 hrun
      rw [hsb] at hcode hfr
      refine ⟨st', _, ?_, hcode, hF1.chain hfr, fun _ => exitMaskCode_conditional _ _ _ _ _,
        fun h => absurd hbr h⟩
      simp only [declareMasks, CreateAlloca, Insert, hBB1, hT, hbr, true_or, if_true, hc]
      exact hrun
    · obtain ⟨st', code, hrun, hcode, hfr, hex⟩ := hu _ _ t (.inst st.nextId) _ _ hat2 (hops hbr)
      rw [hsb] at hcode hfr
      refine ⟨st', code, ?_, hcode, hF1.chain hfr, fun _ => hex, fun h => absurd hbr h⟩
      simp only [declareMasks, CreateAlloca, Insert, hBB1, hT, hbr, true_or, if_true, hc]
      exact hrun
  · refine ⟨_, [], ?_, ?_, hF1, fun h => absurd h hbr, fun _ => rfl⟩
    · simp only [declareMasks, CreateAlloca, Insert, hBB1, hT, hbr, hib, or_self, if_false]
    · rw [h1.code]
      simp [List.append_assoc]

/-- Mask declaration succeeds only on a block that has a terminator, which is not
an `indirectbr`, and has an operand when it is a branch. -/
theorem declareMasks_ok_terminator (st st' : PassState) (b : IRBuilder) (bi : Nat)
    (BBname : String)
    (u : PassState → IRBuilder → String → Instr → Value → Except Crash PassState)
    (hin : b.pos < (blockCode st.F b.bb).length)
    (hu : ∀ s b' br e, br.operands = [] → u s b' BBname br e = .error .nullDeref)
    (hrun : declareMasks st b bi BBname u = .ok st') :
    ∃ t, terminatorOf st.F bi = some t ∧ t.op ≠ .IndirectBr ∧ (t.op = .Br → t.operands ≠ []) := by
  have RA := (Reach.start st b hin).step ("m_" ++ BBname) .Alloca .ptr [.constInt 32 1]
  simp only [declareMasks, CreateAlloca, Insert] at hrun
  cases hb : (insertState st b ("m_" ++ BBname) .Alloca .ptr [.constInt 32 1]).F.blocks[bi]? with
  | none => simp [hb] at hrun
  | some BB =>
    cases ht : getTerminator BB with
    | none => simp [hb, ht] at hrun
    | some t =>
      have hterm : terminatorOf st.F bi = some t := by
        rw [← RA.grows.term bi]
        exact terminatorOf_eq_some _ _ _ _ hb ht
      simp only [hb, ht] at hrun
      refine ⟨t, hterm, ?_, ?_⟩
      · intro hib
        simp [hib] at hrun
      · intro hbr hnil
        have hnc : t.isConditional = false := by simp [Instr.isConditional, hnil]
        simp [hbr, hnc, hu _ _ _ _ hnil] at hrun

/-- The first walk at a mask-bearing block whose terminator is not an `indirectbr`
succeeds.  The block then reads: the instructions in front of the first
insertion point, the scheduler code (in `for.body` only), the entry-mask slot,
the other original instructions, the exit-mask code, the terminator.  No other
block changes. -/
theorem step1_layout (local_id vl f1 : Value) (st : PassState) (bi p : Nat) (BB : BasicBlock)
    (t : Instr) (hb : st.F.blocks[bi]? = some BB) (hp : getFirstInsertionPt BB = some p)
    (hc : BB.name ≠ "for.cond") (hi : BB.name ≠ "for.inc")
    (ht : getTerminator BB = some t) (hib : t.op ≠ .IndirectBr)
    (hops : t.op = .Br → t.operands ≠ []) :
    ∃ st' sched a exit, step1 local_id vl f1 st bi = .ok st' ∧
      blockCode st'.F bi =
        BB.instrs.take p ++ sched ++ [a] ++ (BB.instrs.drop p).dropLast ++ exit ++ [t] ∧
      (BB.name = "for.body" → sched.map Instr.shape =
        [(st.nextId, .Load, .i32, [local_id]),
         (st.nextId + 1, .Sub, .i32, [.constInt 32 st.trip_count, .inst st.nextId]),
         (st.nextId + 2, .Add, .i32, [.inst (st.nextId + 1), .constInt 32 1]),
         (st.nextId + 3, .Call, .i32,
           [.inst (st.nextId + 2), .constInt 32 2, .constInt 32 3, f1]),
         (st.nextId + 4, .Store, .void, [.inst (st.nextId + 3), vl])]) ∧
      (BB.name ≠ "for.body" → sched = []) ∧
      a.shape = (st.nextId + sched.length, .Alloca, .ptr, [.constInt 32 1]) ∧
      (t.op = .Br → ExitMaskCode (.inst a.id) exit) ∧ (t.op ≠ .Br → exit = []) ∧
      Frame bi st st' := by
  have hlt := getFirstInsertionPt_lt BB p hp
  obtain ⟨hdrop, hterm⟩ := drop_of_getTerminator BB t p ht hlt
  have hat : AtPoint st { bb := bi, pos := p } (BB.instrs.take p)
      ((BB.instrs.drop p).dropLast ++ [t]) := by
    rw [← hdrop]
    exact AtPoint.ofBlock st bi p BB hb (le_of_lt hlt)
  by_cases hbody : BB.name = "for.body"
  · obtain ⟨sched, hS, hshape, hbb2, hid, hfr⟩ :=
      emitScheduler_code st { bb := bi, pos := p } local_id vl f1 _ _ hat
    rcases hes : emitScheduler st { bb := bi, pos := p } local_id vl f1 with ⟨st2, b2⟩
    rw [hes] at hS hbb2 hid hfr
    simp only at hS hbb2 hid hfr
    obtain ⟨st', exit, hrun, hcode, hfr2, hex1, hex2⟩ :=
      declareMasks_code st2 b2 bi BB.name unconditionalExitMaskBody _ _ t hS hbb2 hterm hib hops
        (fun s b' br e pre' post' h1 h2 =>
          unconditionalExitMaskBody_code s b' BB.name br e pre' post' h2 h1)
    have hlen : sched.length = 5 := by
      have := congrArg List.length hshape
      simpa using this
    refine ⟨st', sched, _, exit, ?_, hcode, fun _ => hshape, fun h => absurd hbody h, ?_, ?_,
      hex2, hfr.chain hfr2⟩
    · simp only [step1, hb, hp]
      rw [if_neg hc, if_neg hi, if_pos hbody, hes]
      exact hrun
    · simp [Instr.shape, newInstr, hid, hlen]
    · intro h
      have := hex1 h
      rw [hid] at this
      simpa [newInstr, hid] using this
  · obtain ⟨st', exit, hrun, hcode, hfr2, hex1, hex2⟩ :=
      declareMasks_code st { bb := bi, pos := p } bi BB.name unconditionalExitMask _ _ t hat rfl
        hterm hib hops
        (fun s b' br e pre' post' h1 h2 =>
          unconditionalExitMask_code s b' BB.name br e pre' post' h2 h1)
    refine ⟨st', [], newInstr st ("m_" ++ BB.name) .Alloca .ptr [.constInt 32 1], exit, ?_, ?_,
      fun h => absurd h hbody, fun _ => rfl, ?_, ?_, hex2, hfr2⟩
    · simp only [step1, hb, hp]
      rw [if_neg hc, if_neg hi, if_neg hbody]
      exact hrun
    · rw [hcode]
      simp
    · simp [Instr.shape, newInstr]
    · intro h
      simpa [newInstr] using hex1 h

/-- The first walk succeeds at a mask-bearing block only when the block has a
terminator, which is not an `indirectbr` and has an operand when it is a
branch. -/
theorem step1_ok_terminator (local_id vl f1 : Value) (st st' : PassState) (bi : Nat)
    (BB : BasicBlock) (hb : st.F.blocks[bi]? = some BB)
    (hc : BB.name ≠ "for.cond") (hi : BB.name ≠ "for.inc")
    (hrun : step1 local_id vl f1 st bi = .ok st') :
    ∃ p t, getFirstInsertionPt BB = some p ∧ getTerminator BB = some t ∧
      t.op ≠ .IndirectBr ∧ (t.op = .Br → t.operands ≠ []) := by
  simp only [step1, hb] at hrun
  cases hp : getFirstInsertionPt BB with
  | none => simp [hp] at hrun
  | some p =>
    have hin : (IRBuilder.mk bi p).pos < (blockCode st.F (IRBuilder.mk bi p).bb).length := by
      simpa [blockCode, hb] using getFirstInsertionPt_lt BB p hp
    have hterm0 : terminatorOf st.F bi = getTerminator BB := by simp [terminatorOf, hb]
    simp only [hp] at hrun
    rw [if_neg hc, if_neg hi] at hrun
    by_cases hbody : BB.name = "for.body"
    · rw [if_pos hbody] at hrun
      obtain ⟨hR, _⟩ := emitScheduler_reach st (IRBuilder.mk bi p) local_id vl f1 hin
      rcases hes : emitScheduler st (IRBuilder.mk bi p) local_id vl f1 with ⟨st2, b2⟩
      rw [hes] at hR hrun
      simp only at hR hrun
      obtain ⟨t, h1, h2, h3⟩ := declareMasks_ok_terminator st2 st' b2 bi BB.name
        unconditionalExitMaskBody hR.inRange
        (fun s b' br e h => by simp [unconditionalExitMaskBody, h]) hrun
      rw [hR.grows.term bi, hterm0] at h1
      exact ⟨p, t, rfl, h1, h2, h3⟩
    · rw [if_neg hbody] at hrun
      obtain ⟨t, h1, h2, h3⟩ := declareMasks_ok_terminator st st' (IRBuilder.mk bi p) bi BB.name
        unconditionalExitMask hin
        (fun s b' br e h => by simp [unconditionalExitMask, h]) hrun
      rw [hterm0] at h1
      exact ⟨p, t, rfl, h1, h2, h3⟩

/-- One step of the first walk changes the visited block only, never a block named
`for.cond`, and changes `trip_count` only at a block named `for.cond`. -/
theorem step1_frame (local_id vl f1 : Value) (st st' : PassState) (k : Nat)
    (hrun : step1 local_id vl f1 st k = .ok st') :
    (∀ j, (j ≠ k ∨ blockName? st.F j = some "for.cond") →
      st'.F.blocks[j]? = st.F.blocks[j]?) ∧
    (blockName? st.F k ≠ some "for.cond" → st'.trip_count = st.trip_count) := by
  cases hb : st.F.blocks[k]? with
  | none => simp [step1, hb] at hrun
  | some BB =>
    have hname : blockName? st.F k = some BB.name := by simp [blockName?, hb]
    by_cases hc : BB.name = "for.cond"
    · have hF : st'.F = st.F := by
        simp only [step1, hb] at hrun
        cases hp : getFirstInsertionPt BB with
        | none => simp [hp] at hrun
        | some p =>
          simp only [hp] at hrun
          rw [if_pos hc] at hrun
          cases hs : scanCond BB.instrs st.trip_count with
          | error e => simp [hs] at hrun
          | ok tc =>
            simp only [hs, Except.ok.injEq] at hrun
            subst hrun
            rfl
      exact ⟨fun j _ => by rw [hF], fun h => absurd (by rw [hname, hc]) h⟩
    · have key : Frame k st st' := by
        by_cases hi : BB.name = "for.inc"
        · simp only [step1, hb] at hrun
          cases hp : getFirstInsertionPt BB with
          | none => simp [hp] at hrun
          | some p =>
            simp only [hp] at hrun
            rw [if_neg hc, if_pos hi] at hrun
            simp only [Except.ok.injEq] at hrun
            subst hrun
            exact ⟨rfl, fun j hj => by
              simp [emitIncrement, CreateLoad, CreateAdd, CreateStore, Insert, insertState,
                updateBlock_getElem?_ne _ _ _ _ hj]⟩
        · obtain ⟨p, t, hp, ht, hib, hops⟩ :=
            step1_ok_terminator local_id vl f1 st st' k BB hb hc hi hrun
          obtain ⟨st'', _, _, _, hrun', _, _, _, _, _, _, hfr⟩ :=
            step1_layout local_id vl f1 st k p BB t hb hp hc hi ht hib hops
          rw [hrun] at hrun'
          cases hrun'
          exact hfr
      refine ⟨fun j hj => ?_, fun _ => key.trip⟩
      rcases hj with hj | hj
      · exact key.blocks j hj
      · by_cases hjk : j = k
        · subst hjk
          rw [hname] at hj
          exact absurd (Option.some.inj hj) hc
        · exact key.blocks j hjk

/-- The first walk from a step that succeeded. -/
theorem declarationPass_cons_eq (local_id vl f1 : Value) (st s2 : PassState) (k : Nat)
    (rest : List Nat) (h : step1 local_id vl f1 st k = .ok s2) :
    declarationPass local_id vl f1 st (k :: rest) = declarationPass local_id vl f1 s2 rest := by
  simp [declarationPass, List.foldlM_cons, h, bind, Except.bind]

/-- The first walk over two lists in a row. -/
theorem declarationPass_append (local_id vl f1 : Value) (L1 L2 : List Nat) :
    ∀ st st', declarationPass local_id vl f1 st (L1 ++ L2) = .ok st' →
      ∃ sm, declarationPass local_id vl f1 st L1 = .ok sm ∧
        declarationPass local_id vl f1 sm L2 = .ok st' := by
  induction L1 with
  | nil =>
    intro st st' h
    exact ⟨st, rfl, h⟩
  | cons k r ih =>
    intro st st' h
    obtain ⟨s2, hs, hr⟩ := declarationPass_cons local_id vl f1 st st' k (r ++ L2) h
    obtain ⟨sm, h1, h2⟩ := ih s2 st' hr
    exact ⟨sm, by rw [declarationPass_cons_eq local_id vl f1 st s2 k r hs]; exact h1, h2⟩

/-- The first walk changes the blocks of its list only, never a block named
`for.cond`, and keeps `trip_count` when no block of the list is named
`for.cond`. -/
theorem declarationPass_frame (local_id vl f1 : Value) (L : List Nat) :
    ∀ st st', declarationPass local_id vl f1 st L = .ok st' →
      (∀ j, (j ∉ L ∨ blockName? st.F j = some "for.cond") →
        st'.F.blocks[j]? = st.F.blocks[j]?) ∧
      ((∀ k ∈ L, blockName? st.F k ≠ some "for.cond") → st'.trip_count = st.trip_count) := by
  induction L with
  | nil =>
    intro st st' h
    simp only [declarationPass, List.foldlM_nil, pure, Except.pure, Except.ok.injEq] at h
    subst h
    exact ⟨fun _ _ => rfl, fun _ => rfl⟩
  | cons k rest ih =>
    intro st st' h
    obtain ⟨s2, hs, hr⟩ := declarationPass_cons local_id vl f1 st st' k rest h
    have hg := (step1_spec local_id vl f1 st s2 k hs).1
    obtain ⟨fr1, tr1⟩ := step1_frame local_id vl f1 st s2 k hs
    obtain ⟨fr2, tr2⟩ := ih s2 st' hr
    refine ⟨?_, ?_⟩
    · intro j hj
      have h2 : j ∉ rest ∨ blockName? s2.F j = some "for.cond" := by
        rcases hj with hj | hj
        · exact Or.inl (fun hm => hj (List.mem_cons_of_mem _ hm))
        · exact Or.inr (by rw [hg.names]; exact hj)
      have h1 : j ≠ k ∨ blockName? st.F j = some "for.cond" := by
        rcases hj with hj | hj
        · exact Or.inl (fun hm => hj (by rw [hm]; exact List.mem_cons_self _ _))
        · exact Or.inr hj
      rw [fr2 j h2, fr1 j h1]
    · intro hall
      rw [tr2 (fun k' hk' => by rw [hg.names]; exact hall k' (List.mem_cons_of_mem _ hk')),
        tr1 (hall k (List.mem_cons_self _ _))]

/-- A successful scan returns the constant of the last comparison, reduced to 32
bits. -/
theorem scanCond_ok_last (pre post : List Instr) (cmp : Instr) (w K : Nat)
    (hcmp : cmp.op = .ICmp) (hK : cmp.operands[1]? = some (.constInt w K))
    (hpost : ∀ J ∈ post, J.op ≠ .ICmp) :
    ∀ tc r, scanCond (pre ++ cmp :: post) tc = .ok r → r = K % 2 ^ 64 % 2 ^ 32 := by
  induction pre with
  | nil =>
    intro tc r h
    simp only [List.nil_append, scanCond, hcmp, if_true, hK, scanCond_no_icmp post _ hpost,
      Except.ok.injEq] at h
    exact h.symm
  | cons J rest ih =>
    intro tc r h
    by_cases hJ : J.op = .ICmp
    · simp only [List.cons_append, scanCond, hJ, if_true] at h
      split at h
      · exact ih _ r h
      · cases h
    · simp only [List.cons_append, scanCond, hJ, if_false] at h
      exact ih _ r h

/-! ## Properties: the scheduler code -/

/-- C13, as stated, fails: in a `for.body` that is a landing pad the scheduler code
follows the `landingpad` instruction, an original instruction of the block that
is not a PHI node. -/
theorem scheduler_follows_landing_pad :
    (runOnFunction emptyModule unwindLoop [[1, 2, 3, 4]]).map
      (fun r => ((blockCode r.2.1 3).take 6).map Instr.shape)
      = .ok [(5, .LandingPad, .other, []),
             (10, .Load, .i32, [.global "local_id"]),
             (11, .Sub, .i32, [.constInt 32 100, .inst 10]),
             (12, .Add, .i32, [.inst 11, .constInt 32 1]),
             (13, .Call, .i32,
               [.inst 12, .constInt 32 2, .constInt 32 3, .func "llvm.riscv.vsetvli.i32"]),
             (14, .Store, .void, [.inst 13, .global "vl"])] := by
  decide

/-- C13, amended: at a block named `for.body` whose terminator is not an
`indirectbr` the first walk succeeds and puts at the first insertion point, in
this order, a load of `local_id`, the subtraction of the loaded value from the
constant `trip_count`, the addition of 1, the call of the intrinsic with the
sum, 2 and 3, and the store of the result of the call to `vl`.  The instructions
in front of them are the PHI nodes and the exception-handling pad the block
starts with; every other original instruction follows them, in the original
order. -/
theorem scheduler_code_at_first_insertion_point (local_id vl f1 : Value) (st : PassState)
    (bi p : Nat) (BB : BasicBlock) (t : Instr)
    (hb : st.F.blocks[bi]? = some BB) (hname : BB.name = "for.body")
    (hp : getFirstInsertionPt BB = some p) (ht : getTerminator BB = some t)
    (hib : t.op ≠ .IndirectBr) (hops : t.op = .Br → t.operands ≠ []) :
    ∃ st' sched rest, step1 local_id vl f1 st bi = .ok st' ∧
      blockCode st'.F bi = BB.instrs.take p ++ sched ++ rest ∧
      sched.map Instr.shape =
        [(st.nextId, .Load, .i32, [local_id]),
         (st.nextId + 1, .Sub, .i32, [.constInt 32 st.trip_count, .inst st.nextId]),
         (st.nextId + 2, .Add, .i32, [.inst (st.nextId + 1), .constInt 32 1]),
         (st.nextId + 3, .Call, .i32,
           [.inst (st.nextId + 2), .constInt 32 2, .constInt 32 3, f1]),
         (st.nextId + 4, .Store, .void, [.inst (st.nextId + 3), vl])] ∧
      (BB.instrs.drop p).Sublist rest ∧
      ∀ i ∈ BB.instrs.take p, i.op = .PHI ∨ i.op.isEHPad = true := by
  have hc : BB.name ≠ "for.cond" := by rw [hname]; decide
  have hi : BB.name ≠ "for.inc" := by rw [hname]; decide
  obtain ⟨st', sched, a, exit, hrun, hcode, hsh, _, _, _, _, _⟩ :=
    step1_layout local_id vl f1 st bi p BB t hb hp hc hi ht hib hops
  obtain ⟨hdrop, _⟩ := drop_of_getTerminator BB t p ht (getFirstInsertionPt_lt BB p hp)
  refine ⟨st', sched, [a] ++ (BB.instrs.drop p).dropLast ++ exit ++ [t], hrun, ?_, hsh hname,
    ?_, (getFirstInsertionPt_leading BB.name BB.instrs p hp).1⟩
  · rw [hcode]
    simp only [List.append_assoc]
  · have h1 : ((BB.instrs.drop p).dropLast ++ [t]).Sublist
        ([a] ++ (BB.instrs.drop p).dropLast ++ exit ++ [t]) := by
      simp only [List.append_assoc]
      exact List.Sublist.trans
        (List.Sublist.append (List.Sublist.refl _) (List.sublist_append_right exit [t]))
        (List.sublist_append_right [a] _)
    rw [← hdrop] at h1
    exact h1

/-- Witness for C13: the `for.body` of the loop with the landing pad. -/
theorem scheduler_code_at_first_insertion_point_witness :
    ∃ st' sched rest,
      step1 (.global "local_id") (.global "vl") (.func "llvm.riscv.vsetvli.i32")
        (initState emptyModule unwindLoop) 3 = .ok st' ∧
      blockCode st'.F 3 =
        ({ name := "for.body",
           instrs := [{ id := 5, name := "lp", op := .LandingPad, ty := .other, operands := [] },
                      BranchInst.unconditional 6 4] } : BasicBlock).instrs.take 1
          ++ sched ++ rest ∧
      sched.map Instr.shape =
        [((initState emptyModule unwindLoop).nextId, .Load, .i32, [.global "local_id"]),
         ((initState emptyModule unwindLoop).nextId + 1, .Sub, .i32,
           [.constInt 32 (initState emptyModule unwindLoop).trip_count,
            .inst (initState emptyModule unwindLoop).nextId]),
         ((initState emptyModule unwindLoop).nextId + 2, .Add, .i32,
           [.inst ((initState emptyModule unwindLoop).nextId + 1), .constInt 32 1]),
         ((initState emptyModule unwindLoop).nextId + 3, .Call, .i32,
           [.inst ((initState emptyModule unwindLoop).nextId + 2), .constInt 32 2,
            .constInt 32 3, .func "llvm.riscv.vsetvli.i32"]),
         ((initState emptyModule unwindLoop).nextId + 4, .Store, .void,
           [.inst ((initState emptyModule unwindLoop).nextId + 3), .global "vl"])] ∧
      (({ name := "for.body",
          instrs := [{ id := 5, name := "lp", op := .LandingPad, ty := .other, operands := [] },
                     BranchInst.unconditional 6 4] } : BasicBlock).instrs.drop 1).Sublist rest ∧
      ∀ i ∈ ({ name := "for.body",
               instrs := [{ id := 5, name := "lp", op := .LandingPad, ty := .other,
                            operands := [] },
                          BranchInst.unconditional 6 4] } : BasicBlock).instrs.take 1,
        i.op = .PHI ∨ i.op.isEHPad = true :=
  scheduler_code_at_first_insertion_point (.global "local_id") (.global "vl")
    (.func "llvm.riscv.vsetvli.i32") (initState emptyModule unwindLoop) 3 1
    { name := "for.body",
      instrs := [{ id := 5, name := "lp", op := .LandingPad, ty := .other, operands := [] },
                 BranchInst.unconditional 6 4] }
    (BranchInst.unconditional 6 4) (by decide) rfl (by decide) (by decide) (by decide)
    (by decide)

/-! ## Properties: the trip count in the request -/

/-- C18, as stated, fails: in the rotated loop the block list starts with the
header `for.body`; the first walk records the trip count 100 at `for.cond`, but
the subtraction it has put into `for.body` before has the initial 0 as its
constant. -/
theorem stale_trip_count_in_rotated_loop :
    (declarationPass (.global "local_id") (.global "vl") (.func "llvm.riscv.vsetvli.i32")
        (initState emptyModule rotatedLoop) [1, 2, 3]).map (fun st => st.trip_count)
      = .ok 100 ∧
    (runOnFunction emptyModule rotatedLoop [[1, 2, 3]]).map
      (fun r => ((blockCode r.2.1 1).filter (fun i => i.op == .Sub)).map Instr.shape)
      = .ok [(8, .Sub, .i32, [.constInt 32 0, .inst 7])] := by
  decide

/-- C18, amended: let the block list of a loop have no repetition and name a block
`for.cond` before a block `for.body`, with no block named `for.cond` in
between, and let the last comparison of that `for.cond` have the constant
`K < 2 ^ 32` as operand 1.  When the first walk succeeds, `for.body` holds at
its first insertion point the scheduler code with `K` as the constant of the
subtraction, and every instruction behind that code is an original instruction
of the block or is no subtraction. -/
theorem request_constant_is_last_comparison (local_id vl f1 : Value) (st st' : PassState)
    (L1 L2 L3 : List Nat) (ic ib : Nat) (C B : BasicBlock) (pre post : List Instr)
    (cmp : Instr) (w K : Nat)
    (hrun : declarationPass local_id vl f1 st (L1 ++ ic :: (L2 ++ ib :: L3)) = .ok st')
    (hnd : (L1 ++ ic :: (L2 ++ ib :: L3)).Nodup)
    (hC : st.F.blocks[ic]? = some C) (hCn : C.name = "for.cond")
    (hCi : C.instrs = pre ++ cmp :: post) (hcmp : cmp.op = .ICmp)
    (hK : cmp.operands[1]? = some (.constInt w K)) (hlt : K < 2 ^ 32)
    (hpost : ∀ J ∈ post, J.op ≠ .ICmp)
    (hB : st.F.blocks[ib]? = some B) (hBn : B.name = "for.body")
    (hL2 : ∀ j ∈ L2, blockName? st.F j ≠ some "for.cond") :
    ∃ p n sched rest, getFirstInsertionPt B = some p ∧
      blockCode st'.F ib = B.instrs.take p ++ sched ++ rest ∧
      sched.map Instr.shape =
        [(n, .Load, .i32, [local_id]),
         (n + 1, .Sub, .i32, [.constInt 32 K, .inst n]),
         (n + 2, .Add, .i32, [.inst (n + 1), .constInt 32 1]),
         (n + 3, .Call, .i32, [.inst (n + 2), .constInt 32 2, .constInt 32 3, f1]),
         (n + 4, .Store, .void, [.inst (n + 3), vl])] ∧
      ∀ i ∈ rest, i ∈ B.instrs ∨ i.op ≠ .Sub := by
  have hib1 : ib ∉ L1 := by
    intro h
    have := (List.nodup_append.mp hnd).2.2
    exact this h (by simp)
  have hnd2 : (L2 ++ ib :: L3).Nodup := ((List.nodup_append.mp hnd).2.1).of_cons
  have hib2 : ib ∉ L2 := by
    intro h
    have := (List.nodup_append.mp hnd2).2.2
    exact this h (by simp)
  have hib3 : ib ∉ L3 := (List.nodup_cons.mp (List.nodup_append.mp hnd2).2.1).1
  obtain ⟨s1, hr1, hrest1⟩ := declarationPass_append local_id vl f1 L1 _ st st' hrun
  obtain ⟨s2, hs2, hrest2⟩ := declarationPass_cons local_id vl f1 s1 st' ic _ hrest1
  obtain ⟨s3, hr3, hrest3⟩ := declarationPass_append local_id vl f1 L2 _ s2 st' hrest2
  obtain ⟨s4, hs4, hr5⟩ := declarationPass_cons local_id vl f1 s3 st' ib L3 hrest3
  have g1 := declarationPass_grows local_id vl f1 L1 st s1 hr1
  have g2 := (step1_spec local_id vl f1 s1 s2 ic hs2).1
  obtain ⟨fr1, _⟩ := declarationPass_frame local_id vl f1 L1 st s1 hr1
  obtain ⟨fr2, _⟩ := step1_frame local_id vl f1 s1 s2 ic hs2
  obtain ⟨fr3, tr3⟩ := declarationPass_frame local_id vl f1 L2 s2 s3 hr3
  obtain ⟨fr5, _⟩ := declarationPass_frame local_id vl f1 L3 s4 st' hr5
  have hCname : blockName? st.F ic = some "for.cond" := by simp [blockName?, hC, hCn]
  have hC1 : s1.F.blocks[ic]? = some C := by
    rw [fr1 ic (Or.inr hCname)]
    exact hC
  have htc : s2.trip_count = K := by
    have h := hs2
    simp only [step1, hC1] at h
    cases hp : getFirstInsertionPt C with
    | none => simp [hp] at h
    | some q =>
      simp only [hp] at h
      rw [if_pos hCn] at h
      cases hs : scanCond C.instrs s1.trip_count with
      | error e => simp [hs] at h
      | ok tc =>
        simp only [hs, Except.ok.injEq] at h
        subst h
        rw [hCi] at hs
        have := scanCond_ok_last pre post cmp w K hcmp hK hpost _ _ hs
        simp only
        rw [this, Nat.mod_eq_of_lt (lt_trans hlt (by norm_num)), Nat.mod_eq_of_lt hlt]
  have htc3 : s3.trip_count = K := by
    rw [tr3 (fun j hj => by rw [g2.names, g1.names]; exact hL2 j hj)]
    exact htc
  have hne : ib ≠ ic := by
    intro h
    subst h
    rw [hC] at hB
    have := Option.some.inj hB
    rw [this, hBn] at hCn
    exact absurd hCn (by decide)
  have hB3 : s3.F.blocks[ib]? = some B := by
    rw [fr3 ib (Or.inl hib2), fr2 ib (Or.inl hne), fr1 ib (Or.inl hib1)]
    exact hB
  have hc : B.name ≠ "for.cond" := by rw [hBn]; decide
  have hi : B.name ≠ "for.inc" := by rw [hBn]; decide
  obtain ⟨p, t, hp, ht, hib, hops⟩ :=
    step1_ok_terminator local_id vl f1 s3 s4 ib B hB3 hc hi hs4
  obtain ⟨s4', sched, a, exit, hrun4, hcode, hsh, _, ha, hex1, hex2, _⟩ :=
    step1_layout local_id vl f1 s3 ib p B t hB3 hp hc hi ht hib hops
  rw [hs4] at hrun4
  cases hrun4
  obtain ⟨hdrop, _⟩ := drop_of_getTerminator B t p ht (getFirstInsertionPt_lt B p hp)
  have hcode' : blockCode st'.F ib = blockCode s4.F ib := by
    simp [blockCode, fr5 ib (Or.inl hib3)]
  refine ⟨p, s3.nextId, sched, [a] ++ (B.instrs.drop p).dropLast ++ exit ++ [t], hp, ?_, ?_, ?_⟩
  · rw [hcode', hcode]
    simp only [List.append_assoc]
  · have := hsh hBn
    rw [htc3] at this
    exact this
  · intro i hi
    simp only [List.mem_append, List.mem_singleton] at hi
    rcases hi with ((hi | hi) | hi) | hi
    · right
      subst hi
      have : i.op = .Alloca := congrArg (fun s => s.2.1) ha
      rw [this]
      decide
    · left
      exact List.mem_of_mem_drop (by rw [hdrop]; exact List.mem_append_left _ hi)
    · right
      by_cases hbr : t.op = .Br
      · rcases (hex1 hbr).ops i hi with h | h | h | h | h <;> rw [h] <;> decide
      · rw [hex2 hbr] at hi
        simp at hi
    · left
      subst hi
      exact List.mem_of_mem_drop (by rw [hdrop]; simp)

/-- Witness for C18: the diamond loop, whose block list names `for.cond` first and
`for.body` second. -/
theorem request_constant_is_last_comparison_witness :
    ∃ p n sched rest,
      getFirstInsertionPt
        { name := "for.body",
          instrs := [{ id := 4, name := "rem", op := .Other, ty := .i32, operands := [.inst 1] },
                     { id := 5, name := "c", op := .ICmp, ty := .i1,
                       operands := [.inst 4, .constInt 32 0] },
                     BranchInst.conditional 6 (.inst 5) 3 4] } = some p ∧
      blockCode declaredDiamond.F 2 =
        ({ name := "for.body",
           instrs := [{ id := 4, name := "rem", op := .Other, ty := .i32,
                        operands := [.inst 1] },
                      { id := 5, name := "c", op := .ICmp, ty := .i1,
                        operands := [.inst 4, .constInt 32 0] },
                      BranchInst.conditional 6 (.inst 5) 3 4] } : BasicBlock).instrs.take p
          ++ sched ++ rest ∧
      sched.map Instr.shape =
        [(n, .Load, .i32, [.global "local_id"]),
         (n + 1, .Sub, .i32, [.constInt 32 100, .inst n]),
         (n + 2, .Add, .i32, [.inst (n + 1), .constInt 32 1]),
         (n + 3, .Call, .i32,
           [.inst (n + 2), .constInt 32 2, .constInt 32 3, .func "llvm.riscv.vsetvli.i32"]),
         (n + 4, .Store, .void, [.inst (n + 3), .global "vl"])] ∧
      ∀ i ∈ rest,
        i ∈ ({ name := "for.body",
               instrs := [{ id := 4, name := "rem", op := .Other, ty := .i32,
                            operands := [.inst 1] },
                          { id := 5, name := "c", op := .ICmp, ty := .i1,
                            operands := [.inst 4, .constInt 32 0] },
                          BranchInst.conditional 6 (.inst 5) 3 4] } : BasicBlock).instrs
          ∨ i.op ≠ .Sub :=
  request_constant_is_last_comparison (.global "local_id") (.global "vl")
    (.func "llvm.riscv.vsetvli.i32") (initState emptyModule (diamond 100)) declaredDiamond
    [] [] [3, 4, 5, 6] 1 2
    { name := "for.cond",
      instrs := [{ id := 1, name := "i", op := .Load, ty := .i32, operands := [.global "i"] },
                 { id := 2, name := "cmp", op := .ICmp, ty := .i1,
                   operands := [.inst 1, .constInt 32 100] },
                 BranchInst.conditional 3 (.inst 2) 2 7] }
    { name := "for.body",
      instrs := [{ id := 4, name := "rem", op := .Other, ty := .i32, operands := [.inst 1] },
                 { id := 5, name := "c", op := .ICmp, ty := .i1,
                   operands := [.inst 4, .constInt 32 0] },
                 BranchInst.conditional 6 (.inst 5) 3 4] }
    [{ id := 1, name := "i", op := .Load, ty := .i32, operands := [.global "i"] }]
    [BranchInst.conditional 3 (.inst 2) 2 7]
    { id := 2, name := "cmp", op := .ICmp, ty := .i1, operands := [.inst 1, .constInt 32 100] }
    32 100 (by decide) (by decide) (by decide) rfl rfl rfl rfl (by norm_num) (by decide)
    (by decide) rfl (by simp)

/-! ## Properties: the order of the instructions in a mask-bearing block -/

/-- The instruction found by name in a block list sits at the position returned. -/
theorem lookupInstr_at (n : String) :
    ∀ (blocks : List BasicBlock) (start b q : Nat) (m : Instr),
      lookupInstr n blocks start = some (b, q, m) →
      start ≤ b ∧ ∃ BB, blocks[b - start]? = some BB ∧ BB.instrs[q]? = some m := by
  intro blocks
  induction blocks with
  | nil =>
    intro start b q m h
    simp [lookupInstr] at h
  | cons B rest ih =>
    intro start b q m h
    have hrec : lookupInstr n rest (start + 1) = some (b, q, m) →
        start ≤ b ∧ ∃ BB, (B :: rest)[b - start]? = some BB ∧ BB.instrs[q]? = some m := by
      intro h'
      obtain ⟨hle, BB, h1, h2⟩ := ih (start + 1) b q m h'
      refine ⟨by omega, BB, ?_, h2⟩
      have : b - start = (b - (start + 1)) + 1 := by omega
      rw [this, List.getElem?_cons_succ]
      exact h1
    simp only [lookupInstr] at h
    cases hf : B.instrs.findIdx? (fun i => i.name == n) with
    | none =>
      simp only [hf] at h
      exact hrec h
    | some k =>
      simp only [hf] at h
      cases hk : B.instrs[k]? with
      | none =>
        simp only [hk] at h
        exact hrec h
      | some i =>
        simp only [hk, Option.some.injEq, Prod.mk.injEq] at h
        obtain ⟨rfl, rfl, rfl⟩ := h
        exact ⟨le_refl _, B, by simp, hk⟩

/-- The instruction the symbol table returns sits at the position returned. -/
theorem lookup_instruction_at (F : Function) (n : String) (b q : Nat) (m : Instr)
    (h : lookup F n = some (.instruction b q m)) : (blockCode F b)[q]? = some m := by
  simp only [lookup] at h
  split_ifs at h
  cases ha : F.args.indexOf? n with
  | some k => simp [ha] at h
  | none =>
    simp only [ha] at h
    cases hbk : F.blocks.findIdx? (fun b => b.name == n) with
    | some k => simp [hbk] at h
    | none =>
      simp only [hbk] at h
      cases hl : lookupInstr n F.blocks 0 with
      | none => simp [hl] at h
      | some r =>
        obtain ⟨b', q', m'⟩ := r
        simp only [hl, Option.some.injEq, Symbol.instruction.injEq] at h
        obtain ⟨rfl, rfl, rfl⟩ := h
        obtain ⟨_, BB, h1, h2⟩ := lookupInstr_at n F.blocks 0 _ _ _ hl
        simp only [Nat.sub_zero] at h1
        simp [blockCode, h1, h2]

/-- C16, as stated, fails: in the block `next`, which starts with a PHI node, the
rewritten block has that original instruction in front of the entry-mask slot;
and in `for.body` the scheduler code comes first. -/
theorem original_phi_precedes_entry_mask :
    (runOnFunction emptyModule phiLoop [[1, 2, 3, 4]]).map
      (fun r => (blockCode r.2.1 3).map Instr.shape)
      = .ok [(5, .PHI, .i32, [.inst 1]),
             (19, .Alloca, .ptr, [.constInt 32 1]),
             (28, .Load, .i1, [.global "m_for.body_next"]),
             (29, .Store, .void, [.inst 28, .inst 19]),
             (6, .Other, .i32, [.inst 5]),
             (20, .Load, .i1, [.inst 19]),
             (21, .Store, .void, [.inst 20, .global "m_next_for.inc"]),
             (7, .Br, .void, [.block 4])] ∧
    (runOnFunction emptyModule phiLoop [[1, 2, 3, 4]]).map
      (fun r => (blockCode r.2.1 2).map (fun i => i.op))
      = .ok [.Load, .Sub, .Add, .Call, .Store, .Alloca, .Load, .Store, .Alloca, .Load, .Store,
             .Br] := by
  decide

/-- C16, amended: let the first walk succeed at a mask-bearing block, let a later
state hold the block as the first walk left it, let the lookup of `m_<BB>` in
that state return the instruction right behind the code the first walk put at
the first insertion point `p` (position `p`, or `p + 5` in `for.body`), and
let the block have a predecessor.  Then the second walk succeeds at the block,
and the block reads, in this order: the original PHI nodes and
exception-handling pad in front of `p`; the scheduler code (in `for.body`
only); the entry-mask slot, which is the instruction looked up; the resolution
code, whose execution leaves in the slot the OR of the exit-mask cells of the
predecessors; the other original instructions; the exit-mask code, all of whose
loads read the slot; the terminator. -/
theorem mask_block_layout (local_id vl f1 : Value) (st st1 st2 : PassState) (bi p q : Nat)
    (BB : BasicBlock) (mask : Instr)
    (hb : st.F.blocks[bi]? = some BB) (hp : getFirstInsertionPt BB = some p)
    (hc : BB.name ≠ "for.cond") (hi : BB.name ≠ "for.inc")
    (h1 : step1 local_id vl f1 st bi = .ok st1)
    (hsame : st2.F.blocks[bi]? = st1.F.blocks[bi]?)
    (hlook : lookup st2.F ("m_" ++ BB.name) = some (.instruction bi q mask))
    (hq : q = p + (if BB.name = "for.body" then 5 else 0))
    (hpred : predecessors st2.F bi ≠ []) :
    ∃ sched exit t rcode st3,
      getTerminator BB = some t ∧
      BB.instrs = BB.instrs.take p ++ (BB.instrs.drop p).dropLast ++ [t] ∧
      (∀ i ∈ BB.instrs.take p, i.op = .PHI ∨ i.op.isEHPad = true) ∧
      blockCode st1.F bi =
        BB.instrs.take p ++ sched ++ [mask] ++ (BB.instrs.drop p).dropLast ++ exit ++ [t] ∧
      step2 st2 bi = .ok st3 ∧
      blockCode st3.F bi =
        BB.instrs.take p ++ sched ++ [mask] ++ rcode ++ (BB.instrs.drop p).dropLast ++ exit
          ++ [t] ∧
      sched.map (fun i => i.op) =
        (if BB.name = "for.body" then [.Load, .Sub, .Add, .Call, .Store] else []) ∧
      mask.shape = (st.nextId + sched.length, .Alloca, .ptr, [.constInt 32 1]) ∧
      (t.op = .Br → ExitMaskCode (.inst mask.id) exit) ∧ (t.op ≠ .Br → exit = []) ∧
      ∀ (vs : Nat → Nat → Nat → Nat) (σ : Machine),
        (exec vs σ rcode).mem (.stack mask.id) =
          ((predecessors st2.F bi).any (fun P =>
            σ.mem (.global ("m_" ++ getName st2.F (.block P) ++ "_" ++ BB.name)) % 2
              == 1)).toNat := by
  obtain ⟨p', t, hp', ht, hib, hops⟩ :=
    step1_ok_terminator local_id vl f1 st st1 bi BB hb hc hi h1
  rw [hp] at hp'
  cases hp'
  obtain ⟨st1', sched, a, exit, hrun, hcode, hsh5, hsh0, ha, hex1, hex2, _⟩ :=
    step1_layout local_id vl f1 st bi p BB t hb hp hc hi ht hib hops
  rw [h1] at hrun
  cases hrun
  have hlt := getFirstInsertionPt_lt BB p hp
  obtain ⟨hdrop, hterm⟩ := drop_of_getTerminator BB t p ht hlt
  -- the scheduler code
  have hsops : sched.map (fun i => i.op) =
      (if BB.name = "for.body" then [.Load, .Sub, .Add, .Call, .Store] else []) := by
    by_cases hbody : BB.name = "for.body"
    · rw [if_pos hbody]
      have := congrArg (List.map (fun s : Nat × Opcode × Ty × List Value => s.2.1)) (hsh5 hbody)
      simpa [Instr.shape, Function.comp_def] using this
    · rw [if_neg hbody, hsh0 hbody]
      rfl
  have hslen : sched.length = (if BB.name = "for.body" then 5 else 0) := by
    have := congrArg List.length hsops
    rw [List.length_map] at this
    rw [this]
    split_ifs <;> rfl
  have hqlen : (BB.instrs.take p ++ sched).length = q := by
    rw [List.length_append, List.length_take, hslen, hq, Nat.min_eq_left (le_of_lt hlt)]
  -- the block in the later state
  have hcode2 : blockCode st2.F bi = blockCode st1.F bi := by simp [blockCode, hsame]
  have hsplit : blockCode st2.F bi =
      (BB.instrs.take p ++ sched) ++ a :: ((BB.instrs.drop p).dropLast ++ exit ++ [t]) := by
    rw [hcode2, hcode]
    simp only [List.append_assoc, List.singleton_append, List.cons_append, List.nil_append]
  -- the instruction looked up is the entry-mask slot
  have hmask : mask = a := by
    have h2 := lookup_instruction_at st2.F _ bi q mask hlook
    rw [hsplit, ← hqlen, List.getElem?_append_right (le_refl _)] at h2
    simp at h2
    exact h2.symm
  subst hmask
  -- the second walk reaches the resolver
  have hg := (step1_spec local_id vl f1 st st1 bi h1).1
  have hname1 : blockName? st1.F bi = some BB.name := by
    rw [hg.names]
    simp [blockName?, hb]
  obtain ⟨BB1, hBB1, hn1⟩ : ∃ BB1, st1.F.blocks[bi]? = some BB1 ∧ BB1.name = BB.name := by
    simp only [blockName?] at hname1
    cases hx : st1.F.blocks[bi]? with
    | none => simp [hx] at hname1
    | some B1 =>
      simp only [hx, Option.some.injEq] at hname1
      exact ⟨B1, rfl, hname1⟩
  have hi1 : BB1.instrs =
      BB.instrs.take p ++ sched ++ [mask] ++ (BB.instrs.drop p).dropLast ++ exit ++ [t] := by
    rw [← hcode]
    simp [blockCode, hBB1]
  obtain ⟨x, rest, hxr, hx1, hx2⟩ : ∃ x rest,
      sched ++ [mask] ++ (BB.instrs.drop p).dropLast ++ exit ++ [t] = x :: rest ∧
        x.op ≠ .PHI ∧ x.op.isEHPad = false := by
    have hmop : mask.op = .Alloca := congrArg (fun s => s.2.1) ha
    cases hs : sched with
    | nil =>
      refine ⟨mask, (BB.instrs.drop p).dropLast ++ exit ++ [t], by simp, ?_, ?_⟩
      · rw [hmop]; decide
      · rw [hmop]; rfl
    | cons s ss =>
      have hso : s.op = .Load := by
        rw [hs] at hsops
        by_cases hbody : BB.name = "for.body"
        · rw [if_pos hbody] at hsops
          simp only [List.map_cons, List.cons.injEq] at hsops
          exact hsops.1
        · rw [if_neg hbody] at hsops
          simp at hsops
      refine ⟨s, ss ++ [mask] ++ (BB.instrs.drop p).dropLast ++ exit ++ [t], by simp, ?_, ?_⟩
      · rw [hso]; decide
      · rw [hso]; rfl
  have hfip : getFirstInsertionPt BB1 = some p := by
    have := (getFirstInsertionPt_leading BB.name BB.instrs p hp).2 BB1.name x rest hx1 hx2
    rw [← hxr] at this
    have hi1' : BB1.instrs = BB.instrs.take p ++
        (sched ++ [mask] ++ (BB.instrs.drop p).dropLast ++ exit ++ [t]) := by
      rw [hi1]
      simp only [List.append_assoc]
    rw [← hi1'] at this
    exact this
  have hstep2 : step2 st2 bi = resolveMaskWith (predecessors st2.F bi) st2 BB.name := by
    simp only [step2, hsame, hBB1, hfip, hn1, resolveMask]
    rw [if_neg hc, if_neg hi]
    split_ifs <;> rfl
  have hpos : q + 1 < (blockCode st2.F bi).length := by
    rw [hsplit, List.length_append, hqlen]
    simp
  obtain ⟨st3, rcode, hrun3, hcode3, hsem⟩ :=
    resolveMaskWith_spec st2 BB.name bi q mask (predecessors st2.F bi) hlook hpos hpred
  have hsplit' : blockCode st2.F bi =
      (BB.instrs.take p ++ sched ++ [mask]) ++ ((BB.instrs.drop p).dropLast ++ exit ++ [t]) := by
    rw [hsplit]
    simp only [List.append_assoc, List.singleton_append, List.cons_append, List.nil_append]
  have hlen' : (BB.instrs.take p ++ sched ++ [mask]).length = q + 1 := by
    rw [List.length_append, hqlen]
    rfl
  rw [hsplit', List.take_left' hlen', List.drop_left' hlen'] at hcode3
  refine ⟨sched, exit, t, rcode, st3, ht, ?_, (getFirstInsertionPt_leading BB.name BB.instrs p hp).1,
    hcode, by rw [hstep2]; exact hrun3, ?_, hsops, ha, hex1, hex2, hsem⟩
  · rw [List.append_assoc, ← hdrop, List.take_append_drop]
  · rw [hcode3]
    simp only [List.append_assoc]

/-- Witness for C16: the block `next` of the loop with the PHI node, between the
first walk up to `for.body` and the first walk over the whole loop. -/
theorem mask_block_layout_witness :
    ∃ sched exit t rcode st3,
      getTerminator
        { name := "next",
          instrs := [{ id := 5, name := "x", op := .PHI, ty := .i32, operands := [.inst 1] },
                     { id := 6, name := "y", op := .Other, ty := .i32, operands := [.inst 5] },
                     BranchInst.unconditional 7 4] } = some t ∧
      ({ name := "next",
         instrs := [{ id := 5, name := "x", op := .PHI, ty := .i32, operands := [.inst 1] },
                    { id := 6, name := "y", op := .Other, ty := .i32, operands := [.inst 5] },
                    BranchInst.unconditional 7 4] } : BasicBlock).instrs =
        ({ name := "next",
           instrs := [{ id := 5, name := "x", op := .PHI, ty := .i32, operands := [.inst 1] },
                      { id := 6, name := "y", op := .Other, ty := .i32, operands := [.inst 5] },
                      BranchInst.unconditional 7 4] } : BasicBlock).instrs.take 1 ++
          (({ name := "next",
              instrs := [{ id := 5, name := "x", op := .PHI, ty := .i32, operands := [.inst 1] },
                         { id := 6, name := "y", op := .Other, ty := .i32,
                           operands := [.inst 5] },
                         BranchInst.unconditional 7 4] } : BasicBlock).instrs.drop 1).dropLast
          ++ [t] ∧
      (∀ i ∈ ({ name := "next",
                instrs := [{ id := 5, name := "x", op := .PHI, ty := .i32,
                             operands := [.inst 1] },
                           { id := 6, name := "y", op := .Other, ty := .i32,
                             operands := [.inst 5] },
                           BranchInst.unconditional 7 4] } : BasicBlock).instrs.take 1,
        i.op = .PHI ∨ i.op.isEHPad = true) ∧
      blockCode (declared phiLoop [1, 2, 3]).F 3 =
        ({ name := "next",
           instrs := [{ id := 5, name := "x", op := .PHI, ty := .i32, operands := [.inst 1] },
                      { id := 6, name := "y", op := .Other, ty := .i32, operands := [.inst 5] },
                      BranchInst.unconditional 7 4] } : BasicBlock).instrs.take 1 ++ sched ++
          [{ id := 19, name := "m_next", op := .Alloca, ty := .ptr,
             operands := [.constInt 32 1] }] ++
          (({ name := "next",
              instrs := [{ id := 5, name := "x", op := .PHI, ty := .i32, operands := [.inst 1] },
                         { id := 6, name := "y", op := .Other, ty := .i32,
                           operands := [.inst 5] },
                         BranchInst.unconditional 7 4] } : BasicBlock).instrs.drop 1).dropLast
          ++ exit ++ [t] ∧
      step2 (declared phiLoop [1, 2, 3, 4]) 3 = .ok st3 ∧
      blockCode st3.F 3 =
        ({ name := "next",
           instrs := [{ id := 5, name := "x", op := .PHI, ty := .i32, operands := [.inst 1] },
                      { id := 6, name := "y", op := .Other, ty := .i32, operands := [.inst 5] },
                      BranchInst.unconditional 7 4] } : BasicBlock).instrs.take 1 ++ sched ++
          [{ id := 19, name := "m_next", op := .Alloca, ty := .ptr,
             operands := [.constInt 32 1] }] ++ rcode ++
          (({ name := "next",
              instrs := [{ id := 5, name := "x", op := .PHI, ty := .i32, operands := [.inst 1] },
                         { id := 6, name := "y", op := .Other, ty := .i32,
                           operands := [.inst 5] },
                         BranchInst.unconditional 7 4] } : BasicBlock).instrs.drop 1).dropLast
          ++ exit ++ [t] ∧
      sched.map (fun i => i.op) =
        (if ({ name := "next",
               instrs := [{ id := 5, name := "x", op := .PHI, ty := .i32,
                            operands := [.inst 1] },
                          { id := 6, name := "y", op := .Other, ty := .i32,
                            operands := [.inst 5] },
                          BranchInst.unconditional 7 4] } : BasicBlock).name = "for.body"
          then [.Load, .Sub, .Add, .Call, .Store] else []) ∧
      ({ id := 19, name := "m_next", op := .Alloca, ty := .ptr,
         operands := [.constInt 32 1] } : Instr).shape =
        ((declared phiLoop [1, 2]).nextId + sched.length, .Alloca, .ptr, [.constInt 32 1]) ∧
      (t.op = .Br → ExitMaskCode (.inst 19) exit) ∧ (t.op ≠ .Br → exit = []) ∧
      ∀ (vs : Nat → Nat → Nat → Nat) (σ : Machine),
        (exec vs σ rcode).mem (.stack 19) =
          ((predecessors (declared phiLoop [1, 2, 3, 4]).F 3).any (fun P =>
            σ.mem (.global ("m_" ++ getName (declared phiLoop [1, 2, 3, 4]).F (.block P)
              ++ "_" ++ "next")) % 2 == 1)).toNat :=
  mask_block_layout (.global "local_id") (.global "vl") (.func "llvm.riscv.vsetvli.i32")
    (declared phiLoop [1, 2]) (declared phiLoop [1, 2, 3]) (declared phiLoop [1, 2, 3, 4]) 3 1 1
    { name := "next",
      instrs := [{ id := 5, name := "x", op := .PHI, ty := .i32, operands := [.inst 1] },
                 { id := 6, name := "y", op := .Other, ty := .i32, operands := [.inst 5] },
                 BranchInst.unconditional 7 4] }
    { id := 19, name := "m_next", op := .Alloca, ty := .ptr, operands := [.constInt 32 1] }
    (by decide) (by decide) (by decide) (by decide) (by decide) (by decide) (by decide)
    (by decide) (by decide)

/-! ## Properties: the slot the resolved entry mask is stored in -/

/-- The entry-mask slot of a block, found by name.  Let the first walk succeed at a
mask-bearing block, let a later state hold the block as the first walk left it,
and let the lookup of `m_<BB>` in that state return the instruction of the
block right behind the code the first walk put at the first insertion point `p`
(position `p`, or `p + 5` in `for.body`).  Then the instruction returned is the
stack slot the first walk created for the block, it has a successor in the
block, and the second walk at the block is the resolver on the predecessor list
of the block. -/
theorem own_entry_mask (local_id vl f1 : Value) (st st1 st2 : PassState) (bi p q : Nat)
    (BB : BasicBlock) (mask : Instr)
    (hb : st.F.blocks[bi]? = some BB) (hp : getFirstInsertionPt BB = some p)
    (hc : BB.name ≠ "for.cond") (hi : BB.name ≠ "for.inc")
    (h1 : step1 local_id vl f1 st bi = .ok st1)
    (hsame : st2.F.blocks[bi]? = st1.F.blocks[bi]?)
    (hlook : lookup st2.F ("m_" ++ BB.name) = some (.instruction bi q mask))
    (hq : q = p + (if BB.name = "for.body" then 5 else 0)) :
    mask.shape =
      (st.nextId + (if BB.name = "for.body" then 5 else 0), .Alloca, .ptr, [.constInt 32 1]) ∧
    (blockCode st1.F bi)[q]? = some mask ∧
    blockCode st2.F bi = blockCode st1.F bi ∧
    q + 1 < (blockCode st2.F bi).length ∧
    step2 st2 bi = resolveMaskWith (predecessors st2.F bi) st2 BB.name := by
  obtain ⟨p', t, hp', ht, hib, hops⟩ :=
    step1_ok_terminator local_id vl f1 st st1 bi BB hb hc hi h1
  rw [hp] at hp'
  cases hp'
  obtain ⟨st1', sched, a, exit, hrun, hcode, hsh5, hsh0, ha, _, _, _⟩ :=
    step1_layout local_id vl f1 st bi p BB t hb hp hc hi ht hib hops
  rw [h1] at hrun
  cases hrun
  have hlt := getFirstInsertionPt_lt BB p hp
  have hsops : sched.map (fun i => i.op) =
      (if BB.name = "for.body" then [.Load, .Sub, .Add, .Call, .Store] else []) := by
    by_cases hbody : BB.name = "for.body"
    · rw [if_pos hbody]
      have := congrArg (List.map (fun s : Nat × Opcode × Ty × List Value => s.2.1)) (hsh5 hbody)
      simpa [Instr.shape, Function.comp_def] using this
    · rw [if_neg hbody, hsh0 hbody]
      rfl
  have hslen : sched.length = (if BB.name = "for.body" then 5 else 0) := by
    have := congrArg List.length hsops
    rw [List.length_map] at this
    rw [this]
    split_ifs <;> rfl
  have hqlen : (BB.instrs.take p ++ sched).length = q := by
    rw [List.length_append, List.length_take, hslen, hq, Nat.min_eq_left (le_of_lt hlt)]
  have hcode2 : blockCode st2.F bi = blockCode st1.F bi := by simp [blockCode, hsame]
  have hsplit1 : blockCode st1.F bi =
      (BB.instrs.take p ++ sched) ++ a :: ((BB.instrs.drop p).dropLast ++ exit ++ [t]) := by
    rw [hcode]
    simp only [List.append_assoc, List.singleton_append, List.cons_append, List.nil_append]
  have hat1 : (blockCode st1.F bi)[q]? = some a := by
    rw [hsplit1, ← hqlen, List.getElem?_append_right (le_refl _)]
    simp
  have hmask : mask = a := by
    have h2 := lookup_instruction_at st2.F _ bi q mask hlook
    rw [hcode2, hat1] at h2
    exact (Option.some.inj h2).symm
  subst hmask
  have hg := (step1_spec local_id vl f1 st st1 bi h1).1
  have hname1 : blockName? st1.F bi = some BB.name := by
    rw [hg.names]
    simp [blockName?, hb]
  obtain ⟨BB1, hBB1, hn1⟩ : ∃ BB1, st1.F.blocks[bi]? = some BB1 ∧ BB1.name = BB.name := by
    simp only [blockName?] at hname1
    cases hx : st1.F.blocks[bi]? with
    | none => simp [hx] at hname1
    | some B1 =>
      simp only [hx, Option.some.injEq] at hname1
      exact ⟨B1, rfl, hname1⟩
  have hi1 : BB1.instrs =
      BB.instrs.take p ++ sched ++ [mask] ++ (BB.instrs.drop p).dropLast ++ exit ++ [t] := by
    rw [← hcode]
    simp [blockCode, hBB1]
  obtain ⟨x, rest, hxr, hx1, hx2⟩ : ∃ x rest,
      sched ++ [mask] ++ (BB.instrs.drop p).dropLast ++ exit ++ [t] = x :: rest ∧
        x.op ≠ .PHI ∧ x.op.isEHPad = false := by
    have hmop : mask.op = .Alloca := congrArg (fun s => s.2.1) ha
    cases hs : sched with
    | nil =>
      refine ⟨mask, (BB.instrs.drop p).dropLast ++ exit ++ [t], by simp, ?_, ?_⟩
      · rw [hmop]; decide
      · rw [hmop]; rfl
    | cons s ss =>
      have hso : s.op = .Load := by
        rw [hs] at hsops
        by_cases hbody : BB.name = "for.body"
        · rw [if_pos hbody] at hsops
          simp only [List.map_cons, List.cons.injEq] at hsops
          exact hsops.1
        · rw [if_neg hbody] at hsops
          simp at hsops
      refine ⟨s, ss ++ [mask] ++ (BB.instrs.drop p).dropLast ++ exit ++ [t], by simp, ?_, ?_⟩
      · rw [hso]; decide
      · rw [hso]; rfl
  have hfip : getFirstInsertionPt BB1 = some p := by
    have := (getFirstInsertionPt_leading BB.name BB.instrs p hp).2 BB1.name x rest hx1 hx2
    rw [← hxr] at this
    have hi1' : BB1.instrs = BB.instrs.take p ++
        (sched ++ [mask] ++ (BB.instrs.drop p).dropLast ++ exit ++ [t]) := by
      rw [hi1]
      simp only [List.append_assoc]
    rw [← hi1'] at this
    exact this
  refine ⟨?_, hat1, hcode2, ?_, ?_⟩
  · rw [← hslen]
    exact ha
  · rw [hcode2, hsplit1, List.length_append, hqlen]
    simp
  · simp only [step2, hsame, hBB1, hfip, hn1, resolveMask]
    rw [if_neg hc, if_neg hi]
    split_ifs <;> rfl

/-- C2, as stated, fails: in a function whose entry block already holds a value
named `m_for.body`, the entry-mask slot the first walk creates in `for.body`
gets the name `m_for.body1` (instruction 13).  The second walk finds the value
of the entry block under `m_for.body`, puts the load of the exit-mask cell
there and stores it into that slot (instruction 0).  No instruction stores
into the entry-mask slot of `for.body`, which the exit-mask code of the block
reads. -/
theorem shadowed_entry_mask_never_written :
    (runOnFunction emptyModule shadowedLoop [[1, 2, 3]]).map
      (fun r => (blockCode r.2.1 0).map Instr.shape)
      = .ok [(0, .Alloca, .ptr, [.constInt 32 1]),
             (21, .Load, .i1, [.global "m_for.cond_for.body"]),
             (22, .Store, .void, [.inst 21, .inst 0]),
             (1, .Br, .void, [.block 1])] ∧
    (runOnFunction emptyModule shadowedLoop [[1, 2, 3]]).map
      (fun r => ((blockCode r.2.1 2).drop 5).map Instr.shape)
      = .ok [(13, .Alloca, .ptr, [.constInt 32 1]),
             (14, .Alloca, .ptr, [.constInt 32 1]),
             (15, .Load, .i1, [.inst 13]),
             (16, .Store, .void, [.inst 15, .inst 14]),
             (5, .Br, .void, [.block 3])] ∧
    (runOnFunction emptyModule shadowedLoop [[1, 2, 3]]).map
      (fun r => ((blockCode r.2.1 0).map (fun i => i.name),
        ((blockCode r.2.1 2).drop 5).map (fun i => i.name)))
      = .ok (["m_for.body", "", "", ""], ["m_for.body1", "m_for.body_for.inc", "", "", ""]) ∧
    (runOnFunction emptyModule shadowedLoop [[1, 2, 3]]).map
      (fun r => (r.2.1.blocks.map (fun b => b.instrs.filter (fun i =>
        i.op == .Store && i.operands[1]? == some (.inst 13)))).flatten)
      = .ok [] := by
  refine ⟨?_, ?_, ?_, ?_⟩ <;> decide

/-- C2, amended: let the first walk succeed at a mask-bearing block `BB`, let a
later state hold the block as the first walk left it, and let the lookup of
`m_<BB>` in that state return the instruction of the block right behind the
code the first walk put at the first insertion point `p` (position `p`, or
`p + 5` in `for.body`).  Then that instruction is the entry-mask slot the first
walk created for the block, and the second walk at the block is the resolver
on the block's predecessor list.  For every non-empty list `preds` the
resolver succeeds and the code it puts behind the slot stores into the slot the
logical OR of the values loaded from the globals `m_<P>_<BB>`, `P` in `preds`;
for every permutation of `preds` the stored value is the same. -/
theorem resolved_entry_mask_is_or_of_exit_masks (local_id vl f1 : Value)
    (st st1 st2 : PassState) (bi p q : Nat) (BB : BasicBlock) (mask : Instr)
    (preds preds' : List Nat)
    (hb : st.F.blocks[bi]? = some BB) (hp : getFirstInsertionPt BB = some p)
    (hc : BB.name ≠ "for.cond") (hi : BB.name ≠ "for.inc")
    (h1 : step1 local_id vl f1 st bi = .ok st1)
    (hsame : st2.F.blocks[bi]? = st1.F.blocks[bi]?)
    (hlook : lookup st2.F ("m_" ++ BB.name) = some (.instruction bi q mask))
    (hq : q = p + (if BB.name = "for.body" then 5 else 0))
    (hne : preds ≠ []) (hperm : preds'.Perm preds) :
    mask.shape =
      (st.nextId + (if BB.name = "for.body" then 5 else 0), .Alloca, .ptr, [.constInt 32 1]) ∧
    (blockCode st1.F bi)[q]? = some mask ∧
    step2 st2 bi = resolveMaskWith (predecessors st2.F bi) st2 BB.name ∧
    ∃ st' code st'' code',
      resolveMaskWith preds st2 BB.name = .ok st' ∧
      blockCode st'.F bi =
        (blockCode st1.F bi).take (q + 1) ++ code ++ (blockCode st1.F bi).drop (q + 1) ∧
      resolveMaskWith preds' st2 BB.name = .ok st'' ∧
      blockCode st''.F bi =
        (blockCode st1.F bi).take (q + 1) ++ code' ++ (blockCode st1.F bi).drop (q + 1) ∧
      ∀ (vs : Nat → Nat → Nat → Nat) (σ : Machine),
        (exec vs σ code).mem (.stack mask.id) =
          (preds.any (fun P =>
            σ.mem (.global ("m_" ++ getName st2.F (.block P) ++ "_" ++ BB.name)) % 2
              == 1)).toNat ∧
        (exec vs σ code').mem (.stack mask.id) = (exec vs σ code).mem (.stack mask.id) := by
  obtain ⟨hshape, hat, hcode2, hpos, hstep2⟩ :=
    own_entry_mask local_id vl f1 st st1 st2 bi p q BB mask hb hp hc hi h1 hsame hlook hq
  obtain ⟨st', code, st'', code', hr, hcd, hr', hcd', hsem⟩ :=
    resolveMaskWith_perm st2 BB.name bi q mask preds preds' hlook hpos hne hperm
  rw [hcode2] at hcd hcd'
  exact ⟨hshape, hat, hstep2, st', code, st'', code', hr, hcd, hr', hcd', hsem⟩

/-- Witness for C2: the block `join` of the diamond loop, between the first walk up
to `odd` and the first walk over the whole loop, with its predecessors `even`
and `odd` in both orders. -/
theorem resolved_entry_mask_is_or_of_exit_masks_witness :
    ({ id := 33, name := "m_join", op := .Alloca, ty := .ptr,
       operands := [.constInt 32 1] } : Instr).shape =
      ((declared (diamond 100) [1, 2, 3, 4]).nextId +
        (if ({ name := "join", instrs := [BranchInst.unconditional 11 6] } : BasicBlock).name
          = "for.body" then 5 else 0), .Alloca, .ptr, [.constInt 32 1]) ∧
    (blockCode (declared (diamond 100) [1, 2, 3, 4, 5]).F 5)[0]? =
      some { id := 33, name := "m_join", op := .Alloca, ty := .ptr,
             operands := [.constInt 32 1] } ∧
    step2 (declared (diamond 100) [1, 2, 3, 4, 5, 6]) 5 =
      resolveMaskWith (predecessors (declared (diamond 100) [1, 2, 3, 4, 5, 6]).F 5)
        (declared (diamond 100) [1, 2, 3, 4, 5, 6]) "join" ∧
    ∃ st' code st'' code',
      resolveMaskWith [3, 4] (declared (diamond 100) [1, 2, 3, 4, 5, 6]) "join" = .ok st' ∧
      blockCode st'.F 5 =
        (blockCode (declared (diamond 100) [1, 2, 3, 4, 5]).F 5).take (0 + 1) ++ code ++
          (blockCode (declared (diamond 100) [1, 2, 3, 4, 5]).F 5).drop (0 + 1) ∧
      resolveMaskWith [4, 3] (declared (diamond 100) [1, 2, 3, 4, 5, 6]) "join" = .ok st'' ∧
      blockCode st''.F 5 =
        (blockCode (declared (diamond 100) [1, 2, 3, 4, 5]).F 5).take (0 + 1) ++ code' ++
          (blockCode (declared (diamond 100) [1, 2, 3, 4, 5]).F 5).drop (0 + 1) ∧
      ∀ (vs : Nat → Nat → Nat → Nat) (σ : Machine),
        (exec vs σ code).mem (.stack 33) =
          (([3, 4] : List Nat).any (fun P =>
            σ.mem (.global ("m_" ++
              getName (declared (diamond 100) [1, 2, 3, 4, 5, 6]).F (.block P) ++ "_" ++ "join"))
              % 2 == 1)).toNat ∧
        (exec vs σ code').mem (.stack 33) = (exec vs σ code).mem (.stack 33) :=
  resolved_entry_mask_is_or_of_exit_masks (.global "local_id") (.global "vl")
    (.func "llvm.riscv.vsetvli.i32") (declared (diamond 100) [1, 2, 3, 4])
    (declared (diamond 100) [1, 2, 3, 4, 5]) (declared (diamond 100) [1, 2, 3, 4, 5, 6]) 5 0 0
    { name := "join", instrs := [BranchInst.unconditional 11 6] }
    { id := 33, name := "m_join", op := .Alloca, ty := .ptr, operands := [.constInt 32 1] }
    [3, 4] [4, 3] (by decide) (by decide) (by decide) (by decide) (by decide) (by decide)
    (by decide) (by decide) (by decide) (List.Perm.swap 3 4 [])

end Packetizer
